import Mathlib

/-!
Verification development for the give-tree interval store.

The JavaScript sources are shallowly embedded:
* `ChromRegion` (the external `@givengine/chrom-region` dependency, treated by
  the specification as an opaque interval value type) is modelled from the
  spec contract in section 6.2; a `tag` field models JavaScript object
  identity so that "same object" and "structurally equal clone" can be told
  apart.
* `DataNode` embeds `src/lib/dataNode.js` (leaf bins).
* The non-leaf node functions embed `src/lib/giveNonLeafNode.js` and its
  updated revision (`src/unnamed/part_000`), specialised to a root node
  without sibling neighbours (sibling links only mutate `_prev`/`_next`
  fields that no modelled observable reads).
* `GiveTree` embeds the facade in `src/lib/giveTree.js`.
* The auto-balancing operations embed `src/lib/sampleNode.js`.

JavaScript mutation is threaded as explicit state; `throw` becomes
`Except`; `undefined` arguments become `Option`.
-/

/-- Interval value. Modelled from the spec (section 6.2): construction from a
chromosome label plus start/end, accessors `chr`, `start`, `end`, optional
strand, comparator by start then end. Coordinates are 0-based half-open (the
repository test expects `chr1:1-2000` to have `start = 0`, `end = 2000`).
`stop` stands for the JavaScript `end` property (a reserved word in Lean).
`tag` models JavaScript object identity and is ignored by all geometric
operations and comparators. -/
structure ChromRegion where
  chr : String
  start : Int
  stop : Int
  strand : Option Bool := none
  tag : Nat := 0
  deriving Repr, DecidableEq

namespace ChromRegion

/-- Modelled from the spec: `compare(a, b)` total order by start asc, end asc
(the implementation-defined tiebreak is not modelled; entries comparing equal
here are exactly those the source treats as equal in
`DataNode._updateContinuedList`). -/
def compare (a b : ChromRegion) : Ordering :=
  if a.start < b.start then Ordering.lt
  else if b.start < a.start then Ordering.gt
  else if a.stop < b.stop then Ordering.lt
  else if b.stop < a.stop then Ordering.gt
  else Ordering.eq

/-- Modelled from the spec: `overlaps(other)` — same chromosome and strictly
overlapping half-open coordinate ranges. -/
def overlaps (a b : ChromRegion) : Bool :=
  a.chr == b.chr && a.start < b.stop && b.start < a.stop

/-- Modelled from the spec: structural equality (`equalTo`) — chr, start, end
(and strand) match; the payload predicate / identity fallback is not
distinguished beyond these fields. -/
def equalTo (a b : ChromRegion) : Bool :=
  a.chr == b.chr && a.start == b.start && a.stop == b.stop && a.strand == b.strand

/-- Setting `start`: the region stays valid only when the new start does not
exceed the current end (the repository relies on zero-length regions being
accepted: `_addLeafRecords` ends with `chrRange.start = chrRange.end`, and on
`start > end` being rejected: `truncateChrRange` of a non-overlapping region
must throw). -/
def setStart (r : ChromRegion) (v : Int) : Except String ChromRegion :=
  if r.stop < v then Except.error "Invalid start" else Except.ok { r with start := v }

/-- Setting `end` (see `setStart` for the validity rule). -/
def setStop (r : ChromRegion) (v : Int) : Except String ChromRegion :=
  if v < r.start then Except.error "Invalid end" else Except.ok { r with stop := v }

/-- Modelled from the spec: 1-based closed display form, e.g. `chr1:1-2000`. -/
def regionToString (r : ChromRegion) : String :=
  r.chr ++ ":" ++ toString (r.start + 1) ++ "-" ++ toString r.stop

/-- Modelled from the spec: `toString` appends the strand when present,
matching the test expectation `chr1:10-11 (+)`. -/
def crToString (r : ChromRegion) : String :=
  r.regionToString ++
    (match r.strand with
     | some true => " (+)"
     | some false => " (-)"
     | none => "")

/-- Modelled from the spec: `getMinus(other)` — the (at most two) nonempty
pieces of `this` not covered by `other`, left piece first. -/
def getMinus (a b : ChromRegion) : List ChromRegion :=
  (if a.start < b.start then [{ a with stop := min a.stop b.start }] else []) ++
  (if b.stop < a.stop then [{ a with start := max a.start b.stop }] else [])

/-- Modelled from the spec: `assimilate(other)` expands `this` to cover
`other` if touching (overlapping or adjacent); returns `none` (falsy)
otherwise. -/
def assimilate (a b : ChromRegion) : Option ChromRegion :=
  if a.chr == b.chr && a.start ≤ b.stop && b.start ≤ a.stop then
    some { a with start := min a.start b.start, stop := max a.stop b.stop }
  else none

/-- Modelled from the spec: `concat(other)` — successor absorption: absorb
`other` when it starts exactly at `this.end`. -/
def concat (a b : ChromRegion) : Option ChromRegion :=
  if a.chr == b.chr && a.stop == b.start then some { a with stop := b.stop }
  else none

theorem compare_eq_iff {a b : ChromRegion} :
    compare a b = Ordering.eq ↔ a.start = b.start ∧ a.stop = b.stop := by
  unfold compare
  split_ifs with h1 h2 h3 h4 <;> simp <;> omega

theorem compare_eq_symm {a b : ChromRegion}
    (h : compare a b = Ordering.eq) : compare b a = Ordering.eq := by
  rw [compare_eq_iff] at h ⊢
  exact ⟨h.1.symm, h.2.symm⟩

end ChromRegion

/-- Stable insertion into a `compare`-sorted list: the new element goes after
existing entries it does not strictly precede. Used to model the (stable)
JavaScript `Array.prototype.sort`. -/
def sortedInsertCR (a : ChromRegion) : List ChromRegion → List ChromRegion
  | [] => [a]
  | b :: l =>
    if ChromRegion.compare a b = Ordering.lt then a :: b :: l
    else b :: sortedInsertCR a l

/-- Stable sort by `ChromRegion.compare`, modelling
`data.sort(ChromRegion.compare)`. -/
def sortCR : List ChromRegion → List ChromRegion
  | [] => []
  | a :: l => sortedInsertCR a (sortCR l)

/-- Leaf bin, embedding `src/lib/dataNode.js`: a start coordinate plus the
`startList` / `continuedList` pair. -/
structure DataNode where
  start : Int
  startList : List ChromRegion := []
  continuedList : List ChromRegion := []
  deriving Repr, DecidableEq

/-- Leaf-level slot of a non-leaf node at `reverseDepth 0`: the JavaScript
values `null` (unloaded), `false` (known empty) and a populated `DataNode`
bin. -/
inductive LeafSlot where
  | unloaded
  | empty
  | bin (d : DataNode)
  deriving Repr, DecidableEq

namespace DataNode

/-- `DataNode.isEmpty`: no entry in either list. -/
def isEmpty (n : DataNode) : Bool :=
  n.startList.length ≤ 0 && n.continuedList.length ≤ 0

/-- The merge loop inside `DataNode._updateContinuedList`
(src/lib/dataNode.js lines 465-481), with explicit loop fuel (every
iteration advances `selfIndex` or `extIndex`, so
`sl.length + el.length` fuel always suffices): walk both sorted lists; when
an entry of `this.continuedList` compares equal to an external entry, the
stored entry is overwritten with the external one
(`this.continuedList[selfIndex] = extList[extIndex]`); stored entries
comparing strictly smaller are kept, external entries comparing strictly
smaller are skipped. -/
def updateContinuedMergeF : Nat → List ChromRegion → List ChromRegion → List ChromRegion
  | _, sl, [] => sl
  | _, [], _ :: _ => []
  | 0, sl, _ => sl
  | fuel + 1, s :: ss, e :: es =>
    match ChromRegion.compare s e with
    | Ordering.lt => s :: updateContinuedMergeF fuel ss (e :: es)
    | Ordering.gt => updateContinuedMergeF fuel (s :: ss) es
    | Ordering.eq => e :: updateContinuedMergeF fuel ss es

/-- The merge loop at its always-sufficient fuel. -/
def updateContinuedMerge (sl el : List ChromRegion) : List ChromRegion :=
  updateContinuedMergeF (sl.length + el.length) sl el

/-- Core of `DataNode._updateContinuedList` (src/lib/dataNode.js lines
452-484) without the consistency throw: the external list is first spliced
down to entries with `end > this.start`, then merged over
`this.continuedList`. Returns the updated node and the spliced external
list (the source mutates `extList` in place). -/
def _updateContinuedListCore (n : DataNode) (extList : List ChromRegion) :
    DataNode × List ChromRegion :=
  let filtered := extList.filter fun e => decide (n.start < e.stop)
  ({ n with continuedList := updateContinuedMerge n.continuedList filtered }, filtered)

/-- `DataNode._updateContinuedList` including the `throwIfNotConsistent`
check and the `continuedList.concat(startList)` return value. The external
list may be absent (`undefined`). -/
def _updateContinuedList (n : DataNode) (ext : Option (List ChromRegion))
    (throwIfNotConsistent : Bool) :
    Except String (DataNode × List ChromRegion × List ChromRegion) :=
  match ext with
  | none => Except.ok (n, [], n.continuedList ++ n.startList)
  | some extList =>
    let filtered := extList.filter fun e => decide (n.start < e.stop)
    if throwIfNotConsistent && n.continuedList.length > filtered.length then
      Except.error "ContinuedList inconsistent."
    else
      let merged := updateContinuedMerge n.continuedList filtered
      Except.ok ({ n with continuedList := merged }, filtered, merged ++ n.startList)

/-- `DataNode.mergeAfter` (src/lib/dataNode.js lines 407-417): succeeds on
`false` or on a bin with empty `startList`; on a bin with nonempty
`startList` it fails after running `_updateContinuedList` on the right
neighbour with `this.continuedList.concat(this.startList)`; fails on `null`.
Returns the success flag together with the (possibly updated) right
neighbour. -/
def mergeAfter (self : DataNode) (node : LeafSlot) : Bool × LeafSlot :=
  match node with
  | LeafSlot.empty => (true, node)
  | LeafSlot.bin d =>
    if d.startList.length ≤ 0 then (true, node)
    else
      let upd := _updateContinuedListCore d (self.continuedList ++ self.startList)
      (false, LeafSlot.bin upd.fst)
  | LeafSlot.unloaded => (false, node)

theorem updateContinuedMergeF_length (fuel : Nat) :
    ∀ sl el : List ChromRegion, (updateContinuedMergeF fuel sl el).length = sl.length := by
  induction fuel with
  | zero =>
    intro sl el
    cases sl <;> cases el <;> rfl
  | succ fuel ih =>
    intro sl el
    cases sl with
    | nil => cases el <;> rfl
    | cons s ss =>
      cases el with
      | nil => rfl
      | cons e es =>
        show (match ChromRegion.compare s e with
          | Ordering.lt => s :: updateContinuedMergeF fuel ss (e :: es)
          | Ordering.gt => updateContinuedMergeF fuel (s :: ss) es
          | Ordering.eq => e :: updateContinuedMergeF fuel ss es).length = ss.length + 1
        cases ChromRegion.compare s e <;> simp [ih]

theorem updateContinuedMerge_length (sl el : List ChromRegion) :
    (updateContinuedMerge sl el).length = sl.length :=
  updateContinuedMergeF_length _ sl el

/-- The default region used with `List.getD` in index-wise statements. -/
def crDefault : ChromRegion := { chr := "", start := 0, stop := 0 }

theorem updateContinuedMergeF_getD (fuel : Nat) :
    ∀ sl el : List ChromRegion, ∀ i, i < sl.length →
      (updateContinuedMergeF fuel sl el).getD i crDefault = sl.getD i crDefault ∨
      ((updateContinuedMergeF fuel sl el).getD i crDefault ∈ el ∧
        ChromRegion.compare ((updateContinuedMergeF fuel sl el).getD i crDefault)
          (sl.getD i crDefault) = Ordering.eq) := by
  induction fuel with
  | zero =>
    intro sl el i h2
    left
    cases sl <;> cases el <;> rfl
  | succ fuel ih =>
    intro sl el i h2
    cases sl with
    | nil => exact absurd h2 (by simp)
    | cons s ss =>
      cases el with
      | nil => left; rfl
      | cons e es =>
        have hstep : updateContinuedMergeF (fuel + 1) (s :: ss) (e :: es) =
            match ChromRegion.compare s e with
            | Ordering.lt => s :: updateContinuedMergeF fuel ss (e :: es)
            | Ordering.gt => updateContinuedMergeF fuel (s :: ss) es
            | Ordering.eq => e :: updateContinuedMergeF fuel ss es := rfl
        rw [hstep]
        cases heq : ChromRegion.compare s e with
        | lt =>
          rcases i with _ | j
          · left; rfl
          · have h2' : j < ss.length := by simpa using h2
            simpa only [List.getD_cons_succ] using ih ss (e :: es) j h2'
        | gt =>
          rcases ih (s :: ss) es i h2 with h3 | ⟨h3, h4⟩
          · left; exact h3
          · right; exact ⟨List.mem_cons_of_mem _ h3, h4⟩
        | eq =>
          rcases i with _ | j
          · right
            refine ⟨by simp, ?_⟩
            simpa only [List.getD_cons_zero] using ChromRegion.compare_eq_symm heq
          · have h2' : j < ss.length := by simpa using h2
            simp only [List.getD_cons_succ]
            rcases ih ss es j h2' with h3 | ⟨h3, h4⟩
            · left; exact h3
            · right; exact ⟨List.mem_cons_of_mem _ h3, h4⟩

theorem updateContinuedMerge_getD (sl el : List ChromRegion) :
    ∀ i, i < sl.length →
      (updateContinuedMerge sl el).getD i crDefault = sl.getD i crDefault ∨
      ((updateContinuedMerge sl el).getD i crDefault ∈ el ∧
        ChromRegion.compare ((updateContinuedMerge sl el).getD i crDefault)
          (sl.getD i crDefault) = Ordering.eq) :=
  updateContinuedMergeF_getD _ sl el

end DataNode

/-- Errors raised by `GiveNonLeafNode._splitChild`. -/
inductive SplitErr where
  | cannotSplit
  /-- The JavaScript `TypeError` thrown by the line
  `this.Value[index] = newFormerChild` (`this.Value` is `undefined`). -/
  | typeErrorValueBug
  deriving Repr, DecidableEq

/-- Insert `a` at position `i` of `l` (JavaScript `splice(i, 0, a)`). -/
def listInsertAt (i : Nat) (a : α) (l : List α) : List α :=
  l.take i ++ a :: l.drop i

/-- `GiveNonLeafNode._splitChild` at leaf level (src/lib/giveNonLeafNode.js
lines 731-757, identical in src/unnamed/part_000 lines 789-815), on the
`keys` / `values` lists of a node. `none` stands for an `undefined`
argument. Splitting a truthy (populated) slot with neither replacement
provided throws unless the tree is `localOnly` (then the latter child
defaults to the `false` filler); the new key is spliced in after `index`,
and the latter slot is the provided child or a duplicate of the old slot.
When `newFormerChild` is provided the source then executes
`this.Value[index] = newFormerChild`, which throws a `TypeError` because
`this.Value` is `undefined` — modelled as `typeErrorValueBug`. -/
def GiveNonLeafNode._splitChild (localOnly : Bool) (keys : List Int)
    (vals : List LeafSlot) (index : Nat) (newKey : Int)
    (newLatterChild newFormerChild : Option LeafSlot) :
    Except SplitErr (List Int × List LeafSlot) :=
  let oldVal := vals.getD index LeafSlot.unloaded
  let oldTruthy := match oldVal with
    | LeafSlot.bin _ => true
    | _ => false
  let latterDefault : Except SplitErr (Option LeafSlot) :=
    if oldTruthy && newLatterChild.isNone && newFormerChild.isNone then
      if localOnly then Except.ok (some LeafSlot.empty)
      else Except.error SplitErr.cannotSplit
    else Except.ok newLatterChild
  match latterDefault with
  | Except.error e => Except.error e
  | Except.ok newLatter =>
    let keys2 := listInsertAt (index + 1) newKey keys
    let vals2 := listInsertAt (index + 1) (newLatter.getD oldVal) vals
    match newFormerChild with
    | some _ => Except.error SplitErr.typeErrorValueBug
    | none => Except.ok (keys2, vals2)

section ClaimFive

/-- C5 example regions: `c5aOld` is the entry already stored in the right
neighbour's `continuedList`; `c5aExt` is the structurally equal entry owned
by the left bin (different `tag`, i.e. a different JavaScript object). -/
def c5aOld : ChromRegion :=
  { chr := "chr1", start := 11, stop := 1200, strand := some false, tag := 0 }

/-- C5 example: the left bin's structurally equal entry. -/
def c5aExt : ChromRegion :=
  { chr := "chr1", start := 11, stop := 1200, strand := some false, tag := 1 }

/-- C5 left bin: holds `c5aExt` in its `continuedList`. -/
def c5left : DataNode := { start := 49, startList := [], continuedList := [c5aExt] }

/-- C5 right neighbour: nonempty `startList`, `continuedList` holding
`c5aOld`. -/
def c5right : DataNode :=
  { start := 121
    startList := [{ chr := "chr1", start := 122, stop := 456, strand := some false, tag := 2 }]
    continuedList := [c5aOld] }

end ClaimFive

/-- C5 counterexample: `mergeAfter` on a right neighbour with nonempty
`startList` returns `false` but REPLACES the structurally equal entry already
present in the right neighbour's `continuedList` with the left bin's entry
(`this.continuedList[selfIndex] = extList[extIndex]`), so the identity of the
previously stored object is NOT preserved — refuting the claim's
identity-preservation conjunct at this input. -/
theorem c5_mergeAfter_replaces_identity :
    DataNode.mergeAfter c5left (LeafSlot.bin c5right) =
      (false, LeafSlot.bin { c5right with continuedList := [c5aExt] }) ∧
    c5aExt ≠ c5aOld ∧ c5aExt.equalTo c5aOld = true := by
  refine ⟨by decide, by decide, by decide⟩

/-- C5 (amended): `mergeAfter` succeeds exactly on the `false` filler or a
bin with empty `startList`; on a bin with nonempty `startList` it returns
`false` after projecting `continuedList ++ startList` into the right bin's
`continuedList` (dropping entries whose end is not greater than the right
bin's start), where the projection keeps the right bin's list length and
start list, and overwrites each stored entry that compares equal to a
projected entry with that projected entry (the left bin's identity wins);
entries with no equal projected entry are kept unchanged. -/
theorem c5_mergeAfter_characterization (self : DataNode) (node : LeafSlot) :
    ((DataNode.mergeAfter self node).fst = true ↔
      (node = LeafSlot.empty ∨ ∃ d, node = LeafSlot.bin d ∧ d.startList = [])) ∧
    (∀ d, node = LeafSlot.bin d → d.startList ≠ [] →
      (DataNode.mergeAfter self node).fst = false ∧
      ∃ d2, (DataNode.mergeAfter self node).snd = LeafSlot.bin d2 ∧
        d2.start = d.start ∧ d2.startList = d.startList ∧
        d2.continuedList.length = d.continuedList.length ∧
        (∀ i, i < d.continuedList.length →
          d2.continuedList.getD i DataNode.crDefault =
            d.continuedList.getD i DataNode.crDefault ∨
          (d2.continuedList.getD i DataNode.crDefault ∈
              self.continuedList ++ self.startList ∧
            d.start < (d2.continuedList.getD i DataNode.crDefault).stop ∧
            ChromRegion.compare (d2.continuedList.getD i DataNode.crDefault)
              (d.continuedList.getD i DataNode.crDefault) = Ordering.eq))) := by
  constructor
  · cases node with
    | unloaded => simp [DataNode.mergeAfter]
    | empty => simp [DataNode.mergeAfter]
    | bin d =>
      by_cases hd : d.startList = []
      · simp [DataNode.mergeAfter, hd]
      · have hlen : ¬ d.startList.length ≤ 0 := by
          cases h : d.startList with
          | nil => exact absurd h hd
          | cons a l => simp [h]
        rw [show DataNode.mergeAfter self (LeafSlot.bin d) =
          (false, LeafSlot.bin
            (DataNode._updateContinuedListCore d
              (self.continuedList ++ self.startList)).fst) from by
            simp only [DataNode.mergeAfter]
            rw [if_neg hlen]]
        simp only [Bool.false_eq_true, false_iff, not_or]
        refine ⟨by simp, ?_⟩
        rintro ⟨d2, hd2, hd2s⟩
        cases hd2
        exact hd hd2s
  · intro d hnode hd
    subst hnode
    have hlen : ¬ d.startList.length ≤ 0 := by
      cases h : d.startList with
      | nil => exact absurd h hd
      | cons a l => simp [h]
    have hres : DataNode.mergeAfter self (LeafSlot.bin d) =
        (false, LeafSlot.bin
          { d with continuedList := (DataNode.updateContinuedMerge d.continuedList
              ((self.continuedList ++ self.startList).filter
                (fun e => decide (d.start < e.stop)))) }) := by
      simp only [DataNode.mergeAfter]
      rw [if_neg hlen]
      rfl
    constructor
    · rw [hres]
    · refine ⟨{ d with continuedList := (DataNode.updateContinuedMerge d.continuedList
          ((self.continuedList ++ self.startList).filter
            (fun e => decide (d.start < e.stop)))) }, by rw [hres], rfl, rfl, ?_, ?_⟩
      · exact DataNode.updateContinuedMerge_length _ _
      · intro i h2
        have := DataNode.updateContinuedMerge_getD d.continuedList
          ((self.continuedList ++ self.startList).filter fun e => decide (d.start < e.stop))
          i h2
        rcases this with h3 | ⟨h3, h4⟩
        · left; exact h3
        · right
          rw [List.mem_filter] at h3
          refine ⟨h3.1, by simpa using h3.2, h4⟩

/-- C7 (code bug) general form: whenever `newFormerChild` is provided (not
`undefined`), `_splitChild` hits the `this.Value[index] = newFormerChild`
line and throws a `TypeError` instead of replacing the slot at `index`. -/
theorem c7_splitChild_newFormerChild_throws (localOnly : Bool) (keys : List Int)
    (vals : List LeafSlot) (index : Nat) (newKey : Int)
    (newLatterChild : Option LeafSlot) (f : LeafSlot) :
    GiveNonLeafNode._splitChild localOnly keys vals index newKey
        newLatterChild (some f) = Except.error SplitErr.typeErrorValueBug := by
  unfold GiveNonLeafNode._splitChild
  simp

/-- C7 (code bug), concrete failing input: splitting slot 0 of a node with
keys `[0, 10]` and a single `Unloaded` slot while providing both resulting
children throws the `TypeError` (from `this.Value[index]`), whereas the
documented intent (and the claim) is to install `newFormerChild` at the
slot, yielding keys `[0, 5, 10]` and values `[false, false]`. -/
theorem c7_splitChild_valueBug_concrete :
    GiveNonLeafNode._splitChild false [0, 10] [LeafSlot.unloaded] 0 5
        (some LeafSlot.empty) (some LeafSlot.empty) =
      Except.error SplitErr.typeErrorValueBug ∧
    GiveNonLeafNode._splitChild false [0, 10] [LeafSlot.unloaded] 0 5
        (some LeafSlot.empty) none =
      Except.ok ([0, 5, 10], [LeafSlot.unloaded, LeafSlot.empty]) := by
  exact ⟨rfl, rfl⟩

/-- JS `a < b` where `a` may be `undefined` (an out-of-bounds array read):
`undefined < b` is `false`. -/
def jsLtO (a : Option Int) (b : Int) : Bool :=
  match a with
  | some v => decide (v < b)
  | none => false

/-- JS `a <= b` where `a` may be `undefined`: `undefined <= b` is `false`. -/
def jsLeO (a : Option Int) (b : Int) : Bool :=
  match a with
  | some v => decide (v ≤ b)
  | none => false

/-- Traversal options: the callback-related `props` fields of the current
(`props`-object based) traversal API. The data callback is modelled as an
arbitrary state-threading function `(state, entry, chrRange) ↦ (state,
chrRange, returned value)`, covering JavaScript callbacks with side effects
that may also shrink `chrRange`; the data filter is a pure predicate on
`(entry, chrRange)`. -/
structure TravCtx (σ : Type) where
  dataCallback : Option (σ → ChromRegion → ChromRegion → σ × ChromRegion × Bool)
  dataFilter : Option (ChromRegion → ChromRegion → Bool) := none
  breakOnFalse : Bool := false
  allowNull : Bool := false

/-- `GiveTreeNode._callFuncOnDataEntry` (src/lib/giveTreeNode.js lines
299-308): a failing filter short-circuits to `true` without calling the
callback; otherwise the callback runs and the result is
`callback(...) || !returnFalse`. -/
def GiveTreeNode._callFuncOnDataEntry
    (cb : σ → ChromRegion → ChromRegion → σ × ChromRegion × Bool)
    (filter : Option (ChromRegion → ChromRegion → Bool)) (returnFalse : Bool)
    (entry : ChromRegion) (s : σ) (r : ChromRegion) : σ × ChromRegion × Bool :=
  match filter with
  | some f =>
    if ¬ f entry r then (s, r, true)
    else
      let res := cb s entry r
      (res.1, res.2.1, res.2.2 || !returnFalse)
  | none =>
    let res := cb s entry r
    (res.1, res.2.1, res.2.2 || !returnFalse)

/-- The `list.every(callFunc)` loops of `DataNode._traverseChildren`
(src/lib/dataNode.js lines 364-384): each entry is first tested for overlap
against the current `chrRange` (`chrRange.start >= entry.end || entry.start
>= chrRange.end` skips it), then `_callFuncOnDataEntry` runs; a falsy result
stops the iteration. -/
def travEvery (cb : σ → ChromRegion → ChromRegion → σ × ChromRegion × Bool)
    (filter : Option (ChromRegion → ChromRegion → Bool)) (breakOnFalse : Bool) :
    List ChromRegion → σ → ChromRegion → σ × ChromRegion × Bool
  | [], s, r => (s, r, true)
  | entry :: rest, s, r =>
    if r.start ≥ entry.stop || entry.start ≥ r.stop then
      travEvery cb filter breakOnFalse rest s r
    else
      let res := GiveTreeNode._callFuncOnDataEntry cb filter breakOnFalse entry s r
      if res.2.2 then travEvery cb filter breakOnFalse rest res.1 res.2.1
      else (res.1, res.2.1, false)

/-- `DataNode._traverseChildren` (src/lib/dataNode.js lines 360-385),
threading `(callback state, chrRange, props.notFirstCall)`: without a data
callback it returns `true` immediately; otherwise `continuedList` is only
iterated when `notFirstCall` is unset (and a break there leaves
`notFirstCall` unset), after which `notFirstCall` is set and `startList` is
iterated. Since the claims under verification pass no `nodeCallback`,
`DataNode.traverse` (inherited `GiveTreeNode.traverse`) reduces to this
function. -/
def DataNode._traverseChildren (ctx : TravCtx σ) (d : DataNode) :
    σ × ChromRegion × Bool → (σ × ChromRegion × Bool) × Bool
  | (s, r, nfc) =>
    match ctx.dataCallback with
    | none => ((s, r, nfc), true)
    | some cb =>
      if nfc then
        let res := travEvery cb ctx.dataFilter ctx.breakOnFalse d.startList s r
        ((res.1, res.2.1, true), res.2.2)
      else
        let res := travEvery cb ctx.dataFilter ctx.breakOnFalse d.continuedList s r
        if res.2.2 then
          let res2 := travEvery cb ctx.dataFilter ctx.breakOnFalse d.startList res.1 res.2.1
          ((res2.1, res2.2.1, true), res2.2.2)
        else ((res.1, res.2.1, nfc), false)

/-- The inner skip loop of `GiveNonLeafNode._traverseChildren`
(src/unnamed/part_000 lines 930-934): `while (index < this.childNum &&
this.keys[index + 1] <= chrRange.start) index++`, with fuel (the loop
advances `index` every step, so `childNum + 1` fuel always suffices). -/
def travSkip (keys : List Int) (childNum : Nat) (rStart : Int) : Nat → Nat → Nat
  | 0, index => index
  | fuel + 1, index =>
    if index < childNum && jsLeO (keys.get? (index + 1)) rStart then
      travSkip keys childNum rStart fuel (index + 1)
    else index

/-- `getChildCoveringRange` fallback region (src/unnamed/part_000 lines
193-206): leaf slots carry no `coveringRange` of their own, so the region is
rebuilt from the tree chromosome and the bounding keys. -/
def getChildCoveringRangeFlat (chr : String) (keys : List Int) (index : Nat) : ChromRegion :=
  { chr := chr, start := keys.getD index 0, stop := keys.getD (index + 1) 0 }

/-- `GiveNonLeafNode._traverseChildren` (src/unnamed/part_000 lines 924-948)
at `reverseDepth 0` (leaf slots), one outer-loop iteration per fuel unit:
while `keys[index] < chrRange.end && index < childNum` (JavaScript
comparisons against the out-of-bounds `undefined` are `false`): run the
inner skip loop; throw `Data not ready for region ...` on a `null` slot
unless `props.allowNull`; descend into truthy slots (`DataNode.traverse`,
which without a `nodeCallback` is `DataNode._traverseChildren`), propagating
a `false` return; then set `props.notFirstCall = (values[index] !== null)`
(`true` for bins, `false` (empty) fillers and out-of-bounds reads; `false`
for `null`) and advance. Returns the final `(state, chrRange,
notFirstCall)` plus the thrown error or returned boolean. -/
def travChildrenGo (ctx : TravCtx σ) (chr : String) (keys : List Int)
    (slots : List LeafSlot) :
    Nat → Nat → σ × ChromRegion × Bool → (σ × ChromRegion × Bool) × Except String Bool
  | 0, _, st => (st, Except.ok true)
  | fuel + 1, index, st =>
    let s := st.1
    let r := st.2.1
    let nfc := st.2.2
    if jsLtO (keys.get? index) r.stop && decide (index < slots.length) then
      let index2 := travSkip keys slots.length r.start (slots.length + 1) index
      if ¬ ctx.allowNull ∧ slots.get? index2 = some LeafSlot.unloaded then
        (st, Except.error ("Data not ready for region " ++
          (getChildCoveringRangeFlat chr keys index2).crToString))
      else
        match slots.get? index2 with
        | some (LeafSlot.bin d) =>
          let res := DataNode._traverseChildren ctx d (s, r, nfc)
          if ¬ res.2 then (res.1, Except.ok false)
          else
            travChildrenGo ctx chr keys slots fuel (index2 + 1)
              (res.1.1, res.1.2.1, true)
        | some LeafSlot.unloaded =>
          travChildrenGo ctx chr keys slots fuel (index2 + 1) (s, r, false)
        | _ =>
          travChildrenGo ctx chr keys slots fuel (index2 + 1) (s, r, true)
    else (st, Except.ok true)

/-- Non-leaf node at `reverseDepth 0`: the `keys` / `values` lists
(`keys.length = values.length + 1`; `keys[i]`, `keys[i+1]` bound slot `i`). -/
structure FlatNode where
  keys : List Int
  vals : List LeafSlot
  deriving Repr, DecidableEq

/-- `_traverseChildren` on a flat node at always-sufficient fuel (the outer
loop strictly advances `index`, bounded by `childNum + 1` iterations). -/
def FlatNode.traverseChildren (t : FlatNode) (ctx : TravCtx σ) (chr : String)
    (st : σ × ChromRegion × Bool) : (σ × ChromRegion × Bool) × Except String Bool :=
  travChildrenGo ctx chr t.keys t.vals (t.vals.length + 2) 0 st

/-- `GiveNonLeafNode.truncateChrRange` (src/unnamed/part_000 lines 222-241):
clone the range, raise its start to the node start (when `truncStart`) and
lower its end to the node end (when `truncEnd`); a setter failure (the range
does not overlap the node) throws unless `doNotThrow`, in which case the
partially truncated clone is returned. -/
def GiveNonLeafNode.truncateChrRange (nStart nStop : Int) (chrRange : ChromRegion)
    (truncStart truncEnd doNotThrow : Bool) : Except String ChromRegion :=
  let step1 : ChromRegion × Bool :=
    if truncStart && decide (chrRange.start < nStart) then
      match chrRange.setStart nStart with
      | Except.ok r1 => (r1, true)
      | Except.error _ => (chrRange, false)
    else (chrRange, true)
  let step2 : ChromRegion × Bool :=
    if step1.2 then
      if truncEnd && decide (nStop < step1.1.stop) then
        match step1.1.setStop nStop with
        | Except.ok r2 => (r2, true)
        | Except.error _ => (step1.1, false)
      else (step1.1, true)
    else step1
  if step2.2 || doNotThrow then Except.ok step2.1
  else Except.error "not a valid chrRegion or not overlapping with the current node"

/-- `GiveTree.MAX_GENERATION` (src/lib/giveTree.js line 578):
`Number.MAX_SAFE_INTEGER - 100`. -/
def GiveTreeMAXGENERATION : Nat := 9007199254740891

/-- The `GiveTree` facade (src/lib/giveTree.js). `currGen = none` models
`_currGen === null` (withering disabled: `localOnly` or `lifeSpan <= 0`);
`witherActive` models `_witheringPromise !== null` (a wither pass scheduled
or in flight); `pendingOps` counts operations chained onto
`_pendingWitheringPromise`. The root is a `reverseDepth 0` node. The
asynchronous wither pass body itself (`WitheringMixin`, absent from `src/`)
runs outside the synchronous window modelled here and is not executed. -/
structure GiveTree where
  chr : String
  localOnly : Bool
  branchingFactor : Nat
  lifeSpan : Nat
  currGen : Option Nat
  witherActive : Bool
  pendingOps : Nat
  root : FlatNode
  deriving Repr, DecidableEq

namespace GiveTree

/-- `_advanceGenSync` (src/lib/giveTree.js lines 358-363): add one, wrapping
to 0 upon reaching `MAX_GENERATION`. -/
def _advanceGenSync (g : Nat) : Nat :=
  if GiveTreeMAXGENERATION ≤ g + 1 then 0 else g + 1

/-- `_advanceGen` (src/lib/giveTree.js lines 365-375): no-op when withering
is disabled; synchronous advance when no wither promise is pending;
otherwise queued behind the pending promise. -/
def _advanceGen (t : GiveTree) : GiveTree :=
  match t.currGen with
  | none => t
  | some g =>
    if !t.witherActive then { t with currGen := some (_advanceGenSync g) }
    else { t with pendingOps := t.pendingOps + 1 }

/-- `_wither` (src/lib/giveTree.js lines 382-394): no-op when withering is
disabled; otherwise schedule a wither pass (asynchronously — its body does
not run in the synchronous window modelled here) or queue it behind the
one in flight. -/
def _wither (t : GiveTree) : GiveTree :=
  match t.currGen with
  | none => t
  | some _ =>
    if !t.witherActive then { t with witherActive := true }
    else { t with pendingOps := t.pendingOps + 1 }

/-- The chromosome guard used by `traverse`, `getUncachedRange`,
`hasUncachedRange` and `_insertSingleRange`:
`!chrRange || !chrRange.chr || chrRange.chr === this.chr` (a missing range
and an empty — falsy — chromosome string both pass). -/
def chrMatches (t : GiveTree) (rOpt : Option ChromRegion) : Bool :=
  match rOpt with
  | none => true
  | some r => r.chr == "" || r.chr == t.chr

/-- The covering range of the root (src/unnamed/part_000 lines 185-191). -/
def coveringRange (t : GiveTree) : ChromRegion :=
  { chr := t.chr
    start := t.root.keys.getD 0 0
    stop := t.root.keys.getD (t.root.keys.length - 1) 0 }

/-- `GiveTree.traverse` (src/lib/giveTree.js lines 446-468): ranges on a
different (nonempty) chromosome return `true` untouched; otherwise the
generation advances first (unless `props.doNotWither`), the range is
truncated (start side only) against the root, the root traversal runs
(`GiveTreeNode.traverse` without a `nodeCallback` reduces to
`_traverseChildren`), and — in a `finally` block, so also when truncation
or traversal throws — a wither pass is scheduled. Returns the final
facade state, the callback state, and the outcome. -/
def traverse (t : GiveTree) (rOpt : Option ChromRegion) (ctx : TravCtx σ)
    (doNotWither notFirstCall : Bool) (s0 : σ) : GiveTree × σ × Except String Bool :=
  if chrMatches t rOpt then
    let t1 := if doNotWither then t else t._advanceGen
    let nStart := t.root.keys.getD 0 0
    let nStop := t.root.keys.getD (t.root.keys.length - 1) 0
    let rRes : Except String ChromRegion :=
      match rOpt with
      | some r => GiveNonLeafNode.truncateChrRange nStart nStop r true false false
      | none => Except.ok (coveringRange t)
    match rRes with
    | Except.error e =>
      (if doNotWither then t1 else t1._wither, s0, Except.error e)
    | Except.ok r2 =>
      let res := t.root.traverseChildren ctx t.chr (s0, r2, notFirstCall)
      (if doNotWither then t1 else t1._wither, res.1.1, res.2)
  else (t, s0, Except.ok true)

end GiveTree

/-- C9: on a withering-enabled tree (`_currGen` set) with no wither pass in
flight, a `traverse` over a range on the tree's chromosome advances
`_currGen` by exactly one — wrapping to 0 upon reaching `MAX_GENERATION`
(`Number.MAX_SAFE_INTEGER - 100`) — regardless of whether the traversal
throws or what it returns (the advance happens before the `try` block);
with `props.doNotWither` set, `_currGen` is unchanged. -/
theorem c9_traverse_advances_generation (t : GiveTree) (R : ChromRegion)
    (ctx : TravCtx σ) (s0 : σ) (nfc : Bool) (g : Nat)
    (hgen : t.currGen = some g) (hbusy : t.witherActive = false)
    (hchr : R.chr = t.chr) :
    (GiveTree.traverse t (some R) ctx false nfc s0).1.currGen =
      some (if GiveTreeMAXGENERATION ≤ g + 1 then 0 else g + 1) ∧
    (GiveTree.traverse t (some R) ctx true nfc s0).1.currGen = some g := by
  have hmatch : GiveTree.chrMatches t (some R) = true := by
    simp [GiveTree.chrMatches, hchr]
  have hadv : t._advanceGen =
      { t with currGen := some (GiveTree._advanceGenSync g) } := by
    simp [GiveTree._advanceGen, hgen, hbusy]
  have hwith : ∀ u : GiveTree, u.currGen = some (GiveTree._advanceGenSync g) →
      u._wither.currGen = some (GiveTree._advanceGenSync g) := by
    intro u hu
    simp only [GiveTree._wither, hu]
    split <;> rfl
  constructor
  · unfold GiveTree.traverse
    rw [hmatch]
    simp only [if_true, Bool.false_eq_true, if_false, hadv]
    split
    · exact hwith _ rfl
    · exact hwith _ rfl
  · unfold GiveTree.traverse
    rw [hmatch]
    simp only [if_true]
    split
    · exact hgen
    · exact hgen

theorem travEvery_false_true (cb : σ → ChromRegion → ChromRegion → σ × ChromRegion × Bool)
    (filter : Option (ChromRegion → ChromRegion → Bool)) :
    ∀ (l : List ChromRegion) (s : σ) (r : ChromRegion),
      (travEvery cb filter false l s r).2.2 = true := by
  intro l
  induction l with
  | nil => intro s r; rfl
  | cons entry rest ih =>
    intro s r
    unfold travEvery
    split
    · exact ih s r
    · simp only [GiveTreeNode._callFuncOnDataEntry]
      cases filter with
      | none => simp only [Bool.not_false, Bool.or_true, if_true]; exact ih _ _
      | some f =>
        by_cases hf : ¬ f entry r
        · simp only [hf, if_true]
          exact ih _ _
        · simp only [hf, if_false, Bool.not_false, Bool.or_true, if_true]
          exact ih _ _

theorem travEvery_false_const (cb : σ → ChromRegion → ChromRegion → σ × ChromRegion × Bool)
    (filter : Option (ChromRegion → ChromRegion → Bool))
    (hconst : ∀ s e r, (cb s e r).2.1 = r) :
    ∀ (l : List ChromRegion) (s : σ) (r : ChromRegion),
      (travEvery cb filter false l s r).2.1 = r := by
  intro l
  induction l with
  | nil => intro s r; rfl
  | cons entry rest ih =>
    intro s r
    unfold travEvery
    split
    · exact ih s r
    · simp only [GiveTreeNode._callFuncOnDataEntry]
      cases filter with
      | none =>
        simp only [Bool.not_false, Bool.or_true, if_true]
        rw [ih, hconst]
      | some f =>
        by_cases hf : ¬ f entry r
        · simp only [hf, if_true]
          exact ih _ _
        · simp only [hf, if_false, Bool.not_false, Bool.or_true, if_true]
          rw [ih, hconst]

theorem dataNode_traverseChildren_false_true (ctx : TravCtx σ) (d : DataNode)
    (hbof : ctx.breakOnFalse = false) (st : σ × ChromRegion × Bool) :
    (DataNode._traverseChildren ctx d st).2 = true := by
  obtain ⟨s, r, nfc⟩ := st
  unfold DataNode._traverseChildren
  cases hcb : ctx.dataCallback with
  | none => rfl
  | some cb =>
    rw [hbof]
    by_cases hn : nfc
    · simp only [hn, if_true]
      exact travEvery_false_true cb ctx.dataFilter _ _ _
    · simp only [hn, if_false]
      rw [if_pos (travEvery_false_true cb ctx.dataFilter _ _ _)]
      exact travEvery_false_true cb ctx.dataFilter _ _ _

theorem dataNode_traverseChildren_false_const (ctx : TravCtx σ) (d : DataNode)
    (hbof : ctx.breakOnFalse = false)
    (hconst : ∀ cb, ctx.dataCallback = some cb → ∀ s e r, (cb s e r).2.1 = r)
    (st : σ × ChromRegion × Bool) :
    (DataNode._traverseChildren ctx d st).1.2.1 = st.2.1 := by
  obtain ⟨s, r, nfc⟩ := st
  unfold DataNode._traverseChildren
  cases hcb : ctx.dataCallback with
  | none => rfl
  | some cb =>
    have hc := hconst cb hcb
    rw [hbof]
    by_cases hn : nfc
    · simp only [hn, if_true]
      exact travEvery_false_const cb ctx.dataFilter hc _ _ _
    · simp [hn, travEvery_false_true cb ctx.dataFilter,
        travEvery_false_const cb ctx.dataFilter hc]

theorem travSkip_ge (keys : List Int) (cn : Nat) (rStart : Int) :
    ∀ fuel index, index ≤ travSkip keys cn rStart fuel index := by
  intro fuel
  induction fuel with
  | zero => intro index; exact Nat.le_refl _
  | succ fuel ih =>
    intro index
    unfold travSkip
    split
    · exact Nat.le_trans (Nat.le_succ _) (ih (index + 1))
    · exact Nat.le_refl _

theorem travSkip_le (keys : List Int) (cn : Nat) (rStart : Int) (j : Nat)
    (hstop : jsLeO (keys.get? (j + 1)) rStart = false) :
    ∀ fuel index, index ≤ j → travSkip keys cn rStart fuel index ≤ j := by
  intro fuel
  induction fuel with
  | zero => intro index h; exact h
  | succ fuel ih =>
    intro index h
    unfold travSkip
    split
    · rename_i hcond
      rcases Nat.lt_or_ge index j with hlt | hge
      · exact ih (index + 1) hlt
      · have : index = j := Nat.le_antisymm h hge
        subst this
        rw [Bool.and_eq_true] at hcond
        rw [hstop] at hcond
        exact absurd hcond.2 (by simp)
    · exact h

theorem travSkip_stopped (keys : List Int) (cn : Nat) (rStart : Int) :
    ∀ fuel index, cn ≤ index + fuel →
      ¬(travSkip keys cn rStart fuel index < cn ∧
        jsLeO (keys.get? (travSkip keys cn rStart fuel index + 1)) rStart = true) := by
  intro fuel
  induction fuel with
  | zero =>
    intro index hfuel
    unfold travSkip
    rintro ⟨h1, _⟩
    omega
  | succ fuel ih =>
    intro index hfuel
    have hT : travSkip keys cn rStart (fuel + 1) index =
        if index < cn && jsLeO (keys.get? (index + 1)) rStart then
          travSkip keys cn rStart fuel (index + 1)
        else index := rfl
    rw [hT]
    by_cases hcond : (decide (index < cn) && jsLeO (keys.get? (index + 1)) rStart) = true
    · rw [if_pos hcond]
      exact ih (index + 1) (by omega)
    · rw [if_neg hcond]
      rintro ⟨h1, h2⟩
      exact hcond (by simp only [Bool.and_eq_true, decide_eq_true_eq]; exact ⟨h1, h2⟩)

theorem chainLt_get?_lt {keys : List Int} (h : List.Chain' (· < ·) keys) :
    ∀ {i j : Nat} {ki kj : Int}, keys.get? i = some ki → keys.get? j = some kj →
      i < j → ki < kj := by
  intro i j ki kj hi hj hij
  have hp : List.Pairwise (· < ·) keys := List.chain'_iff_pairwise.mp h
  obtain ⟨hi', hival⟩ := List.get?_eq_some.mp hi
  obtain ⟨hj', hjval⟩ := List.get?_eq_some.mp hj
  have := (List.pairwise_iff_get.mp hp) ⟨i, hi'⟩ ⟨j, hj'⟩ hij
  rw [hival, hjval] at this
  exact this

theorem chainLt_get?_le {keys : List Int} (h : List.Chain' (· < ·) keys)
    {i j : Nat} {ki kj : Int} (hi : keys.get? i = some ki)
    (hj : keys.get? j = some kj) (hij : i ≤ j) : ki ≤ kj := by
  rcases Nat.lt_or_ge i j with hlt | hge
  · exact Int.le_of_lt (chainLt_get?_lt h hi hj hlt)
  · have : i = j := Nat.le_antisymm hij hge
    subst this
    rw [hi] at hj
    cases hj
    exact Int.le_refl _

theorem travChildrenGo_succ (ctx : TravCtx σ) (chr : String) (keys : List Int)
    (slots : List LeafSlot) (fuel index : Nat) (s : σ) (r : ChromRegion) (nfc : Bool) :
    travChildrenGo ctx chr keys slots (fuel + 1) index (s, r, nfc) =
      if jsLtO (keys.get? index) r.stop && decide (index < slots.length) then
        (fun index2 =>
          if ¬ ctx.allowNull ∧ slots.get? index2 = some LeafSlot.unloaded then
            ((s, r, nfc), Except.error ("Data not ready for region " ++
              (getChildCoveringRangeFlat chr keys index2).crToString))
          else
            match slots.get? index2 with
            | some (LeafSlot.bin d) =>
              let res := DataNode._traverseChildren ctx d (s, r, nfc)
              if ¬ res.2 then (res.1, Except.ok false)
              else travChildrenGo ctx chr keys slots fuel (index2 + 1)
                (res.1.1, res.1.2.1, true)
            | some LeafSlot.unloaded =>
              travChildrenGo ctx chr keys slots fuel (index2 + 1) (s, r, false)
            | _ => travChildrenGo ctx chr keys slots fuel (index2 + 1) (s, r, true))
          (travSkip keys slots.length r.start (slots.length + 1) index)
      else ((s, r, nfc), Except.ok true) := rfl

theorem travChildrenGo_guard_false (ctx : TravCtx σ) (chr : String) (keys : List Int)
    (slots : List LeafSlot) (fuel index : Nat) (s : σ) (r : ChromRegion) (nfc : Bool)
    (hguard : (jsLtO (keys.get? index) r.stop && decide (index < slots.length)) = false) :
    travChildrenGo ctx chr keys slots (fuel + 1) index (s, r, nfc) =
      ((s, r, nfc), Except.ok true) := by
  rw [travChildrenGo_succ, if_neg (by rw [hguard]; exact Bool.false_ne_true)]

theorem travChildrenGo_succ_null (ctx : TravCtx σ) (chr : String) (keys : List Int)
    (slots : List LeafSlot) (fuel index i2 : Nat) (s : σ) (r : ChromRegion) (nfc : Bool)
    (hguard : (jsLtO (keys.get? index) r.stop && decide (index < slots.length)) = true)
    (hi2 : travSkip keys slots.length r.start (slots.length + 1) index = i2)
    (hax : ctx.allowNull = false)
    (hslot : slots.get? i2 = some LeafSlot.unloaded) :
    travChildrenGo ctx chr keys slots (fuel + 1) index (s, r, nfc) =
      ((s, r, nfc), Except.error ("Data not ready for region " ++
        (getChildCoveringRangeFlat chr keys i2).crToString)) := by
  rw [travChildrenGo_succ, if_pos hguard]
  show (if ¬ ctx.allowNull ∧ slots.get? _ = some LeafSlot.unloaded then _ else _) = _
  rw [hi2, if_pos ⟨by simp [hax], hslot⟩]

theorem travChildrenGo_succ_empty (ctx : TravCtx σ) (chr : String) (keys : List Int)
    (slots : List LeafSlot) (fuel index i2 : Nat) (s : σ) (r : ChromRegion) (nfc : Bool)
    (hguard : (jsLtO (keys.get? index) r.stop && decide (index < slots.length)) = true)
    (hi2 : travSkip keys slots.length r.start (slots.length + 1) index = i2)
    (hslot : slots.get? i2 = some LeafSlot.empty) :
    travChildrenGo ctx chr keys slots (fuel + 1) index (s, r, nfc) =
      travChildrenGo ctx chr keys slots fuel (i2 + 1) (s, r, true) := by
  rw [travChildrenGo_succ, if_pos hguard]
  show (if ¬ ctx.allowNull ∧ slots.get? _ = some LeafSlot.unloaded then _
    else match slots.get? _ with
    | some (LeafSlot.bin d) => _
    | some LeafSlot.unloaded => _
    | _ => _) = _
  rw [hi2, if_neg (by rw [hslot]; rintro ⟨-, h⟩; cases h), hslot]

theorem travChildrenGo_succ_none (ctx : TravCtx σ) (chr : String) (keys : List Int)
    (slots : List LeafSlot) (fuel index i2 : Nat) (s : σ) (r : ChromRegion) (nfc : Bool)
    (hguard : (jsLtO (keys.get? index) r.stop && decide (index < slots.length)) = true)
    (hi2 : travSkip keys slots.length r.start (slots.length + 1) index = i2)
    (hslot : slots.get? i2 = none) :
    travChildrenGo ctx chr keys slots (fuel + 1) index (s, r, nfc) =
      travChildrenGo ctx chr keys slots fuel (i2 + 1) (s, r, true) := by
  rw [travChildrenGo_succ, if_pos hguard]
  show (if ¬ ctx.allowNull ∧ slots.get? _ = some LeafSlot.unloaded then _
    else match slots.get? _ with
    | some (LeafSlot.bin d) => _
    | some LeafSlot.unloaded => _
    | _ => _) = _
  rw [hi2, if_neg (by rw [hslot]; rintro ⟨-, h⟩; cases h), hslot]

theorem travChildrenGo_succ_unloaded_allowed (ctx : TravCtx σ) (chr : String)
    (keys : List Int) (slots : List LeafSlot) (fuel index i2 : Nat) (s : σ)
    (r : ChromRegion) (nfc : Bool)
    (hguard : (jsLtO (keys.get? index) r.stop && decide (index < slots.length)) = true)
    (hi2 : travSkip keys slots.length r.start (slots.length + 1) index = i2)
    (hax : ctx.allowNull = true)
    (hslot : slots.get? i2 = some LeafSlot.unloaded) :
    travChildrenGo ctx chr keys slots (fuel + 1) index (s, r, nfc) =
      travChildrenGo ctx chr keys slots fuel (i2 + 1) (s, r, false) := by
  rw [travChildrenGo_succ, if_pos hguard]
  show (if ¬ ctx.allowNull ∧ slots.get? _ = some LeafSlot.unloaded then _
    else match slots.get? _ with
    | some (LeafSlot.bin d) => _
    | some LeafSlot.unloaded => _
    | _ => _) = _
  rw [hi2, if_neg (by rw [hax]; rintro ⟨h, -⟩; exact h rfl), hslot]

theorem travChildrenGo_succ_bin (ctx : TravCtx σ) (chr : String) (keys : List Int)
    (slots : List LeafSlot) (fuel index i2 : Nat) (s : σ) (r : ChromRegion) (nfc : Bool)
    (d : DataNode)
    (hguard : (jsLtO (keys.get? index) r.stop && decide (index < slots.length)) = true)
    (hi2 : travSkip keys slots.length r.start (slots.length + 1) index = i2)
    (hslot : slots.get? i2 = some (LeafSlot.bin d)) :
    travChildrenGo ctx chr keys slots (fuel + 1) index (s, r, nfc) =
      (if ¬ (DataNode._traverseChildren ctx d (s, r, nfc)).2 then
        ((DataNode._traverseChildren ctx d (s, r, nfc)).1, Except.ok false)
      else travChildrenGo ctx chr keys slots fuel (i2 + 1)
        ((DataNode._traverseChildren ctx d (s, r, nfc)).1.1,
          (DataNode._traverseChildren ctx d (s, r, nfc)).1.2.1, true)) := by
  rw [travChildrenGo_succ, if_pos hguard]
  show (if ¬ ctx.allowNull ∧ slots.get? _ = some LeafSlot.unloaded then _
    else match slots.get? _ with
    | some (LeafSlot.bin d) => _
    | some LeafSlot.unloaded => _
    | _ => _) = _
  rw [hi2, if_neg (by rw [hslot]; rintro ⟨-, h⟩; cases h), hslot]

theorem travChildrenGo_hits_null (ctx : TravCtx σ) (chr : String) (keys : List Int)
    (slots : List LeafSlot)
    (hax : ctx.allowNull = false) (hbof : ctx.breakOnFalse = false)
    (hconst : ∀ cb, ctx.dataCallback = some cb → ∀ s e r, (cb s e r).2.1 = r)
    (hsorted : List.Chain' (· < ·) keys)
    (hlen : keys.length = slots.length + 1) :
    ∀ fuel index (s : σ) (r : ChromRegion) (nfc : Bool) (j : Nat) (kj kj1 : Int),
      index ≤ j →
      slots.get? j = some LeafSlot.unloaded →
      keys.get? j = some kj → kj < r.stop →
      keys.get? (j + 1) = some kj1 → r.start < kj1 →
      slots.length + 1 ≤ index + fuel →
      ∃ j2 kj2 kj21,
        slots.get? j2 = some LeafSlot.unloaded ∧
        keys.get? j2 = some kj2 ∧ kj2 < r.stop ∧
        keys.get? (j2 + 1) = some kj21 ∧ r.start < kj21 ∧
        (travChildrenGo ctx chr keys slots fuel index (s, r, nfc)).2 =
          Except.error ("Data not ready for region " ++
            (getChildCoveringRangeFlat chr keys j2).crToString) := by
  intro fuel
  induction fuel with
  | zero =>
    intro index s r nfc j kj kj1 hij hj hkj hkjlt hkj1 hkgt hfuel
    exfalso
    have := (List.get?_eq_some.mp hj).1
    omega
  | succ fuel ih =>
    intro index s r nfc j kj kj1 hij hj hkj hkjlt hkj1 hkgt hfuel
    have hjlen : j < slots.length := (List.get?_eq_some.mp hj).1
    have hidxlen : index < slots.length := Nat.lt_of_le_of_lt hij hjlen
    have hkeyidx : index < keys.length := by omega
    obtain ⟨ki, hki⟩ : ∃ ki, keys.get? index = some ki :=
      ⟨keys.get ⟨index, hkeyidx⟩, List.get?_eq_some.mpr ⟨hkeyidx, rfl⟩⟩
    have hkile : ki ≤ kj := chainLt_get?_le hsorted hki hkj hij
    have hguard : (jsLtO (keys.get? index) r.stop && decide (index < slots.length)) = true := by
      rw [hki]
      simp only [jsLtO, Bool.and_eq_true, decide_eq_true_eq]
      exact ⟨lt_of_le_of_lt hkile hkjlt, hidxlen⟩
    have hstopj : jsLeO (keys.get? (j + 1)) r.start = false := by
      rw [hkj1]
      simp only [jsLeO, decide_eq_false_iff_not]
      omega
    set i2 := travSkip keys slots.length r.start (slots.length + 1) index with hi2def
    have hi2ge : index ≤ i2 := travSkip_ge keys slots.length r.start _ index
    have hi2le : i2 ≤ j := travSkip_le keys slots.length r.start j hstopj _ index hij
    have hi2lt : i2 < slots.length := Nat.lt_of_le_of_lt hi2le hjlen
    have hi2key : i2 < keys.length := by omega
    have hi2key1 : i2 + 1 < keys.length := by omega
    obtain ⟨ki2, hki2⟩ : ∃ k, keys.get? i2 = some k :=
      ⟨keys.get ⟨i2, hi2key⟩, List.get?_eq_some.mpr ⟨hi2key, rfl⟩⟩
    obtain ⟨k21, hk21⟩ : ∃ k, keys.get? (i2 + 1) = some k :=
      ⟨keys.get ⟨i2 + 1, hi2key1⟩, List.get?_eq_some.mpr ⟨hi2key1, rfl⟩⟩
    have hki2lt : ki2 < r.stop :=
      lt_of_le_of_lt (chainLt_get?_le hsorted hki2 hkj hi2le) hkjlt
    have hgt21 : r.start < k21 := by
      by_contra hle
      refine travSkip_stopped keys slots.length r.start (slots.length + 1) index
        (by omega) ⟨?_, ?_⟩
      · rw [← hi2def]; exact hi2lt
      · rw [← hi2def, hk21]
        simp only [jsLeO, decide_eq_true_eq]
        omega
    cases hslot : slots.get? i2 with
    | none =>
      exfalso
      rw [List.get?_eq_none] at hslot
      omega
    | some sl =>
      cases sl with
      | unloaded =>
        refine ⟨i2, ki2, k21, hslot, hki2, hki2lt, hk21, hgt21, ?_⟩
        rw [travChildrenGo_succ_null ctx chr keys slots fuel index i2 s r nfc hguard
          hi2def.symm hax hslot]
      | empty =>
        have hne : i2 ≠ j := by
          intro e
          rw [e, hj] at hslot
          cases hslot
        have hi2j : i2 < j := Nat.lt_of_le_of_ne hi2le hne
        obtain ⟨j2, kj2, kj21, a1, a2, a3, a4, a5, hres⟩ :=
          ih (i2 + 1) s r true j kj kj1 (by omega) hj hkj hkjlt hkj1 hkgt (by omega)
        refine ⟨j2, kj2, kj21, a1, a2, a3, a4, a5, ?_⟩
        rw [travChildrenGo_succ_empty ctx chr keys slots fuel index i2 s r nfc hguard
          hi2def.symm hslot]
        exact hres
      | bin d =>
        have hne : i2 ≠ j := by
          intro e
          rw [e, hj] at hslot
          cases hslot
        have hi2j : i2 < j := Nat.lt_of_le_of_ne hi2le hne
        have htrue : (DataNode._traverseChildren ctx d (s, r, nfc)).2 = true :=
          dataNode_traverseChildren_false_true ctx d hbof _
        have hrc : (DataNode._traverseChildren ctx d (s, r, nfc)).1.2.1 = r :=
          dataNode_traverseChildren_false_const ctx d hbof hconst (s, r, nfc)
        obtain ⟨j2, kj2, kj21, a1, a2, a3, a4, a5, hres⟩ :=
          ih (i2 + 1) (DataNode._traverseChildren ctx d (s, r, nfc)).1.1 r true
            j kj kj1 (by omega) hj hkj hkjlt hkj1 hkgt (by omega)
        refine ⟨j2, kj2, kj21, a1, a2, a3, a4, a5, ?_⟩
        rw [travChildrenGo_succ_bin ctx chr keys slots fuel index i2 s r nfc d hguard
          hi2def.symm hslot]
        rw [if_neg (by rw [htrue]; exact fun h => h rfl)]
        rw [hrc]
        exact hres

theorem travChildrenGo_allowNull_ok (ctx : TravCtx σ) (chr : String) (keys : List Int)
    (slots : List LeafSlot)
    (hax : ctx.allowNull = true) (hbof : ctx.breakOnFalse = false) :
    ∀ fuel index (st : σ × ChromRegion × Bool),
      (travChildrenGo ctx chr keys slots fuel index st).2 = Except.ok true := by
  intro fuel
  induction fuel with
  | zero => intro index st; rfl
  | succ fuel ih =>
    intro index st
    obtain ⟨s, r, nfc⟩ := st
    by_cases hguard :
        (jsLtO (keys.get? index) r.stop && decide (index < slots.length)) = true
    · cases hslot : slots.get? (travSkip keys slots.length r.start (slots.length + 1) index) with
      | none =>
        rw [travChildrenGo_succ_none ctx chr keys slots fuel index _ s r nfc hguard rfl hslot]
        exact ih _ _
      | some sl =>
        cases sl with
        | unloaded =>
          rw [travChildrenGo_succ_unloaded_allowed ctx chr keys slots fuel index _ s r nfc
            hguard rfl hax hslot]
          exact ih _ _
        | empty =>
          rw [travChildrenGo_succ_empty ctx chr keys slots fuel index _ s r nfc hguard rfl hslot]
          exact ih _ _
        | bin d =>
          rw [travChildrenGo_succ_bin ctx chr keys slots fuel index _ s r nfc d hguard rfl hslot]
          rw [if_neg (by
            rw [dataNode_traverseChildren_false_true ctx d hbof]
            exact fun h => h rfl)]
          exact ih _ _
    · rw [travChildrenGo_guard_false ctx chr keys slots fuel index s r nfc
        (Bool.eq_false_iff.mpr hguard)]

/-- C6: on a non-`localOnly` tree whose root keys are sorted with one more
key than slots, traversing a range `R` on the tree's chromosome (with start
at or past the root start, break-free and range-preserving callbacks) while
some `null` (unloaded) slot `j` overlaps `R`: if `props.allowNull` is falsy
the traversal throws `Data not ready for region ...` naming the covering
range of an overlapping unloaded slot; if `props.allowNull` is truthy the
traversal completes normally and returns `true`. -/
theorem c6_traverse_unloaded_slot (t : GiveTree) (R : ChromRegion) (ctx : TravCtx σ)
    (dnw nfc : Bool) (s0 : σ) (j : Nat) (kj kj1 : Int)
    (_hlocal : t.localOnly = false)
    (hchr : R.chr = t.chr)
    (hsorted : List.Chain' (· < ·) t.root.keys)
    (hlen : t.root.keys.length = t.root.vals.length + 1)
    (hns : t.root.keys.getD 0 0 ≤ R.start)
    (hbof : ctx.breakOnFalse = false)
    (hconst : ∀ cb, ctx.dataCallback = some cb → ∀ s e r, (cb s e r).2.1 = r)
    (hj : t.root.vals.get? j = some LeafSlot.unloaded)
    (hkj : t.root.keys.get? j = some kj) (hkjlt : kj < R.stop)
    (hkj1 : t.root.keys.get? (j + 1) = some kj1) (hkgt : R.start < kj1) :
    (ctx.allowNull = false →
      ∃ j2 kj2 kj21,
        t.root.vals.get? j2 = some LeafSlot.unloaded ∧
        t.root.keys.get? j2 = some kj2 ∧ kj2 < R.stop ∧
        t.root.keys.get? (j2 + 1) = some kj21 ∧ R.start < kj21 ∧
        (GiveTree.traverse t (some R) ctx dnw nfc s0).2.2 =
          Except.error ("Data not ready for region " ++
            (getChildCoveringRangeFlat t.chr t.root.keys j2).crToString)) ∧
    (ctx.allowNull = true →
      (GiveTree.traverse t (some R) ctx dnw nfc s0).2.2 = Except.ok true) := by
  have hmatch : GiveTree.chrMatches t (some R) = true := by
    simp [GiveTree.chrMatches, hchr]
  have htr : GiveNonLeafNode.truncateChrRange (t.root.keys.getD 0 0)
      (t.root.keys.getD (t.root.keys.length - 1) 0) R true false false =
      Except.ok R := by
    unfold GiveNonLeafNode.truncateChrRange
    rw [show (true && decide (R.start < t.root.keys.getD 0 0)) = false by
      simp only [Bool.true_and, decide_eq_false_iff_not]
      exact not_lt.mpr hns]
    rfl
  have hout : (GiveTree.traverse t (some R) ctx dnw nfc s0).2.2 =
      (travChildrenGo ctx t.chr t.root.keys t.root.vals
        (t.root.vals.length + 2) 0 (s0, R, nfc)).2 := by
    unfold GiveTree.traverse
    rw [hmatch]
    simp only [if_true]
    rw [htr]
    rfl
  constructor
  · intro hax
    obtain ⟨j2, kj2, kj21, a1, a2, a3, a4, a5, hres⟩ :=
      travChildrenGo_hits_null ctx t.chr t.root.keys t.root.vals hax hbof hconst
        hsorted hlen (t.root.vals.length + 2) 0 s0 R nfc j kj kj1
        (Nat.zero_le _) hj hkj hkjlt hkj1 hkgt (by omega)
    exact ⟨j2, kj2, kj21, a1, a2, a3, a4, a5, by rw [hout]; exact hres⟩
  · intro hax
    rw [hout]
    exact travChildrenGo_allowNull_ok ctx t.chr t.root.keys t.root.vals hax hbof _ _ _

/-- Witness for C6: a tree over `chr1` with keys `[0, 10]` and a single
unloaded slot; traversing `chr1:3-8` without `allowNull` yields the
data-not-ready error naming the slot's covering range `chr1:1-10`. -/
theorem c6_witness :
    (GiveTree.traverse (σ := Unit)
        { chr := "chr1", localOnly := false, branchingFactor := 20, lifeSpan := 0,
          currGen := none, witherActive := false, pendingOps := 0,
          root := { keys := [0, 10], vals := [LeafSlot.unloaded] } }
        (some { chr := "chr1", start := 2, stop := 8 })
        { dataCallback := none } false false ()).2.2 =
      Except.error "Data not ready for region chr1:1-10" := by
  obtain ⟨h1, -⟩ := c6_traverse_unloaded_slot (σ := Unit)
    { chr := "chr1", localOnly := false, branchingFactor := 20, lifeSpan := 0,
      currGen := none, witherActive := false, pendingOps := 0,
      root := { keys := [0, 10], vals := [LeafSlot.unloaded] } }
    { chr := "chr1", start := 2, stop := 8 }
    { dataCallback := none } false false () 0 0 10
    rfl rfl (List.chain'_cons.mpr ⟨by norm_num, List.chain'_singleton _⟩)
    rfl (by decide) rfl (fun cb h => nomatch h)
    rfl rfl (by decide) rfl (by decide)
  obtain ⟨j2, kj2, kj21, hslot, -, -, -, -, hres⟩ := h1 rfl
  have hj2 : j2 = 0 := by
    have h := (List.get?_eq_some.mp hslot).1
    simp only [List.length_cons, List.length_nil] at h
    omega
  subst hj2
  rw [hres]
  rfl

/-- The canonical observing `dataCallback`: log every entry passed to the
callback (JavaScript callers pass a closure pushing onto an array), leaving
the traversal range untouched and returning a truthy value. -/
def logCB : List ChromRegion → ChromRegion → ChromRegion →
    List ChromRegion × ChromRegion × Bool :=
  fun log e r => (e :: log, r, true)

/-- Traversal props with the logging `dataCallback`, no filter, no
`breakOnFalse`, no `allowNull`. -/
def logCtx : TravCtx (List ChromRegion) := { dataCallback := some logCB }

/-- The entries of a list actually passed to the callback when the current
range is `r`: the `.every` loop skips an entry iff
`chrRange.start >= entry.end || entry.start >= chrRange.end`
(src/lib/dataNode.js lines 365-367, 374-376). -/
def emits (r : ChromRegion) (l : List ChromRegion) : List ChromRegion :=
  l.filter (fun e => !(decide (r.start ≥ e.stop) || decide (e.start ≥ r.stop)))

/-- The startList entries emitted by the outer loop of
`GiveNonLeafNode._traverseChildren` from slot `index` on, once
`props.notFirstCall` is set: one slot per fuel unit, gated by the loop
guard `keys[index] < chrRange.end && index < childNum`. -/
def tailEmitsF (keys : List Int) (vals : List LeafSlot) (r : ChromRegion) :
    Nat → Nat → List ChromRegion
  | 0, _ => []
  | fuel + 1, index =>
    if jsLtO (keys.get? index) r.stop && decide (index < vals.length) then
      (match vals.get? index with
       | some (LeafSlot.bin d) => emits r d.startList
       | _ => []) ++ tailEmitsF keys vals r fuel (index + 1)
    else []

/-- The concatenation of the `startList`s of the bins before slot `i`. -/
def prevStartJoin (vals : List LeafSlot) (i : Nat) : List ChromRegion :=
  ((vals.take i).map (fun s =>
    match s with
    | LeafSlot.bin d => d.startList
    | _ => [])).flatten

theorem travEvery_log : ∀ (l log : List ChromRegion) (r : ChromRegion),
    travEvery logCB none false l log r = ((emits r l).reverse ++ log, r, true) := by
  intro l
  induction l with
  | nil => intro log r; rfl
  | cons entry rest ih =>
    intro log r
    by_cases hskip : (decide (r.start ≥ entry.stop) || decide (entry.start ≥ r.stop)) = true
    · have h1 : travEvery logCB none false (entry :: rest) log r =
          travEvery logCB none false rest log r := by
        simp only [travEvery]
        rw [if_pos hskip]
      have h2 : emits r (entry :: rest) = emits r rest := by
        simp only [emits, List.filter_cons]
        rw [hskip]
        rfl
      rw [h1, h2, ih]
    · have h1 : travEvery logCB none false (entry :: rest) log r =
          travEvery logCB none false rest (entry :: log) r := by
        simp only [travEvery]
        rw [if_neg hskip]
        rfl
      have h2 : emits r (entry :: rest) = entry :: emits r rest := by
        simp only [emits, List.filter_cons]
        rw [Bool.eq_false_iff.mpr hskip]
        rfl
      rw [h1, h2, ih]
      simp

theorem dataNode_log (d : DataNode) (log : List ChromRegion) (r : ChromRegion)
    (nfc : Bool) :
    DataNode._traverseChildren logCtx d (log, r, nfc) =
      ((((if nfc then [] else emits r d.continuedList) ++
          emits r d.startList).reverse ++ log, r, true), true) := by
  cases nfc with
  | true =>
    show DataNode._traverseChildren logCtx d (log, r, true) = _
    simp only [DataNode._traverseChildren, logCtx, travEvery_log]
    simp
  | false =>
    show DataNode._traverseChildren logCtx d (log, r, false) = _
    simp only [DataNode._traverseChildren, logCtx, travEvery_log]
    simp

theorem travSkip_stay (keys : List Int) (cn : Nat) (v : Int) (fuel index : Nat)
    (h : jsLeO (keys.get? (index + 1)) v = false) :
    travSkip keys cn v (fuel + 1) index = index := by
  have hT : travSkip keys cn v (fuel + 1) index =
      if index < cn && jsLeO (keys.get? (index + 1)) v then
        travSkip keys cn v fuel (index + 1)
      else index := rfl
  rw [hT, if_neg]
  rw [h]
  simp

theorem travSkip_start_le (keys : List Int) (cn : Nat) (v : Int) :
    ∀ fuel index, jsLeO (keys.get? index) v = true →
      jsLeO (keys.get? (travSkip keys cn v fuel index)) v = true := by
  intro fuel
  induction fuel with
  | zero => intro index h; exact h
  | succ fuel ih =>
    intro index h
    have hT : travSkip keys cn v (fuel + 1) index =
        if index < cn && jsLeO (keys.get? (index + 1)) v then
          travSkip keys cn v fuel (index + 1)
        else index := rfl
    rw [hT]
    by_cases hcond : (decide (index < cn) && jsLeO (keys.get? (index + 1)) v) = true
    · rw [if_pos hcond]
      exact ih (index + 1) (Bool.and_eq_true _ _ ▸ hcond).2
    · rw [if_neg hcond]
      exact h

theorem jsLeO_succ_false {keys : List Int} (hsorted : List.Chain' (· < ·) keys)
    {i : Nat} {v : Int} (h : jsLeO (keys.get? (i + 1)) v = false) :
    jsLeO (keys.get? (i + 2)) v = false := by
  cases h2 : keys.get? (i + 2) with
  | none => rfl
  | some k =>
    have hlen2 : i + 2 < keys.length := (List.get?_eq_some.mp h2).1
    have hlen1 : i + 1 < keys.length := by omega
    obtain ⟨k1, hk1⟩ : ∃ k1, keys.get? (i + 1) = some k1 :=
      ⟨keys.get ⟨i + 1, hlen1⟩, List.get?_eq_some.mpr ⟨hlen1, rfl⟩⟩
    have hgt : v < k1 := by
      rw [hk1] at h
      simp only [jsLeO, decide_eq_false_iff_not] at h
      omega
    have hk1k : k1 < k := chainLt_get?_lt hsorted hk1 h2 (by omega)
    simp only [jsLeO, decide_eq_false_iff_not]
    omega

theorem travGo_tail_log (chr : String) (keys : List Int) (vals : List LeafSlot)
    (hsorted : List.Chain' (· < ·) keys) :
    ∀ fuel index (log : List ChromRegion) (r : ChromRegion),
      (∀ i, index ≤ i → i < vals.length → ∃ d, vals.get? i = some (LeafSlot.bin d)) →
      jsLeO (keys.get? (index + 1)) r.start = false →
      travChildrenGo logCtx chr keys vals fuel index (log, r, true) =
        (((tailEmitsF keys vals r fuel index).reverse ++ log, r, true),
          Except.ok true) := by
  intro fuel
  induction fuel with
  | zero =>
    intro index log r hb hsk
    show ((log, r, true), Except.ok true) = _
    simp [tailEmitsF]
  | succ fuel ih =>
    intro index log r hb hsk
    have hTtail : tailEmitsF keys vals r (fuel + 1) index =
        if jsLtO (keys.get? index) r.stop && decide (index < vals.length) then
          (match vals.get? index with
           | some (LeafSlot.bin d) => emits r d.startList
           | _ => []) ++ tailEmitsF keys vals r fuel (index + 1)
        else [] := rfl
    by_cases hguard : (jsLtO (keys.get? index) r.stop && decide (index < vals.length)) = true
    · have hlt : index < vals.length := by
        have := (Bool.and_eq_true _ _ ▸ hguard).2
        exact of_decide_eq_true this
      obtain ⟨d, hd⟩ := hb index (Nat.le_refl _) hlt
      have hstay : travSkip keys vals.length r.start (vals.length + 1) index = index :=
        travSkip_stay keys vals.length r.start vals.length index hsk
      rw [travChildrenGo_succ_bin logCtx chr keys vals fuel index index log r true d
        hguard hstay hd]
      rw [dataNode_log]
      rw [if_neg (by exact fun h => h rfl)]
      rw [ih (index + 1) _ r (fun i hi hilen => hb i (by omega) hilen)
        (jsLeO_succ_false hsorted hsk)]
      rw [hTtail, if_pos hguard, hd]
      simp
    · rw [travChildrenGo_guard_false logCtx chr keys vals fuel index log r true
        (Bool.eq_false_iff.mpr hguard)]
      rw [hTtail, if_neg (by rw [Bool.eq_false_iff.mpr hguard]; exact Bool.false_ne_true)]
      simp

theorem travGo_first_log (chr : String) (keys : List Int) (vals : List LeafSlot)
    (hsorted : List.Chain' (· < ·) keys) (fl f : Nat) (df : DataNode)
    (log : List ChromRegion) (r : ChromRegion)
    (hb : ∀ i, i < vals.length → ∃ d, vals.get? i = some (LeafSlot.bin d))
    (hguard0 : (jsLtO (keys.get? 0) r.stop && decide (0 < vals.length)) = true)
    (hskipf : travSkip keys vals.length r.start (vals.length + 1) 0 = f)
    (hfstop : jsLeO (keys.get? (f + 1)) r.start = false)
    (hd : vals.get? f = some (LeafSlot.bin df)) :
    travChildrenGo logCtx chr keys vals (fl + 1) 0 (log, r, false) =
      (((emits r df.continuedList ++ emits r df.startList ++
          tailEmitsF keys vals r fl (f + 1)).reverse ++ log, r, true),
        Except.ok true) := by
  rw [travChildrenGo_succ_bin logCtx chr keys vals fl 0 f log r false df hguard0
    hskipf hd]
  rw [dataNode_log]
  rw [if_neg (by exact fun h => h rfl)]
  rw [travGo_tail_log chr keys vals hsorted fl (f + 1) _ r
    (fun i _ hilen => hb i hilen) (jsLeO_succ_false hsorted hfstop)]
  simp

theorem count_filter_ite (p : ChromRegion → Bool) (x : ChromRegion)
    (l : List ChromRegion) :
    (l.filter p).count x = if p x then l.count x else 0 := by
  by_cases h : p x = true
  · rw [if_pos h]
    exact List.count_filter h
  · rw [if_neg h, List.count_eq_zero]
    intro hmem
    exact h (List.of_mem_filter hmem)

theorem prevStartJoin_succ (vals : List LeafSlot) (i : Nat) :
    prevStartJoin vals (i + 1) =
      prevStartJoin vals i ++
        (match vals.get? i with
         | some (LeafSlot.bin d) => d.startList
         | _ => []) := by
  unfold prevStartJoin
  rw [List.take_succ, List.map_append, List.flatten_append]
  congr 1
  cases h : vals.get? i with
  | none =>
    rw [List.get?_eq_getElem?] at h
    simp [h]
  | some s =>
    rw [List.get?_eq_getElem?] at h
    cases s <;> simp [h]

theorem count_prevStartJoin (vals : List LeafSlot) (x : ChromRegion) (h : Nat)
    (dh : DataNode) (hstored : vals.get? h = some (LeafSlot.bin dh))
    (hzero : ∀ i d, vals.get? i = some (LeafSlot.bin d) → i ≠ h →
      d.startList.count x = 0) :
    ∀ i, (prevStartJoin vals i).count x =
      if h < i then dh.startList.count x else 0 := by
  intro i
  induction i with
  | zero => simp [prevStartJoin]
  | succ i ih =>
    rw [prevStartJoin_succ vals i, List.count_append, ih]
    by_cases hih : i = h
    · subst hih
      rw [hstored]
      simp [Nat.lt_irrefl, Nat.lt_succ_self]
    · cases hv : vals.get? i with
      | none =>
        simp only [List.count_nil]
        split_ifs <;> omega
      | some s =>
        cases s with
        | bin d =>
          rw [hzero i d hv hih]
          split_ifs <;> omega
        | unloaded =>
          simp only [List.count_nil]
          split_ifs <;> omega
        | empty =>
          simp only [List.count_nil]
          split_ifs <;> omega

theorem tailEmitsF_count_zero (keys : List Int) (vals : List LeafSlot)
    (r x : ChromRegion) (h : Nat)
    (hsorted : List.Chain' (· < ·) keys)
    (hxs : keys.get? h = some x.start)
    (halign : ∀ i d e, vals.get? i = some (LeafSlot.bin d) → e ∈ d.startList →
      e.start = d.start)
    (hbinStart : ∀ i d, vals.get? i = some (LeafSlot.bin d) →
      keys.get? i = some d.start) :
    ∀ fuel index, h < index → (tailEmitsF keys vals r fuel index).count x = 0 := by
  intro fuel
  induction fuel with
  | zero => intro index _; rfl
  | succ fuel ih =>
    intro index hhi
    have hTtail : tailEmitsF keys vals r (fuel + 1) index =
        if jsLtO (keys.get? index) r.stop && decide (index < vals.length) then
          (match vals.get? index with
           | some (LeafSlot.bin d) => emits r d.startList
           | _ => []) ++ tailEmitsF keys vals r fuel (index + 1)
        else [] := rfl
    rw [hTtail]
    by_cases hguard : (jsLtO (keys.get? index) r.stop && decide (index < vals.length)) = true
    · rw [if_pos hguard, List.count_append, ih (index + 1) (by omega)]
      cases hv : vals.get? index with
      | none => rfl
      | some s =>
        cases s with
        | bin d =>
          have hnot : x ∉ d.startList := by
            intro hmem
            have hds : keys.get? index = some d.start := hbinStart index d hv
            have hxd : x.start = d.start := halign index d x hv hmem
            rw [← hxd] at hds
            have := chainLt_get?_lt hsorted hxs hds hhi
            omega
          have : (emits r d.startList).count x = 0 := by
            rw [List.count_eq_zero]
            intro hm
            exact hnot (List.mem_of_mem_filter hm)
          rw [this]
        | unloaded => rfl
        | empty => rfl
    · rw [if_neg hguard]
      rfl

theorem tailEmitsF_count_reach (keys : List Int) (vals : List LeafSlot)
    (r x : ChromRegion) (h : Nat) (dh : DataNode)
    (hsorted : List.Chain' (· < ·) keys)
    (hklen : keys.length = vals.length + 1)
    (hxs : keys.get? h = some x.start)
    (hxstop : x.start < r.stop)
    (hstored : vals.get? h = some (LeafSlot.bin dh))
    (hb : ∀ i, i < vals.length → ∃ d, vals.get? i = some (LeafSlot.bin d))
    (halign : ∀ i d e, vals.get? i = some (LeafSlot.bin d) → e ∈ d.startList →
      e.start = d.start)
    (hbinStart : ∀ i d, vals.get? i = some (LeafSlot.bin d) →
      keys.get? i = some d.start) :
    ∀ fuel index, index ≤ h → h + 1 ≤ index + fuel →
      (tailEmitsF keys vals r fuel index).count x =
        (emits r dh.startList).count x := by
  have hhlen : h < vals.length := (List.get?_eq_some.mp hstored).1
  intro fuel
  induction fuel with
  | zero =>
    intro index hle hfuel
    omega
  | succ fuel ih =>
    intro index hle hfuel
    have hTtail : tailEmitsF keys vals r (fuel + 1) index =
        if jsLtO (keys.get? index) r.stop && decide (index < vals.length) then
          (match vals.get? index with
           | some (LeafSlot.bin d) => emits r d.startList
           | _ => []) ++ tailEmitsF keys vals r fuel (index + 1)
        else [] := rfl
    have hidxlen : index < vals.length := by omega
    have hidxkey : index < keys.length := by omega
    obtain ⟨ki, hki⟩ : ∃ ki, keys.get? index = some ki :=
      ⟨keys.get ⟨index, hidxkey⟩, List.get?_eq_some.mpr ⟨hidxkey, rfl⟩⟩
    have hkile : ki ≤ x.start := chainLt_get?_le hsorted hki hxs hle
    have hguard : (jsLtO (keys.get? index) r.stop && decide (index < vals.length)) = true := by
      rw [hki]
      simp only [jsLtO, Bool.and_eq_true, decide_eq_true_eq]
      exact ⟨by omega, hidxlen⟩
    rw [hTtail, if_pos hguard, List.count_append]
    by_cases hih : index = h
    · subst hih
      rw [hstored,
        tailEmitsF_count_zero keys vals r x index hsorted hxs halign hbinStart fuel
          (index + 1) (by omega)]
      rfl
    · have hlt : index < h := by omega
      obtain ⟨d, hd⟩ := hb index hidxlen
      rw [hd]
      have hnot : x ∉ d.startList := by
        intro hmem
        have hds : keys.get? index = some d.start := hbinStart index d hd
        have hxd : x.start = d.start := halign index d x hd hmem
        rw [← hxd] at hds
        have := chainLt_get?_lt hsorted hds hxs hlt
        omega
      have hz : (emits r d.startList).count x = 0 := by
        rw [List.count_eq_zero]
        intro hm
        exact hnot (List.mem_of_mem_filter hm)
      rw [hz, ih (index + 1) (by omega) (by omega)]
      omega

theorem tailEmitsF_count_nopx (keys : List Int) (vals : List LeafSlot)
    (r x : ChromRegion)
    (hpx : (!(decide (r.start ≥ x.stop) || decide (x.start ≥ r.stop))) = false) :
    ∀ fuel index, (tailEmitsF keys vals r fuel index).count x = 0 := by
  intro fuel
  induction fuel with
  | zero => intro index; rfl
  | succ fuel ih =>
    intro index
    have hTtail : tailEmitsF keys vals r (fuel + 1) index =
        if jsLtO (keys.get? index) r.stop && decide (index < vals.length) then
          (match vals.get? index with
           | some (LeafSlot.bin d) => emits r d.startList
           | _ => []) ++ tailEmitsF keys vals r fuel (index + 1)
        else [] := rfl
    rw [hTtail]
    by_cases hguard : (jsLtO (keys.get? index) r.stop && decide (index < vals.length)) = true
    · rw [if_pos hguard, List.count_append, ih (index + 1)]
      cases hv : vals.get? index with
      | none => rfl
      | some s =>
        cases s with
        | bin d =>
          have : (emits r d.startList).count x = 0 := by
            rw [emits, count_filter_ite, if_neg]
            rw [hpx]
            exact Bool.false_ne_true
          rw [this]
        | unloaded => rfl
        | empty => rfl
    · rw [if_neg hguard]
      rfl

/-- The invariant the insertion machinery maintains on a fully-loaded
`reverseDepth 0` root: keys strictly sorted with one more key than slots;
every slot a populated bin whose `start` is its left key and whose
`startList` entries all start there; and each bin's `continuedList` holds
exactly the entries of earlier bins' `startList`s that reach past the bin's
left key (`DataNode.insert` carries `continuedList` forward and
`_updateContinuedList` filters it by `region.end > this.start`,
src/lib/dataNode.js lines 452-484). -/
structure FlatWF (t : GiveTree) : Prop where
  sorted : List.Chain' (· < ·) t.root.keys
  klen : t.root.keys.length = t.root.vals.length + 1
  loaded : ∀ i, i < t.root.vals.length → ∃ d, t.root.vals.get? i = some (LeafSlot.bin d)
  binStart : ∀ i d, t.root.vals.get? i = some (LeafSlot.bin d) →
    t.root.keys.get? i = some d.start
  startAligned : ∀ i d e, t.root.vals.get? i = some (LeafSlot.bin d) →
    e ∈ d.startList → e.start = d.start
  contChar : ∀ i d ki, t.root.vals.get? i = some (LeafSlot.bin d) →
    t.root.keys.get? i = some ki →
    d.continuedList = (prevStartJoin t.root.vals i).filter (fun e => decide (ki < e.stop))

theorem count_emits (r x : ChromRegion) (l : List ChromRegion) :
    (emits r l).count x =
      if (!(decide (r.start ≥ x.stop) || decide (x.start ≥ r.stop))) then
        l.count x
      else 0 := by
  unfold emits
  rw [count_filter_ite]

/-- C1 (amended): on a fully-loaded well-formed tree, a traverse with the
observing `dataCallback`, no filter and no `breakOnFalse` over a range `R`
on the tree's chromosome **that lies within the root's covering range**
succeeds and passes an interval `x` stored once in the tree to the callback
exactly once when `x.overlaps R`, and never otherwise (continued intervals
are emitted only from the first visited bin; later bins emit only their
`startList`). The covering-range restriction is the amendment: the original
claim fails for query ranges reaching past the covering end
(`c1_entry_beyond_covering_missed`). -/
theorem c1_traverse_emits_overlapping_once (t : GiveTree) (R x : ChromRegion)
    (h : Nat) (dh : DataNode)
    (hwf : FlatWF t)
    (hchr : R.chr = t.chr) (hxchr : x.chr = t.chr)
    (hne : 0 < t.root.vals.length)
    (h0 : t.root.keys.getD 0 0 ≤ R.start)
    (hcover : R.stop ≤ t.root.keys.getD (t.root.keys.length - 1) 0)
    (hrs : R.start < R.stop)
    (hstored : t.root.vals.get? h = some (LeafSlot.bin dh))
    (hcount : dh.startList.count x = 1) :
    (GiveTree.traverse t (some R) logCtx false false []).2.2 = Except.ok true ∧
    ((GiveTree.traverse t (some R) logCtx false false []).2.1).count x =
      if ChromRegion.overlaps x R then 1 else 0 := by
  have hklen := hwf.klen
  have hsorted := hwf.sorted
  have hhlen : h < t.root.vals.length := (List.get?_eq_some.mp hstored).1
  have hxmem : x ∈ dh.startList := by
    by_contra hno
    have := List.count_eq_zero.mpr hno
    omega
  have hxs : t.root.keys.get? h = some x.start := by
    have hds := hwf.binStart h dh hstored
    have hxd := hwf.startAligned h dh x hstored hxmem
    rw [← hxd] at hds
    exact hds
  have hzero : ∀ i d, t.root.vals.get? i = some (LeafSlot.bin d) → i ≠ h →
      d.startList.count x = 0 := by
    intro i d hv hne'
    by_contra hc
    have hmem : x ∈ d.startList := by
      by_contra hno
      exact hc (List.count_eq_zero.mpr hno)
    have hds := hwf.binStart i d hv
    have hxd := hwf.startAligned i d x hv hmem
    rw [← hxd] at hds
    rcases Nat.lt_or_ge i h with hlt | hge
    · have := chainLt_get?_lt hsorted hds hxs hlt
      omega
    · have hgt : h < i := by omega
      have := chainLt_get?_lt hsorted hxs hds hgt
      omega
  obtain ⟨k0v, hk0⟩ : ∃ v, t.root.keys.get? 0 = some v :=
    ⟨t.root.keys.get ⟨0, by omega⟩, List.get?_eq_some.mpr ⟨by omega, rfl⟩⟩
  have hk0d : t.root.keys.getD 0 0 = k0v := by
    rw [List.getD_eq_getElem?_getD, ← List.get?_eq_getElem?, hk0]
    rfl
  have hk0le : k0v ≤ R.start := by rw [hk0d] at h0; exact h0
  obtain ⟨knv, hkn⟩ : ∃ v, t.root.keys.get? t.root.vals.length = some v :=
    ⟨t.root.keys.get ⟨t.root.vals.length, by omega⟩,
      List.get?_eq_some.mpr ⟨by omega, rfl⟩⟩
  have hknd : t.root.keys.getD (t.root.keys.length - 1) 0 = knv := by
    have he : t.root.keys.length - 1 = t.root.vals.length := by omega
    rw [he, List.getD_eq_getElem?_getD, ← List.get?_eq_getElem?, hkn]
    rfl
  have hknge : R.stop ≤ knv := by rw [hknd] at hcover; exact hcover
  have hguard0 : (jsLtO (t.root.keys.get? 0) R.stop &&
      decide (0 < t.root.vals.length)) = true := by
    rw [hk0]
    simp only [jsLtO, Bool.and_eq_true, decide_eq_true_eq]
    exact ⟨by omega, hne⟩
  have hstopn : jsLeO (t.root.keys.get? (t.root.vals.length - 1 + 1)) R.start = false := by
    have he : t.root.vals.length - 1 + 1 = t.root.vals.length := by omega
    rw [he, hkn]
    simp only [jsLeO, decide_eq_false_iff_not]
    omega
  have hfle : travSkip t.root.keys t.root.vals.length R.start
      (t.root.vals.length + 1) 0 ≤ t.root.vals.length - 1 :=
    travSkip_le t.root.keys t.root.vals.length R.start (t.root.vals.length - 1)
      hstopn _ 0 (by omega)
  set f := travSkip t.root.keys t.root.vals.length R.start
    (t.root.vals.length + 1) 0 with hfdef
  have hf : f < t.root.vals.length := by omega
  have hfstop : jsLeO (t.root.keys.get? (f + 1)) R.start = false := by
    have hstop := travSkip_stopped t.root.keys t.root.vals.length R.start
      (t.root.vals.length + 1) 0 (by omega)
    rw [← hfdef] at hstop
    exact Bool.eq_false_iff.mpr (fun hct => hstop ⟨hf, hct⟩)
  obtain ⟨df, hdf⟩ := hwf.loaded f hf
  have hkf : t.root.keys.get? f = some df.start := hwf.binStart f df hdf
  have hkfstart : jsLeO (t.root.keys.get? f) R.start = true := by
    have hinit : jsLeO (t.root.keys.get? 0) R.start = true := by
      rw [hk0]
      simp only [jsLeO, decide_eq_true_eq]
      omega
    have := travSkip_start_le t.root.keys t.root.vals.length R.start
      (t.root.vals.length + 1) 0 hinit
    rw [← hfdef] at this
    exact this
  have hdfle : df.start ≤ R.start := by
    rw [hkf] at hkfstart
    simp only [jsLeO, decide_eq_true_eq] at hkfstart
    exact hkfstart
  have hmatch : GiveTree.chrMatches t (some R) = true := by
    simp [GiveTree.chrMatches, hchr]
  have htr : GiveNonLeafNode.truncateChrRange (t.root.keys.getD 0 0)
      (t.root.keys.getD (t.root.keys.length - 1) 0) R true false false =
      Except.ok R := by
    unfold GiveNonLeafNode.truncateChrRange
    rw [show (true && decide (R.start < t.root.keys.getD 0 0)) = false by
      simp only [Bool.true_and, decide_eq_false_iff_not, not_lt]
      omega]
    rfl
  have hout : (GiveTree.traverse t (some R) logCtx false false []).2 =
      ((travChildrenGo logCtx t.chr t.root.keys t.root.vals
          (t.root.vals.length + 2) 0 ([], R, false)).1.1,
        (travChildrenGo logCtx t.chr t.root.keys t.root.vals
          (t.root.vals.length + 2) 0 ([], R, false)).2) := by
    unfold GiveTree.traverse
    rw [hmatch]
    simp only [if_true]
    rw [htr]
    rfl
  have htwo : t.root.vals.length + 2 = (t.root.vals.length + 1) + 1 := rfl
  have htrace : travChildrenGo logCtx t.chr t.root.keys t.root.vals
      (t.root.vals.length + 2) 0 ([], R, false) =
      (((emits R df.continuedList ++ emits R df.startList ++
          tailEmitsF t.root.keys t.root.vals R (t.root.vals.length + 1)
            (f + 1)).reverse ++ [], R, true), Except.ok true) := by
    rw [htwo]
    exact travGo_first_log t.chr t.root.keys t.root.vals hsorted
      (t.root.vals.length + 1) f df [] R hwf.loaded hguard0 hfdef.symm hfstop hdf
  have hchreq : (x.chr == R.chr) = true := by
    rw [hxchr, hchr]
    simp
  have hov_iff : ChromRegion.overlaps x R =
      (decide (x.start < R.stop) && decide (R.start < x.stop)) := by
    unfold ChromRegion.overlaps
    rw [hchreq]
    simp only [Bool.true_and]
  constructor
  · have h22 : (GiveTree.traverse t (some R) logCtx false false []).2.2 =
        (travChildrenGo logCtx t.chr t.root.keys t.root.vals
          (t.root.vals.length + 2) 0 ([], R, false)).2 := by
      rw [hout]
    rw [h22, htrace]
  · have h21 : (GiveTree.traverse t (some R) logCtx false false []).2.1 =
        (travChildrenGo logCtx t.chr t.root.keys t.root.vals
          (t.root.vals.length + 2) 0 ([], R, false)).1.1 := by
      rw [hout]
    rw [h21, htrace]
    show (((emits R df.continuedList ++ emits R df.startList ++
        tailEmitsF t.root.keys t.root.vals R (t.root.vals.length + 1)
          (f + 1)).reverse ++ [])).count x = _
    rw [List.append_nil, List.count_reverse, List.count_append, List.count_append]
    cases hov : ChromRegion.overlaps x R with
    | true =>
      rw [hov_iff] at hov
      simp only [Bool.and_eq_true, decide_eq_true_eq] at hov
      obtain ⟨hlt1, hlt2⟩ := hov
      have hpx : (!(decide (R.start ≥ x.stop) || decide (x.start ≥ R.stop))) = true := by
        simp only [ge_iff_le, Bool.not_eq_true', Bool.or_eq_false_iff,
          decide_eq_false_iff_not, not_le]
        exact ⟨hlt2, hlt1⟩
      have hA : (emits R df.continuedList).count x = if h < f then 1 else 0 := by
        rw [count_emits, if_pos hpx]
        rw [hwf.contChar f df df.start hdf hkf, count_filter_ite,
          if_pos (show decide (df.start < x.stop) = true by
            simp only [decide_eq_true_eq]
            omega)]
        rw [count_prevStartJoin t.root.vals x h dh hstored hzero f, hcount]
      have hB : (emits R df.startList).count x = if f = h then 1 else 0 := by
        rw [count_emits, if_pos hpx]
        by_cases hfh : f = h
        · subst hfh
          rw [hstored] at hdf
          injection hdf with hdf
          injection hdf with hdf
          rw [← hdf, hcount, if_pos rfl]
        · rw [hzero f df hdf hfh, if_neg hfh]
      have hC : (tailEmitsF t.root.keys t.root.vals R (t.root.vals.length + 1)
          (f + 1)).count x = if f + 1 ≤ h then 1 else 0 := by
        by_cases hfh : f + 1 ≤ h
        · rw [tailEmitsF_count_reach t.root.keys t.root.vals R x h dh hsorted hklen
            hxs hlt1 hstored hwf.loaded hwf.startAligned hwf.binStart
            (t.root.vals.length + 1) (f + 1) hfh (by omega)]
          rw [count_emits, if_pos hpx, hcount, if_pos hfh]
        · rw [tailEmitsF_count_zero t.root.keys t.root.vals R x h hsorted hxs
            hwf.startAligned hwf.binStart (t.root.vals.length + 1) (f + 1) (by omega),
            if_neg hfh]
      rw [hA, hB, hC]
      simp only [if_true]
      split_ifs <;> omega
    | false =>
      have hnov : ¬(x.start < R.stop ∧ R.start < x.stop) := by
        rintro ⟨h1, h2⟩
        rw [hov_iff] at hov
        simp [h1, h2] at hov
      have hpx : (!(decide (R.start ≥ x.stop) || decide (x.start ≥ R.stop))) = false := by
        refine Bool.eq_false_iff.mpr ?_
        intro hc
        simp only [ge_iff_le, Bool.not_eq_true', Bool.or_eq_false_iff,
          decide_eq_false_iff_not, not_le] at hc
        exact hnov ⟨hc.2, hc.1⟩
      have hA : (emits R df.continuedList).count x = 0 := by
        rw [count_emits, if_neg (by rw [hpx]; exact Bool.false_ne_true)]
      have hB : (emits R df.startList).count x = 0 := by
        rw [count_emits, if_neg (by rw [hpx]; exact Bool.false_ne_true)]
      have hC : (tailEmitsF t.root.keys t.root.vals R (t.root.vals.length + 1)
          (f + 1)).count x = 0 :=
        tailEmitsF_count_nopx t.root.keys t.root.vals R x hpx _ _
      rw [hA, hB, hC]
      simp

/-- A stored interval reaching past the root's covering end. -/
def c1x : ChromRegion := { chr := "chr1", start := 0, stop := 20 }

/-- A query range starting at the covering end. -/
def c1range : ChromRegion := { chr := "chr1", start := 10, stop := 20 }

def c1bin : DataNode := { start := 0, startList := [c1x], continuedList := [] }

/-- A well-formed single-bin tree covering `[0, 10)` holding `c1x = [0, 20)`. -/
def c1tree : GiveTree :=
  { chr := "chr1", localOnly := false, branchingFactor := 20, lifeSpan := 0,
    currGen := none, witherActive := false, pendingOps := 0,
    root := { keys := [0, 10], vals := [LeafSlot.bin c1bin] } }

/-- C1 counterexample to the unamended claim: on the well-formed, fully
loaded tree `c1tree`, the stored interval `c1x = chr1 [0, 20)` overlaps the
query `c1range = chr1 [10, 20)`, the traverse succeeds, yet the callback is
never invoked (the emission log stays empty): the outer loop visits no bin
because the inner skip loop jumps past the last slot
(`keys[1] = 10 ≤ chrRange.start`), so intervals protruding past the
covering range are silently missed — not "passed exactly once". -/
theorem c1_entry_beyond_covering_missed :
    FlatWF c1tree ∧
    ChromRegion.overlaps c1x c1range = true ∧
    (GiveTree.traverse c1tree (some c1range) logCtx false false []).2.2 =
      Except.ok true ∧
    (GiveTree.traverse c1tree (some c1range) logCtx false false []).2.1 = [] := by
  refine ⟨⟨?_, rfl, ?_, ?_, ?_, ?_⟩, by decide, rfl, rfl⟩
  · exact List.chain'_cons.mpr ⟨by norm_num, List.chain'_singleton _⟩
  · intro i hi
    have hi2 : i < 1 := hi
    rcases i with _ | i
    · exact ⟨c1bin, rfl⟩
    · exact absurd hi2 (by omega)
  · intro i d hv
    rcases i with _ | i
    · have hv' : some (LeafSlot.bin c1bin) = some (LeafSlot.bin d) := hv
      injection hv' with h1
      injection h1 with h2
      rw [← h2]
      rfl
    · have hnone : c1tree.root.vals.get? (i + 1) = none := rfl
      rw [hnone] at hv
      exact Option.noConfusion hv
  · intro i d e hv hmem
    rcases i with _ | i
    · have hv' : some (LeafSlot.bin c1bin) = some (LeafSlot.bin d) := hv
      injection hv' with h1
      injection h1 with h2
      subst h2
      have hmem' : e ∈ [c1x] := hmem
      have he := List.mem_singleton.mp hmem'
      subst he
      rfl
    · have hnone : c1tree.root.vals.get? (i + 1) = none := rfl
      rw [hnone] at hv
      exact Option.noConfusion hv
  · intro i d ki hv hk
    rcases i with _ | i
    · have hv' : some (LeafSlot.bin c1bin) = some (LeafSlot.bin d) := hv
      injection hv' with h1
      injection h1 with h2
      subst h2
      have hk' : some (0 : Int) = some ki := hk
      injection hk' with hk'
      subst hk'
      rfl
    · have hnone : c1tree.root.vals.get? (i + 1) = none := rfl
      rw [hnone] at hv
      exact Option.noConfusion hv

def c1wy : ChromRegion := { chr := "chr1", start := 10, stop := 12, tag := 1 }

def c1wbin1 : DataNode := { start := 10, startList := [c1wy], continuedList := [c1x] }

/-- A well-formed two-bin tree covering `[0, 30)`: `c1x = [0, 20)` starts in
the first bin and continues into the second. -/
def c1wtree : GiveTree :=
  { chr := "chr1", localOnly := false, branchingFactor := 20, lifeSpan := 0,
    currGen := none, witherActive := false, pendingOps := 0,
    root := { keys := [0, 10, 30],
              vals := [LeafSlot.bin c1bin, LeafSlot.bin c1wbin1] } }

/-- A query range inside the covering range that skips `c1x`'s home bin. -/
def c1wrange : ChromRegion := { chr := "chr1", start := 12, stop := 25 }

theorem c1wtree_wf : FlatWF c1wtree := by
  refine ⟨?_, rfl, ?_, ?_, ?_, ?_⟩
  · exact List.chain'_cons.mpr ⟨by norm_num,
      List.chain'_cons.mpr ⟨by norm_num, List.chain'_singleton _⟩⟩
  · intro i hi
    have hi2 : i < 2 := hi
    rcases i with _ | _ | i
    · exact ⟨c1bin, rfl⟩
    · exact ⟨c1wbin1, rfl⟩
    · exact absurd hi2 (by omega)
  · intro i d hv
    rcases i with _ | _ | i
    · have hv' : some (LeafSlot.bin c1bin) = some (LeafSlot.bin d) := hv
      injection hv' with h1
      injection h1 with h2
      rw [← h2]
      rfl
    · have hv' : some (LeafSlot.bin c1wbin1) = some (LeafSlot.bin d) := hv
      injection hv' with h1
      injection h1 with h2
      rw [← h2]
      rfl
    · have hnone : c1wtree.root.vals.get? (i + 2) = none := rfl
      rw [hnone] at hv
      exact Option.noConfusion hv
  · intro i d e hv hmem
    rcases i with _ | _ | i
    · have hv' : some (LeafSlot.bin c1bin) = some (LeafSlot.bin d) := hv
      injection hv' with h1
      injection h1 with h2
      subst h2
      have hmem' : e ∈ [c1x] := hmem
      have he := List.mem_singleton.mp hmem'
      subst he
      rfl
    · have hv' : some (LeafSlot.bin c1wbin1) = some (LeafSlot.bin d) := hv
      injection hv' with h1
      injection h1 with h2
      subst h2
      have hmem' : e ∈ [c1wy] := hmem
      have he := List.mem_singleton.mp hmem'
      subst he
      rfl
    · have hnone : c1wtree.root.vals.get? (i + 2) = none := rfl
      rw [hnone] at hv
      exact Option.noConfusion hv
  · intro i d ki hv hk
    rcases i with _ | _ | i
    · have hv' : some (LeafSlot.bin c1bin) = some (LeafSlot.bin d) := hv
      injection hv' with h1
      injection h1 with h2
      subst h2
      have hk' : some (0 : Int) = some ki := hk
      injection hk' with hk'
      subst hk'
      rfl
    · have hv' : some (LeafSlot.bin c1wbin1) = some (LeafSlot.bin d) := hv
      injection hv' with h1
      injection h1 with h2
      subst h2
      have hk' : some (10 : Int) = some ki := hk
      injection hk' with hk'
      subst hk'
      rfl
    · have hnone : c1wtree.root.vals.get? (i + 2) = none := rfl
      rw [hnone] at hv
      exact Option.noConfusion hv

/-- Witness for C1 (amended): on the two-bin tree `c1wtree`, a traverse over
`chr1 [12, 25)` (inside the covering range) emits the continued interval
`c1x` exactly once, from the first visited bin. -/
theorem c1_witness :
    (GiveTree.traverse c1wtree (some c1wrange) logCtx false false []).2.2 =
      Except.ok true ∧
    ((GiveTree.traverse c1wtree (some c1wrange) logCtx false false []).2.1).count c1x =
      if ChromRegion.overlaps c1x c1wrange then 1 else 0 :=
  c1_traverse_emits_overlapping_once c1wtree c1wrange c1x 0 c1bin
    c1wtree_wf rfl rfl (by decide) (by decide) (by decide) (by decide) rfl (by decide)

/-- Witness for C9: a withering-enabled tree at generation 5 advances to 6
on a plain traverse and stays at 5 under `doNotWither`. -/
theorem c9_witness :
    (GiveTree.traverse (σ := Unit)
        { chr := "chr1", localOnly := false, branchingFactor := 20, lifeSpan := 10,
          currGen := some 5, witherActive := false, pendingOps := 0,
          root := { keys := [0, 10], vals := [LeafSlot.unloaded] } }
        (some { chr := "chr1", start := 0, stop := 5 })
        { dataCallback := none } false false ()).1.currGen =
      some (if GiveTreeMAXGENERATION ≤ 5 + 1 then 0 else 5 + 1) ∧
    (GiveTree.traverse (σ := Unit)
        { chr := "chr1", localOnly := false, branchingFactor := 20, lifeSpan := 10,
          currGen := some 5, witherActive := false, pendingOps := 0,
          root := { keys := [0, 10], vals := [LeafSlot.unloaded] } }
        (some { chr := "chr1", start := 0, stop := 5 })
        { dataCallback := none } true false ()).1.currGen = some 5 :=
  c9_traverse_advances_generation
    { chr := "chr1", localOnly := false, branchingFactor := 20, lifeSpan := 10,
      currGen := some 5, witherActive := false, pendingOps := 0,
      root := { keys := [0, 10], vals := [LeafSlot.unloaded] } }
    { chr := "chr1", start := 0, stop := 5 }
    { dataCallback := none } () false 5 rfl rfl rfl

/-- JS `a <= b` where `b` may be `undefined` (out-of-bounds array read):
`a <= undefined` is `false`. -/
def jsLeRO (a : Int) (b : Option Int) : Bool :=
  match b with
  | some v => decide (a ≤ v)
  | none => false

/-- JS `a > b` where `a` may be `undefined`: `undefined > b` is `false`. -/
def jsGtO (a : Option Int) (b : Int) : Bool :=
  match a with
  | some v => decide (v > b)
  | none => false

/-- `GiveTreeNode._traverseData` (src/lib/giveTreeNode.js lines 255-272):
advance `currIndex` over `data` while the criterion holds, recording every
visited entry (each is passed to `props.dataCallback` when the caller
provides one); fuel-structural (`data.length` fuel always suffices).
Returns the final index and the visited entries in order. -/
def travDataF (data : List ChromRegion) (crit : ChromRegion → Bool) :
    Nat → Nat → Nat × List ChromRegion
  | 0, i => (i, [])
  | fuel + 1, i =>
    match data.get? i with
    | some e =>
      if crit e then
        let res := travDataF data crit fuel (i + 1)
        (res.1, e :: res.2)
      else (i, [])
    | none => (i, [])

/-- The mutable `props` object threaded through the leaf-insertion pipeline:
`continuedList`, `dataIndex`, `_postInsertionOpRange`,
`continuedListUpdateBoundary`, plus the log of entries passed to
`props.dataCallback` (empty log = the callback was never fired). -/
structure InsProps where
  continuedList : List ChromRegion := []
  dataIndex : Nat := 0
  postRange : Option ChromRegion := none
  boundary : Option Int := none
  callLog : List ChromRegion := []
  deriving Repr, DecidableEq

/-- `DataNode.insert` (src/lib/dataNode.js lines 179-254) with
`props.dataIndex` provided (as `_addLeafRecords` always does, so the final
`data.splice` branch is not taken and `data` itself is untouched):
1. entries before `this.start` go through the callback into
   `props.continuedList` (filtered to those still reaching past
   `this.start`), which is copied to `this.continuedList` and determines
   `props._postInsertionOpRange`;
2. entries starting exactly at `this.start` become the new `startList`
   (`props.addNew` is false on non-`localOnly` trees), extending
   `_postInsertionOpRange`;
3. `props.continuedList` gains `startList`, and
   `props.continuedListUpdateBoundary` accumulates the furthest end. -/
def DataNode.insertGo (d : DataNode) (data : List ChromRegion)
    (chrRangeChr : String) (p : InsProps) : DataNode × InsProps :=
  let r1 := travDataF data (fun e => decide (e.start < d.start))
    (data.length + 1) p.dataIndex
  let cont1 := (p.continuedList ++ r1.2).filter (fun e => decide (e.stop > d.start))
  let maxEnd := cont1.foldl (fun m c => if m < c.stop then c.stop else m) d.start
  let post1 : ChromRegion := { chr := chrRangeChr, start := d.start, stop := maxEnd }
  let r2 := travDataF data (fun e => decide (e.start = d.start))
    (data.length + 1) r1.1
  let startL := sortCR r2.2
  let post2 := { post1 with stop := (startL.foldl
    (fun m c => if m < c.stop then c.stop else m) post1.stop) }
  let cont2 := cont1 ++ startL
  let bound := cont2.foldl (fun b c => if c.stop > b then c.stop else b)
    (p.boundary.getD d.start)
  ({ d with startList := startL, continuedList := cont1 },
   { continuedList := cont2
     dataIndex := r2.1
     postRange := some post2
     boundary := some bound
     callLog := p.callLog ++ r1.2 ++ r2.2 })

/-- `GiveNonLeafNode._childMergable` (src/unnamed/part_000 lines 832-837)
as called on the class object: in the static context `this.emptyChildValue`
is `undefined` (modelled as `none`, also the value of an out-of-bounds
read), so the first disjunct accepts two `false` children or two
`undefined` reads, but never two `null`s (`null === null` fails both
`null === undefined` and `null === false`); truthy children defer to
`mergeAfter`, whose side effect on the back neighbour is returned. -/
def childMergableV (front back : Option LeafSlot) : Bool × Option LeafSlot :=
  match front, back with
  | none, none => (true, none)
  | none, _ => (false, back)
  | some LeafSlot.empty, some LeafSlot.empty => (true, back)
  | some LeafSlot.empty, _ => (false, back)
  | some LeafSlot.unloaded, _ => (false, back)
  | some (LeafSlot.bin d), some b =>
    let m := DataNode.mergeAfter d b
    (m.1, some m.2)
  | some (LeafSlot.bin _), none => (false, none)

/-- The slot list after `_childMergable`'s `mergeAfter` side effect on the
back slot of the pair `(j, j+1)` is stored. -/
def mergeVals1 (vals : List LeafSlot) (j : Nat) : List LeafSlot :=
  match (childMergableV (vals.get? j) (vals.get? (j + 1))).2 with
  | some b => vals.set (j + 1) b
  | none => vals

/-- One sibling-merge stage of `_mergeChild`: test `_childMergable` on the
slot pair `(j, j+1)`, store `mergeAfter`'s side effect on the back slot, and
splice both the key and the slot at `j+1` out when the pair merges. -/
def mergeStage (keys : List Int) (vals : List LeafSlot) (j : Nat) :
    List Int × List LeafSlot × Bool :=
  if (childMergableV (vals.get? j) (vals.get? (j + 1))).1 then
    (keys.eraseIdx (j + 1), (mergeVals1 vals j).eraseIdx (j + 1), true)
  else (keys, mergeVals1 vals j, false)

/-- The cross-border second half of `_mergeChild` under `mergeNext`: merge
the pair `(index, index+1)` when a next sibling exists. -/
def mergeNextStage (s1 : List Int × List LeafSlot × Bool) (index : Nat) :
    List Int × List LeafSlot × Bool :=
  if index < s1.2.1.length - 1 then
    ((mergeStage s1.1 s1.2.1 index).1, (mergeStage s1.1 s1.2.1 index).2.1, s1.2.2)
  else s1

/-- `GiveNonLeafNode._mergeChild` (src/unnamed/part_000 lines 864-922) on a
root at `reverseDepth 0`: the front merge only acts for `index > 0`
(`_getChildPrev(0)` throws into the ignored catch on a node with no
previous sibling; for `index > 0` it is `mergeStage` at `index - 1`), the
cross-border `next` branch needs a next sibling, and `_fixChildLinks` is a
no-op at `reverseDepth 0`. The `mergeAfter` side effect on the back
neighbour persists even when no merge happens. -/
def mergeChildF (keys : List Int) (vals : List LeafSlot) (index : Nat)
    (mergeNext : Bool) : List Int × List LeafSlot × Bool :=
  if mergeNext then
    mergeNextStage
      (if 0 < index then mergeStage keys vals (index - 1) else (keys, vals, false))
      index
  else if 0 < index then mergeStage keys vals (index - 1) else (keys, vals, false)

/-- Messages of the errors `_splitChild` can raise (the `TypeError` text is
engine-specific; it cannot arise on the `_addLeafRecords` paths, which never
pass `newFormerChild`). -/
def splitErrMsg : SplitErr → String
  | SplitErr.cannotSplit =>
    "Cannot split an existing child without providing both resulting siblings!"
  | SplitErr.typeErrorValueBug => "TypeError: this.Value is undefined"

/-- The unguarded skip loop of `_addLeafRecords`
(src/lib/sampleNode.js lines 376-378, 397-399):
`while (this.keys[currIndex + 1] <= chrRange.start) currIndex++` (an
out-of-bounds read gives `undefined <= x`, i.e. `false`). -/
def skipNoCnF (keys : List Int) (rStart : Int) : Nat → Nat → Nat
  | 0, i => i
  | fuel + 1, i =>
    if jsLeO (keys.get? (i + 1)) rStart then skipNoCnF keys rStart fuel (i + 1)
    else i

/-- The main loop of `SampleNode._addLeafRecords` (src/lib/sampleNode.js
lines 396-434), one iteration per fuel unit: skip to the slot holding
`chrRange.start`, split it at `chrRange.start` with a `false` latter filler
when the start falls inside it, fill the slot with a fresh leaf bin (when
`props.continuedList` is nonempty or the next datum starts at or before the
slot key; an empty bin degrades to `false`) or with `false`, merge with the
previous slot, then jump `chrRange.start` to the next unprocessed datum
(or to `chrRange.end`). The node handed to `DataNode.insert` is always
freshly constructed with an empty `startList`, so `props.addNew` makes no
difference and is not modelled. -/
def addLeafStep (localOnly : Bool) (keys : List Int) (vals : List LeafSlot)
    (rStart : Int) (currIndex : Nat) :
    Except SplitErr (List Int × List LeafSlot × Nat) :=
  let i1 := skipNoCnF keys rStart (keys.length + 1) currIndex
  if jsLtO (keys.get? i1) rStart then
    match GiveNonLeafNode._splitChild localOnly keys vals i1 rStart
      (some LeafSlot.empty) none with
    | Except.ok kv => Except.ok (kv.1, kv.2, i1 + 1)
    | Except.error e => Except.error e
  else Except.ok (keys, vals, i1)

/-- The slot-filling part of one `_addLeafRecords` loop iteration: a fresh
leaf bin (degrading to `false` when empty) when `props.continuedList` is
nonempty or the next datum starts at or before the slot key; `false`
otherwise. -/
def addLeafFill (data : List ChromRegion) (chrRangeChr : String) (keys1 : List Int)
    (vals1 : List LeafSlot) (i2 : Nat) (p : InsProps) : List LeafSlot × InsProps :=
  if decide (0 < p.continuedList.length) ||
      (decide (p.dataIndex < data.length) &&
        jsLeRO (data.getD p.dataIndex DataNode.crDefault).start (keys1.get? i2)) then
    let ins := DataNode.insertGo { start := keys1.getD i2 0 } data chrRangeChr p
    (vals1.set i2
      (if ins.1.isEmpty then LeafSlot.empty else LeafSlot.bin ins.1),
      ins.2)
  else (vals1.set i2 LeafSlot.empty, p)

/-- The loop's jump of `chrRange.start` to the next unprocessed datum (or
to `chrRange.end`). -/
def nextRStart (data : List ChromRegion) (rEnd : Int) (p2 : InsProps) : Int :=
  if decide (p2.dataIndex < data.length) &&
      decide ((data.getD p2.dataIndex DataNode.crDefault).start < rEnd) then
    (data.getD p2.dataIndex DataNode.crDefault).start
  else rEnd

def addLeafLoopF (localOnly : Bool) (data : List ChromRegion) (rEnd : Int)
    (chrRangeChr : String) :
    Nat → List Int → List LeafSlot → Int → Nat → InsProps →
    Except String (List Int × List LeafSlot × Int × Nat × InsProps)
  | 0, keys, vals, rStart, currIndex, p => Except.ok (keys, vals, rStart, currIndex, p)
  | fuel + 1, keys, vals, rStart, currIndex, p =>
    if decide (rStart < rEnd) then
      match addLeafStep localOnly keys vals rStart currIndex with
      | Except.error e => Except.error (splitErrMsg e)
      | Except.ok (keys1, vals1, i2) =>
        let filled := addLeafFill data chrRangeChr keys1 vals1 i2 p
        let m := mergeChildF keys1 filled.1 i2 false
        addLeafLoopF localOnly data rEnd chrRangeChr fuel m.1 m.2.1
          (nextRStart data rEnd filled.2) (if m.2.2 then i2 - 1 else i2) filled.2
    else Except.ok (keys, vals, rStart, currIndex, p)

/-- `SampleNode._addLeafRecords` (src/lib/sampleNode.js lines 361-448) on a
`reverseDepth 0` root: the two boundary splits (duplicating the old slot
into the piece outside the range), the main loop, the final merge, the last
`continuedList` update from the processed prefix of `data` (the source's
`prevDataIndex` is declared but never assigned, so `data.slice(undefined,
dataIndex)` slices from 0), and the removal of processed entries from
`data`. Returns the new `keys`/`values`, the remaining `data`, and the
updated props (with `dataIndex` deleted, i.e. reset). -/
def addLeafPre1 (localOnly : Bool) (keys : List Int) (vals : List LeafSlot)
    (rStart : Int) : Except SplitErr (List Int × List LeafSlot × Nat) :=
  let i1 := skipNoCnF keys rStart (keys.length + 1) 0
  if jsLtO (keys.get? i1) rStart then
    match GiveNonLeafNode._splitChild localOnly keys vals i1 rStart none none with
    | Except.ok kv => Except.ok (kv.1, kv.2, i1 + 1)
    | Except.error e => Except.error e
  else Except.ok (keys, vals, i1)

def addLeafPre2 (localOnly : Bool) (keys1 : List Int) (vals1 : List LeafSlot)
    (rStop : Int) (i2 : Nat) : Except SplitErr (List Int × List LeafSlot) :=
  if jsGtO (keys1.get? (i2 + 1)) rStop then
    match GiveNonLeafNode._splitChild localOnly keys1 vals1 i2 rStop none none with
    | Except.ok kv => Except.ok kv
    | Except.error e => Except.error e
  else Except.ok (keys1, vals1)

/-- The tail of `_addLeafRecords`: the final merge, the last `continuedList`
update from the processed prefix of `data` and the removal of the processed
entries. -/
def addLeafTail (data : List ChromRegion) (r : ChromRegion)
    (res : List Int × List LeafSlot × Int × Nat × InsProps) :
    List Int × List LeafSlot × List ChromRegion × InsProps × Int :=
  let m := mergeChildF res.1 res.2.1 res.2.2.2.1 true
  let p4 := res.2.2.2.2
  let contOut := (p4.continuedList ++ data.take p4.dataIndex).filter
    (fun e => decide (e.stop > r.stop))
  (m.1, m.2.1, data.drop p4.dataIndex,
    { p4 with continuedList := contOut, dataIndex := 0 }, res.2.2.1)

def addLeafRecordsF (localOnly : Bool) (keys : List Int) (vals : List LeafSlot)
    (data : List ChromRegion) (r : ChromRegion) (p0 : InsProps) :
    Except String (List Int × List LeafSlot × List ChromRegion × InsProps × Int) :=
  match addLeafPre1 localOnly keys vals r.start with
  | Except.error e => Except.error (splitErrMsg e)
  | Except.ok (keys1, vals1, i2) =>
    match addLeafPre2 localOnly keys1 vals1 r.stop i2 with
    | Except.error e => Except.error (splitErrMsg e)
    | Except.ok (keys2, vals2) =>
      match addLeafLoopF localOnly data r.stop r.chr
        (data.length + vals2.length + 4) keys2 vals2 r.start i2
        { p0 with dataIndex := 0 } with
      | Except.error e => Except.error e
      | Except.ok res => Except.ok (addLeafTail data r res)

/-- `GiveNonLeafNode.hasUncachedRange` (src/unnamed/part_000 lines 1055-1072)
on a `reverseDepth 0` node: walk slots overlapping the range; a `null` slot
answers `true`; bins defer to `DataNode.hasUncachedRange`, which is `false`
(src/lib/dataNode.js lines 386-388); `false` fillers are skipped. -/
def hasUncachedRangeFlatF (keys : List Int) (vals : List LeafSlot) (r : ChromRegion) :
    Nat → Nat → Bool
  | 0, _ => false
  | fuel + 1, index =>
    if decide (index < vals.length) && jsLtO (keys.get? index) r.stop then
      match vals.get? index with
      | some LeafSlot.unloaded => true
      | _ => hasUncachedRangeFlatF keys vals r fuel (index + 1)
    else false

def hasUncachedRangeFlat (keys : List Int) (vals : List LeafSlot)
    (r : ChromRegion) : Bool :=
  hasUncachedRangeFlatF keys vals r (vals.length + 1)
    (travSkip keys vals.length r.start (vals.length + 1) 0)

/-- The inner absorption sweep of `GiveNonLeafNode.getUncachedRange`
(src/unnamed/part_000 lines 1036-1041): after `resRegion` absorbed the new
region, every later result entry it can assimilate is spliced out (the
region keeps growing as it absorbs). -/
def uncachedSweep : ChromRegion → List ChromRegion → ChromRegion × List ChromRegion
  | res, [] => (res, [])
  | res, el :: rest =>
    match res.assimilate el with
    | some res2 => uncachedSweep res2 rest
    | none =>
      let t := uncachedSweep res rest
      (t.1, el :: t.2)

/-- The `props._result.some(...)` absorption test (src/unnamed/part_000
lines 1034-1044): find the first result entry that can `assimilate` or
`concat` the new region; on success absorb following entries; otherwise
report failure so the caller pushes and re-sorts. -/
def uncachedAbsorb (newR : ChromRegion) : List ChromRegion → Option (List ChromRegion)
  | [] => none
  | res :: rest =>
    match res.assimilate newR with
    | some res2 =>
      let t := uncachedSweep res2 rest
      some (t.1 :: t.2)
    | none =>
      match res.concat newR with
      | some res2 =>
        let t := uncachedSweep res2 rest
        some (t.1 :: t.2)
      | none => (uncachedAbsorb newR rest).map (res :: ·)

/-- `GiveNonLeafNode.getUncachedRange` (src/unnamed/part_000 lines
1014-1053) on a `reverseDepth 0` node: for every `null` slot overlapping
the range, the clipped piece is merged into `props._result` (or pushed and
the list re-sorted); bins return `props._result` untouched
(src/lib/dataNode.js lines 390-392). -/
def getUncachedRangeFlatF (keys : List Int) (vals : List LeafSlot) (r : ChromRegion) :
    Nat → Nat → List ChromRegion → List ChromRegion
  | 0, _, result => result
  | fuel + 1, index, result =>
    if decide (index < vals.length) && jsLtO (keys.get? index) r.stop then
      let result2 :=
        match vals.get? index with
        | some LeafSlot.unloaded =>
          let newR : ChromRegion :=
            { chr := r.chr, start := max (keys.getD index 0) r.start,
              stop := min (keys.getD (index + 1) 0) r.stop }
          match uncachedAbsorb newR result with
          | some merged => merged
          | none => sortCR (result ++ [newR])
        | _ => result
      getUncachedRangeFlatF keys vals r fuel (index + 1) result2
    else result

def getUncachedRangeFlat (keys : List Int) (vals : List LeafSlot)
    (r : ChromRegion) (result0 : List ChromRegion) : List ChromRegion :=
  getUncachedRangeFlatF keys vals r (vals.length + 1)
    (travSkip keys vals.length r.start (vals.length + 1) 0) result0

/-- The post-insertion traversal (src/unnamed/part_000 lines 616-622 with
`nodeCallback = DataNode.postInsertOp`, `allowNull`): walk the slots
overlapping the range; `null` and `false` slots are skipped (`allowNull`
suppresses the throw and `this.values[index] &&` skips falsy slots); on
each bin `postInsertOp` runs `_updateContinuedList(extList)` — the shared
`extList` is spliced down to entries reaching past the bin's start and the
bin's `continuedList` entries are overwritten by compare-equal external
entries; its truthy return value never breaks the walk. -/
def postInsGoF (keys : List Int) (r : ChromRegion) :
    Nat → Nat → List LeafSlot → List ChromRegion → List LeafSlot × List ChromRegion
  | 0, _, vals, ext => (vals, ext)
  | fuel + 1, index, vals, ext =>
    if jsLtO (keys.get? index) r.stop && decide (index < vals.length) then
      let i2 := travSkip keys vals.length r.start (vals.length + 1) index
      match vals.get? i2 with
      | some (LeafSlot.bin d) =>
        let upd := DataNode._updateContinuedListCore d ext
        postInsGoF keys r fuel (i2 + 1) (vals.set i2 (LeafSlot.bin upd.1)) upd.2
      | _ => postInsGoF keys r fuel (i2 + 1) vals ext
    else (vals, ext)

/-- `DataNode._updateExtContinuedList` (src/lib/dataNode.js lines 502-521),
the stateful `dataCallback` of `preInsertionOp`'s synchronizing traversal.
State: the pre-sync external list, the synchronized output list, and the
traversal range (whose `start` is advanced to skip ahead). Throws when the
head of the pre-sync list starts before the stored entry it meets. -/
def syncCallback (entry : ChromRegion)
    (st : List ChromRegion × List ChromRegion × ChromRegion) :
    (List ChromRegion × List ChromRegion × ChromRegion) × Option String :=
  match st.1 with
  | [] => (st, none)
  | p0 :: rest =>
    if decide (p0.start < entry.start) then
      (st, some ("ContinuedList inconsistent: entry " ++ p0.crToString ++
        " does not exist before existing entry " ++ entry.crToString ++ "!"))
    else if entry.equalTo p0 then
      let r := st.2.2
      let r2 := { r with start :=
        (match rest with
         | [] => r.stop
         | q :: _ => min q.start r.stop) }
      ((rest, st.2.1 ++ [entry], r2), none)
    else (st, none)

/-- The `.every` loops of `DataNode._traverseChildren` under the
synchronizing callback: the overlap test uses the current (shrinking)
range; the callback's `undefined` return coerces to a truthy result
(`breakOnFalse` unset), so only a throw stops the loop (state reached so
far persists, as the JavaScript mutations do). -/
def syncEvery : List ChromRegion →
    List ChromRegion × List ChromRegion × ChromRegion →
    (List ChromRegion × List ChromRegion × ChromRegion) × Option String
  | [], st => (st, none)
  | entry :: rest, st =>
    let r := st.2.2
    if decide (r.start ≥ entry.stop) || decide (entry.start ≥ r.stop) then
      syncEvery rest st
    else
      match syncCallback entry st with
      | (st2, some e) => (st2, some e)
      | (st2, none) => syncEvery rest st2

/-- `DataNode._traverseChildren` under the synchronizing callback:
`continuedList` only on the first visited bin, then `startList`. -/
def syncDataNode (d : DataNode) (nfc : Bool)
    (st : List ChromRegion × List ChromRegion × ChromRegion) :
    (List ChromRegion × List ChromRegion × ChromRegion) × Option String :=
  if nfc then syncEvery d.startList st
  else
    match syncEvery d.continuedList st with
    | (st2, some e) => (st2, some e)
    | (st2, none) => syncEvery d.startList st2

/-- The root (`reverseDepth 0`) traversal under the synchronizing callback
with `allowNull` set: `null` and `false` slots are skipped, bins run
`syncDataNode`, `props.notFirstCall` is reset after a `null` slot. -/
def syncGoF (keys : List Int) (vals : List LeafSlot) :
    Nat → Nat → Bool → List ChromRegion × List ChromRegion × ChromRegion →
    (List ChromRegion × List ChromRegion × ChromRegion) × Option String
  | 0, _, _, st => (st, none)
  | fuel + 1, index, nfc, st =>
    let r := st.2.2
    if jsLtO (keys.get? index) r.stop && decide (index < vals.length) then
      let i2 := travSkip keys vals.length r.start (vals.length + 1) index
      match vals.get? i2 with
      | some (LeafSlot.bin d) =>
        match syncDataNode d nfc st with
        | (st2, some e) => (st2, some e)
        | (st2, none) => syncGoF keys vals fuel (i2 + 1) true st2
      | some LeafSlot.unloaded => syncGoF keys vals fuel (i2 + 1) false st
      | _ => syncGoF keys vals fuel (i2 + 1) true st
    else (st, none)

/-- The pipeline state threaded through `GiveTree.insert`: the facade, the
(shared, mutated) `data` array and the shared `props` object. -/
structure PipeState where
  tree : GiveTree
  data : List ChromRegion
  props : InsProps
  deriving Repr, DecidableEq

/-- `DataNode.preInsertionOp` (src/lib/dataNode.js lines 546-575) driven
from `GiveTree._preInsertionOp`: move the pre-start entries of `data`
overlapping the insertion range into a sorted working list; clear
`props.continuedList`; if a region precedes the insertion range inside the
covering range, run the synchronizing facade traversal over it (advancing
the generation and scheduling a wither pass, since its props carry no
`doNotWither`; state mutations persist when the callback throws); the
entries still unmatched go through `props.dataCallback` and into
`props.continuedList`. -/
def preInsOpF (st : PipeState) (insertRange : ChromRegion) : PipeState × Option String :=
  let t := st.tree
  let kept := st.data.filter (fun e => !decide (e.start < insertRange.start))
  let moved := (st.data.filter (fun e => decide (e.start < insertRange.start))).filter
    (fun e => ChromRegion.overlaps e insertRange)
  let preList := sortCR (st.props.continuedList ++ moved)
  match (t.coveringRange.getMinus insertRange).head? with
  | none =>
    let p2 := { st.props with
                continuedList := preList,
                callLog := (st.props.callLog ++
                  if preList.isEmpty then [] else preList) }
    ({ st with data := kept, props := p2 }, none)
  | some pr =>
    let t1 := t._advanceGen
    let nStart := t.root.keys.getD 0 0
    let nStop := t.root.keys.getD (t.root.keys.length - 1) 0
    match GiveNonLeafNode.truncateChrRange nStart nStop pr true false false with
    | Except.error e =>
      let tw := t1._wither
      let pcl := { st.props with continuedList := ([] : List ChromRegion) }
      ({ st with tree := tw, data := kept, props := pcl }, some e)
    | Except.ok pr2 =>
      let res := syncGoF t.root.keys t.root.vals (t.root.vals.length + 2) 0 false
        (preList, [], pr2)
      let t2 := t1._wither
      match res with
      | ((_, ext, _), some e) =>
        ({ st with tree := t2, data := kept,
                   props := { st.props with continuedList := ext } }, some e)
      | ((preRest, ext, _), none) =>
        let p2 := { st.props with
                    continuedList := ext ++ preRest,
                    callLog := (st.props.callLog ++
                      if preRest.isEmpty then [] else preRest) }
        ({ st with tree := t2, data := kept, props := p2 }, none)

/-- The boundary of the height-1 fragment: a root growing past the
branching factor would gain a new layer (`_restructureRoot`,
src/lib/sampleNode.js lines 203-225), leaving the flat model; theorems
about "successful" inserts therefore cover inserts that keep the root
within the branching factor. -/
def flatModelGrowthMsg : String :=
  "flat model: root childNum exceeded branchingFactor (layer growth not modelled)"

/-- The post-insertion pass of `GiveNonLeafNode.insert`: when a
`_postInsertionOpRange` is set, run the post-insertion traversal over
`_postInsertionOpRange.getMinus(chrRange).pop()` (by now `chrRange` has its
`start` advanced to its end, so this is the last uncovered piece). -/
def postInsApply (keys2 : List Int) (vals2 : List LeafSlot) (p2 : InsProps)
    (rZero : ChromRegion) : List LeafSlot × InsProps :=
  match p2.postRange with
  | some pr =>
    match (pr.getMinus rZero).getLast? with
    | some postR =>
      ((postInsGoF keys2 postR (vals2.length + 2) 0 vals2 p2.continuedList).1,
        { p2 with postRange := some postR })
    | none => (vals2, p2)
  | none => (vals2, p2)

/-- `GiveNonLeafNode.insert` (src/unnamed/part_000 lines 585-626) on a
`reverseDepth 0` `SampleNode` root: truncate the range on both sides
without throwing, run `_addLeafRecords`, then — when a
`_postInsertionOpRange` is set — run the post-insertion traversal over
`_postInsertionOpRange.getMinus(chrRange).pop()` (by now `chrRange` has
`start` advanced to its end, so this is the last uncovered piece), and
finally restructure (`SampleNode.restructuringRequired` is `true`;
`_restructureImmediateChildren` skips its child loop at `reverseDepth 0`
and `_restructureRoot` leaves a root whose child count is within the
branching factor unchanged). -/
def rootInsertF (localOnly : Bool) (B : Nat) (root : FlatNode)
    (data : List ChromRegion) (r : ChromRegion) (p0 : InsProps) :
    (FlatNode × List ChromRegion × InsProps) × Option String :=
  let nStart := root.keys.getD 0 0
  let nStop := root.keys.getD (root.keys.length - 1) 0
  let r1 := match GiveNonLeafNode.truncateChrRange nStart nStop r true true true with
    | Except.ok v => v
    | Except.error _ => r
  match addLeafRecordsF localOnly root.keys root.vals data r1 p0 with
  | Except.error e => ((root, data, p0), some e)
  | Except.ok (keys2, vals2, data2, p2, rFin) =>
    let afterPost := postInsApply keys2 vals2 p2 { r1 with start := rFin }
    if afterPost.1.length > B then
      ((⟨keys2, afterPost.1⟩, data2, afterPost.2), some flatModelGrowthMsg)
    else ((⟨keys2, afterPost.1⟩, data2, afterPost.2), none)

/-- `GiveTree._insertSingleRange` (src/lib/giveTree.js lines 207-224): the
chromosome guard, the throwing start-side truncation, `_preInsertionOp`
(present for `DataNode` leaves) and the root insertion. A falsy (empty)
chromosome passes the guard. -/
def insertSingleRangeF (st : PipeState) (range : ChromRegion) :
    PipeState × Option String :=
  if range.chr == "" || range.chr == st.tree.chr then
    let nStart := st.tree.root.keys.getD 0 0
    let nStop := st.tree.root.keys.getD (st.tree.root.keys.length - 1) 0
    match GiveNonLeafNode.truncateChrRange nStart nStop range true false false with
    | Except.error e => (st, some e)
    | Except.ok r2 =>
      match preInsOpF st r2 with
      | (st2, some e) => (st2, some e)
      | (st2, none) =>
        match rootInsertF st2.tree.localOnly st2.tree.branchingFactor
          st2.tree.root st2.data r2 st2.props with
        | ((root2, data2, p2), err) =>
          ({ tree := { st2.tree with root := root2 }, data := data2,
             props := p2 }, err)
  else (st, none)

/-- `GiveTree.getUncachedRange` (src/lib/giveTree.js lines 522-534):
`localOnly` trees and mismatching chromosomes answer a fresh empty array
(leaving the shared `props._result` untouched); otherwise the truncated
range is handed to the root and the accumulated `props._result` is both
updated and returned. Returns `(accumulated _result, returned value)`. -/
def getUncachedRangeFacade (t : GiveTree) (rOpt : Option ChromRegion)
    (result0 : List ChromRegion) :
    Except String (List ChromRegion × List ChromRegion) :=
  if !t.localOnly && GiveTree.chrMatches t rOpt then
    let nStart := t.root.keys.getD 0 0
    let nStop := t.root.keys.getD (t.root.keys.length - 1) 0
    match rOpt with
    | some r =>
      match GiveNonLeafNode.truncateChrRange nStart nStop r true false false with
      | Except.error e => Except.error e
      | Except.ok r2 =>
        let res := getUncachedRangeFlat t.root.keys t.root.vals r2 result0
        Except.ok (res, res)
    | none =>
      let res := getUncachedRangeFlat t.root.keys t.root.vals t.coveringRange result0
      Except.ok (res, res)
  else Except.ok (result0, [])

/-- `GiveTree.hasUncachedRange` (src/lib/giveTree.js lines 545-556). -/
def hasUncachedRangeFacade (t : GiveTree) (rOpt : Option ChromRegion) :
    Except String Bool :=
  if !t.localOnly && GiveTree.chrMatches t rOpt then
    let nStart := t.root.keys.getD 0 0
    let nStop := t.root.keys.getD (t.root.keys.length - 1) 0
    match rOpt with
    | some r =>
      match GiveNonLeafNode.truncateChrRange nStart nStop r true false false with
      | Except.error e => Except.error e
      | Except.ok r2 => Except.ok (hasUncachedRangeFlat t.root.keys t.root.vals r2)
    | none => Except.ok (hasUncachedRangeFlat t.root.keys t.root.vals t.coveringRange)
  else Except.ok false

/-- Modelled from the spec: the aggregated error's per-entry data dump
("the first three offending entries serialized as a best-effort text
form"); `JSON.stringify` on `ChromRegion` objects is engine/class
dependent. -/
def crJsonOne (c : ChromRegion) : String :=
  "\x7b\"chr\":\"" ++ c.chr ++ "\",\"start\":" ++ toString c.start ++
    ",\"end\":" ++ toString c.stop ++ "\x7d"

def crJson (l : List ChromRegion) : String :=
  "[" ++ String.intercalate "," (l.map crJsonOne) ++ "]"

/-- Modelled from the spec: `err.stack` is engine-specific; Node prefixes
the message. -/
def jsStack (msg : String) : String := "Error: " ++ msg

/-- One entry of the aggregated insertion error (src/lib/giveTree.js lines
313-317): the failure message, the failing sub-range and the first three
entries of the (already partially consumed) `data` array. -/
def insertErrEntry (msg : String) (range : ChromRegion)
    (data : List ChromRegion) : String :=
  "[insert] " ++ msg ++ "\nRange: " ++ range.regionToString ++
    "\nData (first 3): " ++ crJson (data.take 3) ++ "\nStack: " ++ jsStack msg

/-- `GiveTree.insert` (src/lib/giveTree.js lines 285-328): sort the data;
`localOnly` trees insert over their covering range directly (uncaught
throw); otherwise compute the uncached sub-ranges of the given range(s)
(the `reduce` discards its accumulator, but the shared `uncachedProps`
accumulates `_result` across calls, so the last return value carries every
sub-range), process every sub-range — collecting, not rethrowing,
per-range failures — and finally throw a single aggregated error when any
sub-range failed. -/
def insertF (t : GiveTree) (data0 : List ChromRegion)
    (chrRangesOpt : Option (List ChromRegion)) (props0 : InsProps) :
    PipeState × Except String Unit :=
  let data1 := sortCR data0
  if t.localOnly then
    match insertSingleRangeF { tree := t, data := data1, props := props0 }
      t.coveringRange with
    | (st, some e) => (st, Except.error e)
    | (st, none) => (st, Except.ok ())
  else
    let ranges := chrRangesOpt.getD data1
    let folded : Except String (List ChromRegion × List ChromRegion) :=
      ranges.foldl (fun acc range =>
        match acc with
        | Except.error e => Except.error e
        | Except.ok (res, _) => getUncachedRangeFacade t (some range) res)
        (Except.ok ([], []))
    match folded with
    | Except.error e =>
      (({ tree := t, data := data1, props := props0 } : PipeState), Except.error e)
    | Except.ok (_, uncached) =>
      let processed := uncached.foldl
        (fun (acc : PipeState × List String) range =>
          match insertSingleRangeF acc.1 range with
          | (st, some e) => (st, acc.2 ++ [insertErrEntry e range st.data])
          | (st, none) => (st, acc.2))
        ({ tree := t, data := data1, props := props0 }, [])
      if processed.2.isEmpty then (processed.1, Except.ok ())
      else
        (processed.1, Except.error (processed.2.foldl
          (fun prev m => prev ++ "\n" ++ m) "Exception occured during insertion:"))

/-- C10 (amended): for a range whose (nonempty) chromosome differs from the
tree's, `traverse` returns `true` leaving the facade state, callback state
and generation untouched, `getUncachedRange` answers `[]` (leaving the
shared accumulator untouched), `hasUncachedRange` answers `false`, and — on
a **non-`localOnly`** tree — `insert` succeeds without touching the tree or
firing any callback (the sub-range computation finds nothing to insert
into). The non-`localOnly` restriction is the amendment: a `localOnly`
tree's `insert` ignores the range argument entirely and inserts over the
covering range (`c10_localOnly_insert_ignores_range`). -/
theorem c10_wrong_chromosome_noop (t : GiveTree) (R : ChromRegion)
    (ctx : TravCtx σ) (dnw nfc : Bool) (s0 : σ) (data : List ChromRegion)
    (props0 : InsProps) (res0 : List ChromRegion)
    (hne : R.chr ≠ "") (hdiff : R.chr ≠ t.chr) :
    GiveTree.traverse t (some R) ctx dnw nfc s0 = (t, s0, Except.ok true) ∧
    getUncachedRangeFacade t (some R) res0 = Except.ok (res0, []) ∧
    hasUncachedRangeFacade t (some R) = Except.ok false ∧
    (t.localOnly = false →
      insertF t data (some [R]) props0 =
        ({ tree := t, data := sortCR data, props := props0 }, Except.ok ())) := by
  have hmatch : GiveTree.chrMatches t (some R) = false := by
    simp only [GiveTree.chrMatches, Bool.or_eq_false_iff]
    constructor
    · exact beq_eq_false_iff_ne.mpr hne
    · exact beq_eq_false_iff_ne.mpr hdiff
  refine ⟨?_, ?_, ?_, ?_⟩
  · unfold GiveTree.traverse
    rw [hmatch]
    rfl
  · unfold getUncachedRangeFacade
    rw [hmatch]
    simp
  · unfold hasUncachedRangeFacade
    rw [hmatch]
    simp
  · intro hlocal
    have hg : getUncachedRangeFacade t (some R) [] = Except.ok ([], []) := by
      unfold getUncachedRangeFacade
      rw [hmatch]
      simp
    unfold insertF
    rw [hlocal]
    simp only [Bool.false_eq_true, if_false, Option.getD_some, List.foldl_cons,
      List.foldl_nil]
    rw [hg]
    rfl

def c10x : ChromRegion := { chr := "chr1", start := 0, stop := 5 }

/-- A range on a different chromosome. -/
def c10wrong : ChromRegion := { chr := "chr2", start := 0, stop := 5 }

/-- A `localOnly` tree with a single unloaded slot. -/
def c10tree : GiveTree :=
  { chr := "chr1", localOnly := true, branchingFactor := 20, lifeSpan := 0,
    currGen := none, witherActive := false, pendingOps := 0,
    root := { keys := [0, 10], vals := [LeafSlot.unloaded] } }

/-- C10 counterexample to the unamended claim: on a `localOnly` tree,
`insert` with a range on a *different* chromosome is not a no-op — the
range argument is ignored outright (`GiveTree.insert` localOnly branch uses
`this.coveringRange`), the call succeeds and the data lands in the tree. -/
theorem c10_localOnly_insert_ignores_range :
    (insertF c10tree [c10x] (some [c10wrong]) {}).1.tree ≠ c10tree ∧
    (insertF c10tree [c10x] (some [c10wrong]) {}).2 = Except.ok () ∧
    (insertF c10tree [c10x] (some [c10wrong]) {}).1.tree.root.vals =
      [LeafSlot.bin { start := 0, startList := [c10x], continuedList := [] }] :=
  ⟨by decide, rfl, by decide⟩

/-- Witness for C10 (amended): on a non-`localOnly` tree, all four public
operations ignore a `chr2` range. -/
theorem c10_witness :
    GiveTree.traverse (σ := Unit)
        { chr := "chr1", localOnly := false, branchingFactor := 20, lifeSpan := 0,
          currGen := none, witherActive := false, pendingOps := 0,
          root := { keys := [0, 10], vals := [LeafSlot.unloaded] } }
        (some c10wrong) { dataCallback := none } false false () =
      ({ chr := "chr1", localOnly := false, branchingFactor := 20, lifeSpan := 0,
         currGen := none, witherActive := false, pendingOps := 0,
         root := { keys := [0, 10], vals := [LeafSlot.unloaded] } }, (),
        Except.ok true) ∧
    getUncachedRangeFacade
        { chr := "chr1", localOnly := false, branchingFactor := 20, lifeSpan := 0,
          currGen := none, witherActive := false, pendingOps := 0,
          root := { keys := [0, 10], vals := [LeafSlot.unloaded] } }
        (some c10wrong) [] = Except.ok ([], []) ∧
    hasUncachedRangeFacade
        { chr := "chr1", localOnly := false, branchingFactor := 20, lifeSpan := 0,
          currGen := none, witherActive := false, pendingOps := 0,
          root := { keys := [0, 10], vals := [LeafSlot.unloaded] } }
        (some c10wrong) = Except.ok false ∧
    (({ chr := "chr1", localOnly := false, branchingFactor := 20, lifeSpan := 0,
        currGen := none, witherActive := false, pendingOps := 0,
        root := { keys := [0, 10], vals := [LeafSlot.unloaded] } } :
          GiveTree).localOnly = false →
      insertF
          { chr := "chr1", localOnly := false, branchingFactor := 20, lifeSpan := 0,
            currGen := none, witherActive := false, pendingOps := 0,
            root := { keys := [0, 10], vals := [LeafSlot.unloaded] } }
          [c10x] (some [c10wrong]) {} =
        ({ tree :=
            { chr := "chr1", localOnly := false, branchingFactor := 20, lifeSpan := 0,
              currGen := none, witherActive := false, pendingOps := 0,
              root := { keys := [0, 10], vals := [LeafSlot.unloaded] } },
           data := sortCR [c10x], props := {} }, Except.ok ())) :=
  c10_wrong_chromosome_noop
    { chr := "chr1", localOnly := false, branchingFactor := 20, lifeSpan := 0,
      currGen := none, witherActive := false, pendingOps := 0,
      root := { keys := [0, 10], vals := [LeafSlot.unloaded] } }
    c10wrong { dataCallback := none } false false () [c10x] {} []
    (by decide) (by decide)

/-- Spec-side description of the batch loop (refinement target for C8,
following the spec's words): attempt **every** sub-range in order on the
threaded state — an earlier failure never stops later sub-ranges — and
collect, per failing sub-range, its message, the sub-range and the `data`
array as it stood at that failure. -/
def specProcess : PipeState → List ChromRegion →
    PipeState × List (String × ChromRegion × List ChromRegion)
  | st, [] => (st, [])
  | st, r :: rest =>
    match insertSingleRangeF st r with
    | (st2, some e) =>
      let t := specProcess st2 rest
      (t.1, (e, r, st2.data) :: t.2)
    | (st2, none) => specProcess st2 rest

/-- The uncached-sub-range computation of `GiveTree.insert`
(src/lib/giveTree.js lines 303-307): a `reduce` whose accumulator is
discarded but whose shared `uncachedProps._result` accumulates, so the last
call's return value carries every sub-range. -/
def uncachedRangesOf (t : GiveTree) (ranges : List ChromRegion) :
    Except String (List ChromRegion × List ChromRegion) :=
  ranges.foldl (fun acc range =>
    match acc with
    | Except.error e => Except.error e
    | Except.ok (res, _) => getUncachedRangeFacade t (some range) res)
    (Except.ok ([], []))

theorem processFold_eq_spec : ∀ (rs : List ChromRegion) (st0 : PipeState)
    (acc : List String),
    rs.foldl (fun (acc : PipeState × List String) range =>
      match insertSingleRangeF acc.1 range with
      | (st, some e) => (st, acc.2 ++ [insertErrEntry e range st.data])
      | (st, none) => (st, acc.2)) (st0, acc) =
    ((specProcess st0 rs).1,
      acc ++ (specProcess st0 rs).2.map (fun x => insertErrEntry x.1 x.2.1 x.2.2)) := by
  intro rs
  induction rs with
  | nil => intro st0 acc; simp [specProcess]
  | cons r rest ih =>
    intro st0 acc
    rw [List.foldl_cons]
    cases h : insertSingleRangeF st0 r with
    | mk st2 eo =>
      cases eo with
      | some e =>
        show rest.foldl _ (st2, acc ++ [insertErrEntry e r st2.data]) = _
        rw [ih st2 (acc ++ [insertErrEntry e r st2.data])]
        simp [specProcess, h]
      | none =>
        show rest.foldl _ (st2, acc) = _
        rw [ih st2 acc]
        simp [specProcess, h]

/-- C8: on a non-`localOnly` tree, once the uncached sub-ranges `rs` of the
given range(s) are computed, `insert` attempts **every** sub-range on the
threaded state (`specProcess` — an earlier failure does not stop later
sub-ranges, whose insertions still happen), succeeds when none failed, and
otherwise throws a single aggregated error: the header
`Exception occured during insertion:` followed by one entry per failing
sub-range, each naming that sub-range (`regionToString`) and the first
three entries of the `data` array as it stood at that failure. -/
theorem c8_insert_aggregates_all_failures (t : GiveTree)
    (data : List ChromRegion) (props0 : InsProps) (ranges : List ChromRegion)
    (res rs : List ChromRegion)
    (hlocal : t.localOnly = false)
    (hrs : uncachedRangesOf t ranges = Except.ok (res, rs)) :
    (insertF t data (some ranges) props0).1 =
      (specProcess { tree := t, data := sortCR data, props := props0 } rs).1 ∧
    ((specProcess { tree := t, data := sortCR data, props := props0 } rs).2 = [] →
      (insertF t data (some ranges) props0).2 = Except.ok ()) ∧
    ((specProcess { tree := t, data := sortCR data, props := props0 } rs).2 ≠ [] →
      (insertF t data (some ranges) props0).2 = Except.error
        ((((specProcess { tree := t, data := sortCR data, props := props0 } rs).2).map
          (fun x => insertErrEntry x.1 x.2.1 x.2.2)).foldl
            (fun prev m => prev ++ "\n" ++ m) "Exception occured during insertion:")) := by
  have hrs' : (ranges.foldl (fun acc range =>
      match acc with
      | Except.error e => Except.error e
      | Except.ok (res, _) => getUncachedRangeFacade t (some range) res)
      (Except.ok ([], [])) :
      Except String (List ChromRegion × List ChromRegion)) = Except.ok (res, rs) := hrs
  have hmain : insertF t data (some ranges) props0 =
      (if (((specProcess { tree := t, data := sortCR data, props := props0 } rs).2).map
          (fun x => insertErrEntry x.1 x.2.1 x.2.2)).isEmpty then
        ((specProcess { tree := t, data := sortCR data, props := props0 } rs).1,
          Except.ok ())
      else
        ((specProcess { tree := t, data := sortCR data, props := props0 } rs).1,
          Except.error
            ((((specProcess { tree := t, data := sortCR data, props := props0 } rs).2).map
              (fun x => insertErrEntry x.1 x.2.1 x.2.2)).foldl
                (fun prev m => prev ++ "\n" ++ m)
                "Exception occured during insertion:"))) := by
    unfold insertF
    rw [hlocal]
    simp only [Bool.false_eq_true, if_false, Option.getD_some]
    rw [hrs']
    show (if (rs.foldl _ (({ tree := t, data := sortCR data, props := props0 } : PipeState),
          ([] : List String))).2.isEmpty
        then _ else _) = _
    rw [processFold_eq_spec rs { tree := t, data := sortCR data, props := props0 } []]
    simp
  refine ⟨?_, ?_, ?_⟩
  · rw [hmain]
    split <;> rfl
  · intro hnil
    rw [hmain, if_pos]
    rw [hnil]
    rfl
  · intro hne
    rw [hmain, if_neg]
    rw [List.isEmpty_eq_true, List.map_eq_nil_iff]
    exact hne

def c8m : ChromRegion := { chr := "chr1", start := 10, stop := 15 }

def c8n : ChromRegion := { chr := "chr1", start := 30, stop := 33 }

def c8dm : DataNode := { start := 10, startList := [c8m] }

def c8dn : DataNode := { start := 30, startList := [c8n] }

/-- A tree with three unloaded gaps separated by loaded bins. -/
def c8tree : GiveTree :=
  { chr := "chr1", localOnly := false, branchingFactor := 20, lifeSpan := 0,
    currGen := none, witherActive := false, pendingOps := 0,
    root := { keys := [0, 10, 20, 30, 40, 50],
              vals := [LeafSlot.unloaded, LeafSlot.bin c8dm, LeafSlot.unloaded,
                       LeafSlot.bin c8dn, LeafSlot.unloaded] } }

def c8y : ChromRegion := { chr := "chr1", start := 8, stop := 100, tag := 2 }

def c8x2 : ChromRegion := { chr := "chr1", start := 20, stop := 25, tag := 3 }

/-- A bogus continued entry placed before every stored entry: the first two
sub-range insertions fail on the `ContinuedList inconsistent` check. -/
def c8b : ChromRegion := { chr := "chr1", start := 5, stop := 100, tag := 1 }

def c8props : InsProps := { continuedList := [c8b] }

def c8R : ChromRegion := { chr := "chr1", start := 0, stop := 50 }

def c8rs : List ChromRegion :=
  [{ chr := "chr1", start := 0, stop := 10 },
   { chr := "chr1", start := 20, stop := 30 },
   { chr := "chr1", start := 40, stop := 50 }]

/-- Witness for C8: three uncached sub-ranges, of which the first two fail
(inconsistent continued lists) while the third is still processed and
succeeds; `insert` throws the single aggregated error with one entry per
failing sub-range. -/
theorem c8_witness :
    (insertF c8tree [c8y, c8x2] (some [c8R]) c8props).1 =
      (specProcess { tree := c8tree, data := sortCR [c8y, c8x2],
                     props := c8props } c8rs).1 ∧
    ((specProcess { tree := c8tree, data := sortCR [c8y, c8x2],
                    props := c8props } c8rs).2 = [] →
      (insertF c8tree [c8y, c8x2] (some [c8R]) c8props).2 = Except.ok ()) ∧
    ((specProcess { tree := c8tree, data := sortCR [c8y, c8x2],
                    props := c8props } c8rs).2 ≠ [] →
      (insertF c8tree [c8y, c8x2] (some [c8R]) c8props).2 = Except.error
        ((((specProcess { tree := c8tree, data := sortCR [c8y, c8x2],
                          props := c8props } c8rs).2).map
          (fun x => insertErrEntry x.1 x.2.1 x.2.2)).foldl
            (fun prev m => prev ++ "\n" ++ m)
            "Exception occured during insertion:")) :=
  c8_insert_aggregates_all_failures c8tree [c8y, c8x2] c8props [c8R] c8rs c8rs
    rfl rfl

/-- Whether coordinate `pt` lies in a `null` (unloaded) slot of the flat
node: slot `i` covers `[keys[i], keys[i+1])`. -/
def coversNull : List Int → List LeafSlot → Int → Bool
  | k1 :: k2 :: ks, v :: vs, pt =>
    (v == LeafSlot.unloaded && decide (k1 ≤ pt) && decide (pt < k2)) ||
    coversNull (k2 :: ks) vs pt
  | _, _, _ => false

theorem coversNull_exists : ∀ (keys : List Int) (vals : List LeafSlot) (pt : Int),
    coversNull keys vals pt = true → ∃ j, vals.get? j = some LeafSlot.unloaded := by
  intro keys
  induction keys with
  | nil => intro vals pt h; cases vals <;> simp [coversNull] at h
  | cons k1 krest ih =>
    intro vals pt h
    cases krest with
    | nil => cases vals <;> simp [coversNull] at h
    | cons k2 ks =>
      cases vals with
      | nil => simp [coversNull] at h
      | cons v vs =>
        simp only [coversNull, Bool.or_eq_true] at h
        rcases h with h | h
        · refine ⟨0, ?_⟩
          simp only [Bool.and_eq_true, beq_iff_eq] at h
          rw [h.1.1]
          rfl
        · obtain ⟨j, hj⟩ := ih vs pt h
          exact ⟨j + 1, by simpa using hj⟩

theorem coversNull_mono (keys : List Int) :
    ∀ (vals vals' : List LeafSlot) (pt : Int),
      (∀ j, vals'.get? j = some LeafSlot.unloaded →
        vals.get? j = some LeafSlot.unloaded) →
      coversNull keys vals' pt = true → coversNull keys vals pt = true := by
  induction keys with
  | nil => intro vals vals' pt _ h; cases vals' <;> simp [coversNull] at h
  | cons k1 krest ih =>
    intro vals vals' pt hmono h
    cases krest with
    | nil => cases vals' <;> simp [coversNull] at h
    | cons k2 ks =>
      cases vals' with
      | nil => simp [coversNull] at h
      | cons v' vs' =>
        cases vals with
        | nil =>
          exfalso
          obtain ⟨j0, hj0⟩ := coversNull_exists (k1 :: k2 :: ks) (v' :: vs') pt h
          have := hmono j0 hj0
          simp at this
        | cons v vs =>
          simp only [coversNull, Bool.or_eq_true] at h ⊢
          rcases h with h | h
          · left
            simp only [Bool.and_eq_true, beq_iff_eq] at h ⊢
            refine ⟨⟨?_, h.1.2⟩, h.2⟩
            have := hmono 0 (by rw [h.1.1]; rfl)
            simpa using this
          · right
            exact ih vs vs' pt (fun j hj => by
              have := hmono (j + 1) hj
              simpa using this) h

theorem listInsertAt_length (i : Nat) (a : α) (l : List α) (h : i ≤ l.length) :
    (listInsertAt i a l).length = l.length + 1 := by
  simp only [listInsertAt, List.length_append, List.length_take, List.length_cons,
    List.length_drop]
  omega

theorem listInsertAt_get?_lt (i : Nat) (a : α) (l : List α) (q : Nat)
    (hq : q < i) (hi : i ≤ l.length) :
    (listInsertAt i a l).get? q = l.get? q := by
  simp only [listInsertAt]
  rw [List.get?_append (by simp; omega)]
  rw [List.get?_take hq]

theorem listInsertAt_get?_self (i : Nat) (a : α) (l : List α) (hi : i ≤ l.length) :
    (listInsertAt i a l).get? i = some a := by
  simp only [listInsertAt]
  rw [List.get?_append_right (by rw [List.length_take]; exact Nat.min_le_left _ _)]
  simp [Nat.min_eq_left hi]

theorem listInsertAt_get?_ge (i : Nat) (a : α) (l : List α) (q : Nat)
    (hq : i ≤ q) (hi : i ≤ l.length) :
    (listInsertAt i a l).get? (q + 1) = l.get? q := by
  simp only [listInsertAt]
  rw [List.get?_append_right (by simp; omega)]
  simp only [List.length_take, Nat.min_eq_left hi]
  have h1 : q + 1 - i = (q - i) + 1 := by omega
  rw [h1]
  simp only [List.get?_cons_succ, List.get?_drop]
  congr 1
  omega

theorem coversNull_iff : ∀ (keys : List Int) (vals : List LeafSlot) (pt : Int),
    coversNull keys vals pt = true ↔
      ∃ i ki ki1, keys.get? i = some ki ∧ keys.get? (i + 1) = some ki1 ∧
        vals.get? i = some LeafSlot.unloaded ∧ ki ≤ pt ∧ pt < ki1 := by
  intro keys
  induction keys with
  | nil =>
    intro vals pt
    constructor
    · intro h; cases vals <;> simp [coversNull] at h
    · rintro ⟨i, ki, ki1, hki, -, -, -, -⟩
      simp at hki
  | cons k1 krest ih =>
    intro vals pt
    cases krest with
    | nil =>
      constructor
      · intro h; cases vals <;> simp [coversNull] at h
      · rintro ⟨i, ki, ki1, hki, hki1, -, -, -⟩
        rcases i with _ | i
        · simp at hki1
        · simp at hki
    | cons k2 ks =>
      cases vals with
      | nil =>
        constructor
        · intro h; simp [coversNull] at h
        · rintro ⟨i, ki, ki1, -, -, hv, -, -⟩
          simp at hv
      | cons v vs =>
        constructor
        · intro h
          simp only [coversNull, Bool.or_eq_true] at h
          rcases h with h | h
          · simp only [Bool.and_eq_true, beq_iff_eq, decide_eq_true_eq] at h
            exact ⟨0, k1, k2, rfl, rfl, by rw [h.1.1]; rfl, h.1.2, h.2⟩
          · obtain ⟨i, ki, ki1, hki, hki1, hv, hle, hlt⟩ := (ih vs pt).mp h
            exact ⟨i + 1, ki, ki1, by simpa using hki, by simpa using hki1,
              by simpa using hv, hle, hlt⟩
        · rintro ⟨i, ki, ki1, hki, hki1, hv, hle, hlt⟩
          simp only [coversNull, Bool.or_eq_true]
          rcases i with _ | i
          · left
            simp only [List.get?_cons_succ, List.get?_cons_zero,
              Option.some.injEq] at hki hki1 hv
            simp only [Bool.and_eq_true, beq_iff_eq, decide_eq_true_eq]
            subst hki hki1
            exact ⟨⟨hv, hle⟩, hlt⟩
          · right
            refine (ih vs pt).mpr ⟨i, ki, ki1, by simpa using hki,
              by simpa using hki1, by simpa using hv, hle, hlt⟩

theorem jsLtO_eq_true_iff (a : Option Int) (b : Int) :
    jsLtO a b = true ↔ ∃ x, a = some x ∧ x < b := by
  cases a with
  | none => simp [jsLtO]
  | some x => simp [jsLtO]

theorem jsLeO_eq_false_iff (a : Option Int) (b : Int) :
    jsLeO a b = false ↔ ∀ x, a = some x → b < x := by
  cases a with
  | none => simp [jsLeO]
  | some x =>
    simp only [jsLeO, decide_eq_false_iff_not, Int.not_le, Option.some.injEq]
    constructor
    · intro h y hy; cases hy; exact h
    · intro h; exact h x rfl

theorem chainLt_of_get? (keys : List Int)
    (h : ∀ q ki ki1, keys.get? q = some ki → keys.get? (q + 1) = some ki1 → ki < ki1) :
    List.Chain' (· < ·) keys := by
  induction keys with
  | nil => exact List.chain'_nil
  | cons k1 rest ih =>
    cases rest with
    | nil => exact List.chain'_singleton _
    | cons k2 ks =>
      refine List.chain'_cons.mpr ⟨h 0 k1 k2 rfl rfl, ?_⟩
      exact ih (fun q ki ki1 hq hq1 => h (q + 1) ki ki1 (by simpa using hq)
        (by simpa using hq1))

theorem erase_get?_lt (l : List α) (i q : Nat) (hq : q < i) :
    (l.eraseIdx i).get? q = l.get? q := by
  rw [List.eraseIdx_eq_take_drop_succ]
  rcases Nat.lt_or_ge q l.length with hql | hql
  · rw [List.get?_append (by simp; omega)]
    rw [List.get?_take hq]
  · rw [List.get?_eq_none.mpr (by simp; omega), List.get?_eq_none.mpr hql]

theorem erase_get?_ge (l : List α) (i q : Nat) (hq : i ≤ q) :
    (l.eraseIdx i).get? q = l.get? (q + 1) := by
  rw [List.eraseIdx_eq_take_drop_succ]
  rcases Nat.lt_or_ge i l.length with hil | hil
  · rw [List.get?_append_right (by simp; omega)]
    simp only [List.length_take, Nat.min_eq_left (Nat.le_of_lt hil), List.get?_drop]
    congr 1
    omega
  · rw [List.take_of_length_le hil, List.drop_eq_nil_of_le (by omega),
      List.append_nil]
    rw [List.get?_eq_none.mpr (by omega), List.get?_eq_none.mpr (by omega)]

theorem cells_disjoint {keys : List Int} (hs : List.Chain' (· < ·) keys)
    {q q' : Nat} {a b a' b' pt : Int}
    (hqa : keys.get? q = some a) (hqb : keys.get? (q + 1) = some b)
    (hqa' : keys.get? q' = some a') (hqb' : keys.get? (q' + 1) = some b')
    (h1 : a ≤ pt) (h2 : pt < b) (h1' : a' ≤ pt) (h2' : pt < b') : q = q' := by
  rcases Nat.lt_trichotomy q q' with h | h | h
  · exfalso
    have : b ≤ a' := chainLt_get?_le hs hqb hqa' (by omega)
    omega
  · exact h
  · exfalso
    have : b' ≤ a := chainLt_get?_le hs hqb' hqa (by omega)
    omega

theorem mergeAfter_null_pres (d : DataNode) (b : LeafSlot)
    (h : (DataNode.mergeAfter d b).2 = LeafSlot.unloaded) : b = LeafSlot.unloaded := by
  cases b with
  | empty => simp [DataNode.mergeAfter] at h
  | unloaded => rfl
  | bin d2 =>
    simp only [DataNode.mergeAfter] at h
    by_cases hsl : d2.startList.length ≤ 0
    · rw [if_pos hsl] at h; exact absurd h (by simp)
    · rw [if_neg hsl] at h; exact absurd h (by simp)

theorem childMergableV_null_pres (f b : Option LeafSlot)
    (h : (childMergableV f b).2 = some LeafSlot.unloaded) :
    b = some LeafSlot.unloaded := by
  match f, b with
  | none, none => exact absurd h (by simp [childMergableV])
  | none, some v => exact h
  | some LeafSlot.empty, some LeafSlot.empty => exact h
  | some LeafSlot.empty, none => exact h
  | some LeafSlot.empty, some LeafSlot.unloaded => exact h
  | some LeafSlot.empty, some (LeafSlot.bin d) => exact h
  | some LeafSlot.unloaded, b => exact h
  | some (LeafSlot.bin d), none => exact absurd h (by simp [childMergableV])
  | some (LeafSlot.bin d), some bv =>
    simp only [childMergableV, Option.some.injEq] at h
    rw [mergeAfter_null_pres d bv h]

theorem childMergableV_front_not_null (f b : Option LeafSlot)
    (h : (childMergableV f b).1 = true) : f ≠ some LeafSlot.unloaded := by
  intro hf
  subst hf
  simp [childMergableV] at h

theorem coversNull_set (keys : List Int) (vals : List LeafSlot) (i : Nat)
    (w : LeafSlot) (pt : Int) (hw : w ≠ LeafSlot.unloaded)
    (h : coversNull keys (vals.set i w) pt = true) : coversNull keys vals pt = true := by
  refine coversNull_mono keys vals (vals.set i w) pt (fun j hj => ?_) h
  by_cases hij : j = i
  · subst hij
    rcases Nat.lt_or_ge j vals.length with hjl | hjl
    · rw [List.get?_set_eq] at hj
      exfalso
      apply hw
      rcases hx : vals.get? j with _ | x
      · rw [hx] at hj; simp at hj
      · rw [hx] at hj; simp at hj; exact hj
    · rw [List.get?_eq_none.mpr (by simpa using hjl)] at hj
      exact absurd hj (by simp)
  · rw [List.get?_set_ne _ _ (fun hh => hij hh.symm)] at hj
    exact hj

theorem splitOp_coversNull (keys : List Int) (vals : List LeafSlot) (i : Nat)
    (nk ki : Int) (w : LeafSlot) (pt : Int)
    (hkl : keys.length = vals.length + 1) (hin : i < vals.length)
    (hki : keys.get? i = some ki) (hlow : ki < nk)
    (hup : jsLeO (keys.get? (i + 1)) nk = false)
    (hw : w = LeafSlot.empty ∨ w = vals.getD i LeafSlot.unloaded)
    (hc : coversNull (listInsertAt (i + 1) nk keys) (listInsertAt (i + 1) w vals) pt
      = true) :
    coversNull keys vals pt = true := by
  have hik : i + 1 ≤ keys.length := by omega
  have hiv : i + 1 ≤ vals.length := by omega
  obtain ⟨ki1, hki1⟩ : ∃ ki1, keys.get? (i + 1) = some ki1 :=
    ⟨keys.get ⟨i + 1, by omega⟩, List.get?_eq_get (by omega)⟩
  have hnklt : nk < ki1 := (jsLeO_eq_false_iff _ _).mp hup ki1 hki1
  obtain ⟨q, a, b, hqa, hqb, hqv, hle, hlt⟩ := (coversNull_iff _ _ pt).mp hc
  rcases Nat.lt_trichotomy q i with hq | hq | hq
  · rw [listInsertAt_get?_lt _ _ _ _ (by omega) hik] at hqa
    rw [listInsertAt_get?_lt _ _ _ _ (by omega) hik] at hqb
    rw [listInsertAt_get?_lt _ _ _ _ (by omega) hiv] at hqv
    exact (coversNull_iff _ _ pt).mpr ⟨q, a, b, hqa, hqb, hqv, hle, hlt⟩
  · subst hq
    rw [listInsertAt_get?_lt _ _ _ _ (by omega) hik, hki] at hqa
    rw [listInsertAt_get?_self _ _ _ hik] at hqb
    rw [listInsertAt_get?_lt _ _ _ _ (by omega) hiv] at hqv
    cases hqa; cases hqb
    exact (coversNull_iff _ _ pt).mpr ⟨q, ki, ki1, hki, hki1, hqv, hle, by omega⟩
  · rcases Nat.eq_or_lt_of_le hq with hq1 | hq1
    · subst hq1
      rw [listInsertAt_get?_self _ _ _ hik] at hqa
      have hqb2 : (listInsertAt (i + 1) nk keys).get? (i + 1 + 1) = keys.get? (i + 1) :=
        listInsertAt_get?_ge _ _ _ _ (by omega) hik
      rw [hqb2, hki1] at hqb
      rw [listInsertAt_get?_self _ _ _ hiv] at hqv
      cases hqa; cases hqb
      have hwv : w = LeafSlot.unloaded := by
        cases hqv; rfl
      obtain ⟨v0, hv0⟩ : ∃ v0, vals.get? i = some v0 :=
        ⟨vals.get ⟨i, hin⟩, List.get?_eq_get hin⟩
      have hv0u : v0 = LeafSlot.unloaded := by
        rcases hw with hw | hw
        · rw [hw] at hwv; exact absurd hwv (by simp)
        · rw [List.getD_eq_getElem?_getD, ← List.get?_eq_getElem?, hv0] at hw
          rw [← hwv, hw]
          rfl
      refine (coversNull_iff _ _ pt).mpr ⟨i, ki, ki1, hki, hki1, ?_, by omega, hlt⟩
      rw [hv0, hv0u]
    · have ha : (listInsertAt (i + 1) nk keys).get? ((q - 1) + 1) = keys.get? (q - 1) :=
        listInsertAt_get?_ge _ _ _ _ (by omega) hik
      have hb : (listInsertAt (i + 1) nk keys).get? (q + 1) = keys.get? q :=
        listInsertAt_get?_ge _ _ _ _ (by omega) hik
      have hv : (listInsertAt (i + 1) w vals).get? ((q - 1) + 1) = vals.get? (q - 1) :=
        listInsertAt_get?_ge _ _ _ _ (by omega) hiv
      have hq2 : (q - 1) + 1 = q := by omega
      rw [hq2] at ha hv
      rw [ha] at hqa
      rw [hb] at hqb
      rw [hv] at hqv
      have hqb3 : keys.get? ((q - 1) + 1) = some b := by rw [hq2]; exact hqb
      exact (coversNull_iff _ _ pt).mpr ⟨q - 1, a, b, hqa, hqb3, hqv, hle, hlt⟩

theorem splitOp_sorted (keys : List Int) (i : Nat) (nk ki : Int)
    (hin : i + 1 ≤ keys.length)
    (hki : keys.get? i = some ki) (hlow : ki < nk)
    (hup : jsLeO (keys.get? (i + 1)) nk = false)
    (hs : List.Chain' (· < ·) keys) :
    List.Chain' (· < ·) (listInsertAt (i + 1) nk keys) := by
  apply chainLt_of_get?
  intro q a b hqa hqb
  rcases Nat.lt_trichotomy q i with hq | hq | hq
  · rw [listInsertAt_get?_lt _ _ _ _ (by omega) hin] at hqa
    rw [listInsertAt_get?_lt _ _ _ _ (by omega) hin] at hqb
    exact chainLt_get?_lt hs hqa hqb (by omega)
  · subst hq
    rw [listInsertAt_get?_lt _ _ _ _ (by omega) hin, hki] at hqa
    rw [listInsertAt_get?_self _ _ _ hin] at hqb
    cases hqa; cases hqb
    exact hlow
  · rcases Nat.eq_or_lt_of_le hq with hq1 | hq1
    · subst hq1
      rw [listInsertAt_get?_self _ _ _ hin] at hqa
      have hqb2 : (listInsertAt (i + 1) nk keys).get? (i + 1 + 1) = keys.get? (i + 1) :=
        listInsertAt_get?_ge _ _ _ _ (by omega) hin
      rw [hqb2] at hqb
      cases hqa
      exact (jsLeO_eq_false_iff _ _).mp hup b hqb
    · have ha : (listInsertAt (i + 1) nk keys).get? ((q - 1) + 1) = keys.get? (q - 1) :=
        listInsertAt_get?_ge _ _ _ _ (by omega) hin
      have hb : (listInsertAt (i + 1) nk keys).get? (q + 1) = keys.get? q :=
        listInsertAt_get?_ge _ _ _ _ (by omega) hin
      have hq2 : (q - 1) + 1 = q := by omega
      rw [hq2] at ha
      rw [ha] at hqa
      rw [hb] at hqb
      exact chainLt_get?_lt hs hqa hqb (by omega)


theorem childMergableV_true_cases (f b : Option LeafSlot)
    (h : (childMergableV f b).1 = true) :
    (f = none ∧ b = none) ∨ (∃ fv bv, f = some fv ∧ b = some bv) := by
  match f, b with
  | none, none => exact Or.inl ⟨rfl, rfl⟩
  | none, some v => exact absurd h (by simp [childMergableV])
  | some fv, none =>
    exfalso
    match fv with
    | LeafSlot.empty => simp [childMergableV] at h
    | LeafSlot.unloaded => simp [childMergableV] at h
    | LeafSlot.bin d => simp [childMergableV] at h
  | some fv, some bv => exact Or.inr ⟨fv, bv, rfl, rfl⟩

theorem coversNull_erase (keys : List Int) (vals : List LeafSlot) (i : Nat)
    (hpos : 0 < i) (hfront : vals.get? (i - 1) ≠ some LeafSlot.unloaded) (pt : Int)
    (h : coversNull (keys.eraseIdx i) (vals.eraseIdx i) pt = true) :
    coversNull keys vals pt = true := by
  obtain ⟨q, a, b, hqa, hqb, hqv, hle, hlt⟩ := (coversNull_iff _ _ pt).mp h
  rcases Nat.lt_trichotomy q (i - 1) with hq | hq | hq
  · rw [erase_get?_lt _ _ _ (by omega)] at hqa
    rw [erase_get?_lt _ _ _ (by omega)] at hqb
    rw [erase_get?_lt _ _ _ (by omega)] at hqv
    exact (coversNull_iff _ _ pt).mpr ⟨q, a, b, hqa, hqb, hqv, hle, hlt⟩
  · exfalso
    apply hfront
    rw [erase_get?_lt _ _ _ (by omega)] at hqv
    rw [← hq]
    exact hqv
  · rw [erase_get?_ge _ _ _ (by omega)] at hqa
    rw [erase_get?_ge _ _ _ (by omega)] at hqb
    rw [erase_get?_ge _ _ _ (by omega)] at hqv
    exact (coversNull_iff _ _ pt).mpr ⟨q + 1, a, b, hqa, hqb, hqv, hle, hlt⟩

theorem mergeVals1_null_pres (vals : List LeafSlot) (j : Nat) :
    ∀ q, (mergeVals1 vals j).get? q = some LeafSlot.unloaded →
      vals.get? q = some LeafSlot.unloaded := by
  intro q hq
  unfold mergeVals1 at hq
  rcases hcm : (childMergableV (vals.get? j) (vals.get? (j + 1))).2 with _ | b
  · rw [hcm] at hq
    exact hq
  · rw [hcm] at hq
    by_cases hqj : q = j + 1
    · subst hqj
      rcases hx : vals.get? (j + 1) with _ | x
      · rw [List.get?_set_eq, hx] at hq
        exact absurd hq (by simp)
      · rw [List.get?_set_eq, hx] at hq
        simp only [Option.map_some] at hq
        have hb : b = LeafSlot.unloaded := by
          cases hq
          rfl
        rw [hb] at hcm
        rw [← hx]
        exact childMergableV_null_pres _ _ hcm
    · rw [List.get?_set_ne _ _ (fun hh => hqj hh.symm)] at hq
      exact hq

theorem mergeVals1_length (vals : List LeafSlot) (j : Nat) :
    (mergeVals1 vals j).length = vals.length := by
  unfold mergeVals1
  rcases (childMergableV (vals.get? j) (vals.get? (j + 1))).2 with _ | b
  · rfl
  · exact List.length_set vals (j + 1) b

theorem mergeVals1_get?_front (vals : List LeafSlot) (j : Nat) :
    (mergeVals1 vals j).get? j = vals.get? j := by
  unfold mergeVals1
  rcases (childMergableV (vals.get? j) (vals.get? (j + 1))).2 with _ | b
  · rfl
  · exact List.get?_set_ne _ _ (by omega)

theorem mergeStage_props (keys : List Int) (vals : List LeafSlot) (j : Nat)
    (hkl : keys.length = vals.length + 1) :
    (mergeStage keys vals j).1.length = (mergeStage keys vals j).2.1.length + 1 ∧
    (List.Chain' (· < ·) keys → List.Chain' (· < ·) (mergeStage keys vals j).1) ∧
    (∀ pt, coversNull (mergeStage keys vals j).1 (mergeStage keys vals j).2.1 pt
      = true → coversNull keys vals pt = true) ∧
    (mergeStage keys vals j).1.get? 0 = keys.get? 0 ∧
    ∀ L, keys.get? (keys.length - 1) = some L →
      (mergeStage keys vals j).1.get? ((mergeStage keys vals j).1.length - 1)
        = some L := by
  by_cases hcm : (childMergableV (vals.get? j) (vals.get? (j + 1))).1 = true
  · have heq : mergeStage keys vals j =
        (keys.eraseIdx (j + 1), (mergeVals1 vals j).eraseIdx (j + 1), true) := by
      unfold mergeStage
      rw [if_pos hcm]
    rcases childMergableV_true_cases _ _ hcm with ⟨hf, hb⟩ | ⟨fv, bv, hf, hb⟩
    · have hjv : vals.length ≤ j := by
        by_contra hc
        rw [List.get?_eq_get (by omega)] at hf
        exact absurd hf (by simp)
      have hmv : mergeVals1 vals j = vals := by
        unfold mergeVals1
        have hsc : (childMergableV (vals.get? j) (vals.get? (j + 1))).2 = none := by
          rw [hf, hb]
          rfl
        rw [hsc]
      have hek : keys.eraseIdx (j + 1) = keys :=
        List.eraseIdx_of_length_le (by omega)
      have hev : (mergeVals1 vals j).eraseIdx (j + 1) = mergeVals1 vals j :=
        List.eraseIdx_of_length_le (by rw [mergeVals1_length]; omega)
      rw [heq, hek, hev, hmv]
      exact ⟨hkl, fun h => h, fun pt h => h, rfl, fun L hL => hL⟩
    · have hjb : j + 1 < vals.length := by
        by_contra hc
        rw [List.get?_eq_none.mpr (by omega)] at hb
        exact absurd hb (by simp)
      have hkx : j + 1 < keys.length := by omega
      have hkx2 : j + 1 ≤ keys.length - 2 := by omega
      rw [heq]
      refine ⟨?_, ?_, ?_, ?_, ?_⟩
      · simp only [List.length_eraseIdx, hkx, if_pos,
          mergeVals1_length, hjb]
        omega
      · intro hs
        exact List.Chain'.sublist hs (List.eraseIdx_sublist _ _)
      · intro pt h
        have h2 : coversNull keys (mergeVals1 vals j) pt = true := by
          refine coversNull_erase keys (mergeVals1 vals j) (j + 1) (by omega) ?_ pt h
          show (mergeVals1 vals j).get? j ≠ some LeafSlot.unloaded
          rw [mergeVals1_get?_front, hf]
          intro hc
          exact childMergableV_front_not_null _ _ hcm (by rw [hf, ← hc])
        exact coversNull_mono keys vals (mergeVals1 vals j) pt
          (mergeVals1_null_pres vals j) h2
      · exact erase_get?_lt _ _ _ (by omega)
      · intro L hL
        rw [List.length_eraseIdx_of_lt hkx]
        have h1 : keys.length - 1 - 1 = keys.length - 2 := by omega
        rw [h1, erase_get?_ge _ _ _ hkx2]
        have h2 : keys.length - 2 + 1 = keys.length - 1 := by omega
        rw [h2]
        exact hL
  · have heq : mergeStage keys vals j = (keys, mergeVals1 vals j, false) := by
      unfold mergeStage
      rw [if_neg hcm]
    rw [heq]
    refine ⟨by rw [mergeVals1_length]; exact hkl, fun h => h, ?_, rfl, fun L hL => hL⟩
    intro pt h
    exact coversNull_mono keys vals (mergeVals1 vals j) pt
      (mergeVals1_null_pres vals j) h

theorem mergeNextStage_props (s1 : List Int × List LeafSlot × Bool) (index : Nat)
    (hkl : s1.1.length = s1.2.1.length + 1) :
    (mergeNextStage s1 index).1.length = (mergeNextStage s1 index).2.1.length + 1 ∧
    (List.Chain' (· < ·) s1.1 → List.Chain' (· < ·) (mergeNextStage s1 index).1) ∧
    (∀ pt, coversNull (mergeNextStage s1 index).1 (mergeNextStage s1 index).2.1 pt
      = true → coversNull s1.1 s1.2.1 pt = true) ∧
    (mergeNextStage s1 index).1.get? 0 = s1.1.get? 0 ∧
    ∀ L, s1.1.get? (s1.1.length - 1) = some L →
      (mergeNextStage s1 index).1.get? ((mergeNextStage s1 index).1.length - 1)
        = some L := by
  unfold mergeNextStage
  by_cases hg : index < s1.2.1.length - 1
  · rw [if_pos hg]
    obtain ⟨p1, p2, p3, p4, p5⟩ := mergeStage_props s1.1 s1.2.1 index hkl
    exact ⟨p1, p2, p3, p4, p5⟩
  · rw [if_neg hg]
    exact ⟨hkl, fun h => h, fun pt h => h, rfl, fun L hL => hL⟩

theorem mergeChildF_props (keys : List Int) (vals : List LeafSlot) (index : Nat)
    (mergeNext : Bool) (hkl : keys.length = vals.length + 1) :
    (mergeChildF keys vals index mergeNext).1.length =
      (mergeChildF keys vals index mergeNext).2.1.length + 1 ∧
    (List.Chain' (· < ·) keys →
      List.Chain' (· < ·) (mergeChildF keys vals index mergeNext).1) ∧
    (∀ pt, coversNull (mergeChildF keys vals index mergeNext).1
        (mergeChildF keys vals index mergeNext).2.1 pt = true →
      coversNull keys vals pt = true) ∧
    (mergeChildF keys vals index mergeNext).1.get? 0 = keys.get? 0 ∧
    ∀ L, keys.get? (keys.length - 1) = some L →
      (mergeChildF keys vals index mergeNext).1.get?
        ((mergeChildF keys vals index mergeNext).1.length - 1) = some L := by
  have hstep : ∀ s1 : List Int × List LeafSlot × Bool,
      s1 = (if 0 < index then mergeStage keys vals (index - 1)
        else (keys, vals, false)) →
      s1.1.length = s1.2.1.length + 1 ∧
      (List.Chain' (· < ·) keys → List.Chain' (· < ·) s1.1) ∧
      (∀ pt, coversNull s1.1 s1.2.1 pt = true → coversNull keys vals pt = true) ∧
      s1.1.get? 0 = keys.get? 0 ∧
      ∀ L, keys.get? (keys.length - 1) = some L →
        s1.1.get? (s1.1.length - 1) = some L := by
    intro s1 hs1
    by_cases hpos : 0 < index
    · rw [if_pos hpos] at hs1
      rw [hs1]
      exact mergeStage_props keys vals (index - 1) hkl
    · rw [if_neg hpos] at hs1
      rw [hs1]
      exact ⟨hkl, fun h => h, fun pt h => h, rfl, fun L hL => hL⟩
  obtain ⟨q1, q2, q3, q4, q5⟩ := hstep _ rfl
  unfold mergeChildF
  by_cases hmn : mergeNext = true
  · rw [if_pos hmn]
    obtain ⟨r1, r2, r3, r4, r5⟩ := mergeNextStage_props
      (if 0 < index then mergeStage keys vals (index - 1) else (keys, vals, false))
      index q1
    refine ⟨r1, fun h => r2 (q2 h), fun pt h => q3 pt (r3 pt h), ?_, ?_⟩
    · rw [r4]; exact q4
    · intro L hL
      exact r5 L (q5 L hL)
  · rw [if_neg hmn]
    exact ⟨q1, q2, q3, q4, q5⟩

theorem splitChild_some_empty_eq (lo : Bool) (keys : List Int) (vals : List LeafSlot)
    (i : Nat) (nk : Int) :
    GiveNonLeafNode._splitChild lo keys vals i nk (some LeafSlot.empty) none =
      Except.ok (listInsertAt (i + 1) nk keys,
        listInsertAt (i + 1) LeafSlot.empty vals) := by
  simp [GiveNonLeafNode._splitChild]

theorem splitChild_null_slot_eq (lo : Bool) (keys : List Int) (vals : List LeafSlot)
    (i : Nat) (nk : Int) (h : vals.getD i LeafSlot.unloaded = LeafSlot.unloaded) :
    GiveNonLeafNode._splitChild lo keys vals i nk none none =
      Except.ok (listInsertAt (i + 1) nk keys,
        listInsertAt (i + 1) LeafSlot.unloaded vals) := by
  have h2 : vals[i]?.getD LeafSlot.unloaded = LeafSlot.unloaded := by
    rw [← List.getD_eq_getElem?_getD]
    exact h
  simp [GiveNonLeafNode._splitChild, h2]

theorem skipNoCnF_stay (keys : List Int) (v : Int) (fuel i : Nat)
    (h : jsLeO (keys.get? (i + 1)) v = false) :
    skipNoCnF keys v (fuel + 1) i = i := by
  unfold skipNoCnF
  rw [h]
  rfl

theorem skipNoCnF_stopped (keys : List Int) (v : Int) :
    ∀ fuel i0, keys.length < i0 + fuel →
      jsLeO (keys.get? (skipNoCnF keys v fuel i0 + 1)) v = false := by
  intro fuel
  induction fuel with
  | zero =>
    intro i0 hf
    unfold skipNoCnF
    rw [List.get?_eq_none.mpr (by omega)]
    rfl
  | succ fuel ih =>
    intro i0 hf
    unfold skipNoCnF
    rcases hc : jsLeO (keys.get? (i0 + 1)) v with _ | _
    · rw [if_neg (by simp)]
      exact hc
    · rw [if_pos rfl]
      exact ih (i0 + 1) (by omega)

theorem skipNoCnF_reaches (keys : List Int) (v : Int) (j : Nat)
    (hpass : ∀ i, i < j → jsLeO (keys.get? (i + 1)) v = true)
    (hstop : jsLeO (keys.get? (j + 1)) v = false) :
    ∀ fuel i0, i0 ≤ j → j < i0 + fuel → skipNoCnF keys v fuel i0 = j := by
  intro fuel
  induction fuel with
  | zero => intro i0 h1 h2; omega
  | succ fuel ih =>
    intro i0 h1 h2
    rcases Nat.eq_or_lt_of_le h1 with he | hlt
    · subst he
      exact skipNoCnF_stay _ _ _ _ hstop
    · unfold skipNoCnF
      rw [if_pos (by rw [hpass i0 hlt])]
      exact ih (i0 + 1) hlt (by omega)

theorem insertAt_last_pres (keys : List Int) (i : Nat) (nk L : Int)
    (hin2 : i + 1 ≤ keys.length - 1)
    (hL : keys.get? (keys.length - 1) = some L) :
    (listInsertAt (i + 1) nk keys).get?
      ((listInsertAt (i + 1) nk keys).length - 1) = some L := by
  have hpos : 0 < keys.length := by
    have := (List.get?_eq_some.mp hL).1
    omega
  rw [listInsertAt_length _ _ _ (by omega)]
  have h1 : keys.length + 1 - 1 = (keys.length - 1) + 1 := by omega
  rw [h1, listInsertAt_get?_ge _ _ _ _ (by omega) (by omega)]
  exact hL

theorem addLeafStep_props (localOnly : Bool) (keys : List Int) (vals : List LeafSlot)
    (rStart : Int) (idx : Nat) (L : Int)
    (hs : List.Chain' (· < ·) keys) (hkl : keys.length = vals.length + 1)
    (hlast : keys.get? (keys.length - 1) = some L) (hrL : rStart < L) :
    ∃ K1 V1 I2, addLeafStep localOnly keys vals rStart idx =
        Except.ok (K1, V1, I2) ∧
      List.Chain' (· < ·) K1 ∧
      K1.length = V1.length + 1 ∧
      K1.get? 0 = keys.get? 0 ∧
      K1.get? (K1.length - 1) = some L ∧
      ∀ pt, coversNull K1 V1 pt = true → coversNull keys vals pt = true := by
  have hup : jsLeO (keys.get? (skipNoCnF keys rStart (keys.length + 1) idx + 1))
      rStart = false :=
    skipNoCnF_stopped keys rStart (keys.length + 1) idx (by omega)
  by_cases hsp : jsLtO (keys.get? (skipNoCnF keys rStart (keys.length + 1) idx))
      rStart = true
  · obtain ⟨ki, hki, hkilt⟩ := (jsLtO_eq_true_iff _ _).mp hsp
    have hlen : skipNoCnF keys rStart (keys.length + 1) idx < keys.length := by
      have := List.get?_eq_some.mp hki
      exact this.1
    have hi1r : skipNoCnF keys rStart (keys.length + 1) idx < keys.length - 1 := by
      by_contra hc
      have he : skipNoCnF keys rStart (keys.length + 1) idx = keys.length - 1 := by
        omega
      rw [he, hlast] at hki
      cases hki
      omega
    refine ⟨listInsertAt (skipNoCnF keys rStart (keys.length + 1) idx + 1) rStart keys,
      listInsertAt (skipNoCnF keys rStart (keys.length + 1) idx + 1) LeafSlot.empty
        vals,
      skipNoCnF keys rStart (keys.length + 1) idx + 1, ?_, ?_, ?_, ?_, ?_, ?_⟩
    · unfold addLeafStep
      rw [if_pos hsp, splitChild_some_empty_eq]
    · exact splitOp_sorted keys _ rStart ki (by omega) hki hkilt hup hs
    · rw [listInsertAt_length _ _ _ (by omega), listInsertAt_length _ _ _ (by omega)]
      omega
    · exact listInsertAt_get?_lt _ _ _ _ (by omega) (by omega)
    · exact insertAt_last_pres keys _ rStart L (by omega) hlast
    · intro pt h
      exact splitOp_coversNull keys vals _ rStart ki LeafSlot.empty pt hkl (by omega)
        hki hkilt hup (Or.inl rfl) h
  · refine ⟨keys, vals, skipNoCnF keys rStart (keys.length + 1) idx, ?_, hs, hkl,
      rfl, hlast, fun pt h => h⟩
    unfold addLeafStep
    rw [if_neg hsp]

theorem addLeafFill_shape (data : List ChromRegion) (chrC : String)
    (keys1 : List Int) (vals1 : List LeafSlot) (i2 : Nat) (p : InsProps) :
    ∃ w pnew, addLeafFill data chrC keys1 vals1 i2 p = (vals1.set i2 w, pnew) ∧
      w ≠ LeafSlot.unloaded := by
  unfold addLeafFill
  by_cases hf : (decide (0 < p.continuedList.length) ||
      (decide (p.dataIndex < data.length) &&
        jsLeRO (data.getD p.dataIndex DataNode.crDefault).start (keys1.get? i2)))
      = true
  · rw [if_pos hf]
    refine ⟨_, _, rfl, ?_⟩
    by_cases he : (DataNode.insertGo { start := keys1.getD i2 0 } data chrC
        p).1.isEmpty = true
    · rw [if_pos he]
      simp
    · rw [if_neg he]
      simp
  · rw [if_neg hf]
    exact ⟨_, _, rfl, by simp⟩

theorem addLeafLoopF_inv (localOnly : Bool) (data : List ChromRegion) (rEnd : Int)
    (chrC : String) (Q : Int → Prop) (L : Int) (hrEL : rEnd ≤ L) :
    ∀ fuel (keys : List Int) (vals : List LeafSlot) (rStart : Int) (idx : Nat)
      (p : InsProps),
      List.Chain' (· < ·) keys →
      keys.length = vals.length + 1 →
      keys.get? (keys.length - 1) = some L →
      (∀ pt, coversNull keys vals pt = true → Q pt) →
      ∃ keys2 vals2 rF iF pF,
        addLeafLoopF localOnly data rEnd chrC fuel keys vals rStart idx p =
          Except.ok (keys2, vals2, rF, iF, pF) ∧
        List.Chain' (· < ·) keys2 ∧
        keys2.length = vals2.length + 1 ∧
        keys2.get? 0 = keys.get? 0 ∧
        keys2.get? (keys2.length - 1) = some L ∧
        ∀ pt, coversNull keys2 vals2 pt = true → Q pt := by
  intro fuel
  induction fuel with
  | zero =>
    intro keys vals rStart idx p hs hkl hlast hQ
    exact ⟨keys, vals, rStart, idx, p, rfl, hs, hkl, rfl, hlast, hQ⟩
  | succ fuel ih =>
    intro keys vals rStart idx p hs hkl hlast hQ
    by_cases hrr : rStart < rEnd
    · obtain ⟨K1, V1, I2, hstep, hs1, hkl1, hhd1, hlast1, hcov1⟩ :=
        addLeafStep_props localOnly keys vals rStart idx L hs hkl hlast
          (by omega)
      obtain ⟨w, pnew, hfil, hwne⟩ := addLeafFill_shape data chrC K1 V1 I2 p
      have hklset : K1.length = (V1.set I2 w).length + 1 := by
        rw [List.length_set]
        exact hkl1
      obtain ⟨m1, m2, m3, m4, m5⟩ := mergeChildF_props K1 (V1.set I2 w) I2 false
        hklset
      obtain ⟨keys2, vals2, rF, iF, pF, heq, hs2, hkl2, hhd2, hlast2, hQ2⟩ :=
        ih (mergeChildF K1 (V1.set I2 w) I2 false).1
          (mergeChildF K1 (V1.set I2 w) I2 false).2.1
          (nextRStart data rEnd pnew)
          (if (mergeChildF K1 (V1.set I2 w) I2 false).2.2 then I2 - 1 else I2)
          pnew (m2 hs1) m1 (m5 L hlast1)
          (fun pt h => hQ pt (hcov1 pt (coversNull_set K1 V1 I2 w pt
            hwne (m3 pt h))))
      refine ⟨keys2, vals2, rF, iF, pF, ?_, hs2, hkl2, ?_, hlast2, hQ2⟩
      · unfold addLeafLoopF
        rw [if_pos (by exact decide_eq_true hrr), hstep]
        show addLeafLoopF localOnly data rEnd chrC fuel
            (mergeChildF K1 (addLeafFill data chrC K1 V1 I2 p).1 I2 false).1
            (mergeChildF K1 (addLeafFill data chrC K1 V1 I2 p).1 I2 false).2.1
            (nextRStart data rEnd (addLeafFill data chrC K1 V1 I2 p).2)
            (if (mergeChildF K1 (addLeafFill data chrC K1 V1 I2 p).1 I2
                false).2.2 then I2 - 1 else I2)
            (addLeafFill data chrC K1 V1 I2 p).2 =
          Except.ok (keys2, vals2, rF, iF, pF)
        rw [hfil]
        exact heq
      · rw [hhd2, m4]
        exact hhd1
    · refine ⟨keys, vals, rStart, idx, p, ?_, hs, hkl, rfl, hlast, hQ⟩
      unfold addLeafLoopF
      rw [if_neg (by simp [hrr])]

theorem addLeafRecordsF_props (localOnly : Bool) (keys : List Int)
    (vals : List LeafSlot) (data : List ChromRegion) (r : ChromRegion)
    (p0 : InsProps) (j : Nat) (ka kb L : Int)
    (hs : List.Chain' (· < ·) keys)
    (hkl : keys.length = vals.length + 1)
    (hja : keys.get? j = some ka)
    (hjb : keys.get? (j + 1) = some kb)
    (hjv : vals.get? j = some LeafSlot.unloaded)
    (hkaA : ka ≤ r.start)
    (hAB : r.start < r.stop)
    (hBkb : r.stop ≤ kb)
    (hlast : keys.get? (keys.length - 1) = some L) :
    ∃ keysF valsF dataF pF rFin,
      addLeafRecordsF localOnly keys vals data r p0 =
        Except.ok (keysF, valsF, dataF, pF, rFin) ∧
      List.Chain' (· < ·) keysF ∧
      keysF.length = valsF.length + 1 ∧
      keysF.get? 0 = keys.get? 0 ∧
      keysF.get? (keysF.length - 1) = some L ∧
      ∀ pt, coversNull keysF valsF pt = true →
        coversNull keys vals pt = true ∧ ¬(r.start ≤ pt ∧ pt < r.stop) := by
  have hjlt : j + 1 < keys.length := (List.get?_eq_some.mp hjb).1
  have hjvl : j < vals.length := (List.get?_eq_some.mp hjv).1
  have hkbL : kb ≤ L := chainLt_get?_le hs hjb hlast (by omega)
  have hgetd : vals.getD j LeafSlot.unloaded = LeafSlot.unloaded := by
    rw [List.getD_eq_getElem?_getD, ← List.get?_eq_getElem?, hjv]
    rfl
  have hstop : jsLeO (keys.get? (j + 1)) r.start = false := by
    rw [hjb]
    exact decide_eq_false (by omega)
  have hI : skipNoCnF keys r.start (keys.length + 1) 0 = j := by
    apply skipNoCnF_reaches keys r.start j ?_ hstop (keys.length + 1) 0
      (Nat.zero_le _) (by omega)
    intro i hij
    obtain ⟨ki1, hki1⟩ : ∃ x, keys.get? (i + 1) = some x :=
      ⟨keys.get ⟨i + 1, by omega⟩, List.get?_eq_get (by omega)⟩
    rw [hki1]
    exact decide_eq_true (le_trans (chainLt_get?_le hs hki1 hja (by omega)) hkaA)
  obtain ⟨K1, V1, I2, hpre1eq, hs1, hkl1, hhd1, hlast1, hcov1, ha1, hb1, hv1⟩ :
      ∃ K1 V1 I2, addLeafPre1 localOnly keys vals r.start =
          Except.ok (K1, V1, I2) ∧
        List.Chain' (· < ·) K1 ∧
        K1.length = V1.length + 1 ∧
        K1.get? 0 = keys.get? 0 ∧
        K1.get? (K1.length - 1) = some L ∧
        (∀ pt, coversNull K1 V1 pt = true → coversNull keys vals pt = true) ∧
        K1.get? I2 = some r.start ∧
        K1.get? (I2 + 1) = some kb ∧
        V1.get? I2 = some LeafSlot.unloaded := by
    by_cases hkalt : ka < r.start
    · refine ⟨listInsertAt (j + 1) r.start keys,
        listInsertAt (j + 1) LeafSlot.unloaded vals, j + 1, ?_, ?_, ?_, ?_, ?_, ?_,
        ?_, ?_, ?_⟩
      · unfold addLeafPre1
        rw [hI, if_pos (by rw [hja]; exact decide_eq_true hkalt),
          splitChild_null_slot_eq localOnly keys vals j r.start hgetd]
      · exact splitOp_sorted keys j r.start ka (by omega) hja hkalt hstop hs
      · rw [listInsertAt_length _ _ _ (by omega),
          listInsertAt_length _ _ _ (by omega)]
        omega
      · exact listInsertAt_get?_lt _ _ _ _ (by omega) (by omega)
      · exact insertAt_last_pres keys j r.start L (by omega) hlast
      · intro pt h
        exact splitOp_coversNull keys vals j r.start ka LeafSlot.unloaded pt hkl
          (by omega) hja hkalt hstop (Or.inr hgetd.symm) h
      · exact listInsertAt_get?_self _ _ _ (by omega)
      · rw [listInsertAt_get?_ge _ _ _ _ (by omega) (by omega)]
        exact hjb
      · exact listInsertAt_get?_self _ _ _ (by omega)
    · have hkaeq : ka = r.start := by omega
      refine ⟨keys, vals, j, ?_, hs, hkl, rfl, hlast, fun pt h => h, ?_, hjb, hjv⟩
      · unfold addLeafPre1
        rw [hI, if_neg (by rw [hja]; simp [jsLtO]; omega)]
      · rw [hja, hkaeq]
  have hgetd1 : V1.getD I2 LeafSlot.unloaded = LeafSlot.unloaded := by
    rw [List.getD_eq_getElem?_getD, ← List.get?_eq_getElem?, hv1]
    rfl
  have hb1lt : I2 + 1 < K1.length := (List.get?_eq_some.mp hb1).1
  have hv1lt : I2 < V1.length := (List.get?_eq_some.mp hv1).1
  obtain ⟨K2, V2, hpre2eq, hs2, hkl2, hhd2, hlast2, hcov2, ha2, hb2, hv2⟩ :
      ∃ K2 V2, addLeafPre2 localOnly K1 V1 r.stop I2 = Except.ok (K2, V2) ∧
        List.Chain' (· < ·) K2 ∧
        K2.length = V2.length + 1 ∧
        K2.get? 0 = K1.get? 0 ∧
        K2.get? (K2.length - 1) = some L ∧
        (∀ pt, coversNull K2 V2 pt = true → coversNull K1 V1 pt = true) ∧
        K2.get? I2 = some r.start ∧
        K2.get? (I2 + 1) = some r.stop ∧
        V2.get? I2 = some LeafSlot.unloaded := by
    by_cases hkbgt : r.stop < kb
    · have hup2 : jsLeO (K1.get? (I2 + 1)) r.stop = false := by
        rw [hb1]
        exact decide_eq_false (by omega)
      refine ⟨listInsertAt (I2 + 1) r.stop K1,
        listInsertAt (I2 + 1) LeafSlot.unloaded V1, ?_, ?_, ?_, ?_, ?_, ?_, ?_, ?_,
        ?_⟩
      · unfold addLeafPre2
        rw [if_pos (by rw [hb1]; exact decide_eq_true hkbgt),
          splitChild_null_slot_eq localOnly K1 V1 I2 r.stop hgetd1]
      · exact splitOp_sorted K1 I2 r.stop r.start (by omega) ha1 hAB hup2 hs1
      · rw [listInsertAt_length _ _ _ (by omega),
          listInsertAt_length _ _ _ (by omega)]
        omega
      · exact listInsertAt_get?_lt _ _ _ _ (by omega) (by omega)
      · exact insertAt_last_pres K1 I2 r.stop L (by omega) hlast1
      · intro pt h
        exact splitOp_coversNull K1 V1 I2 r.stop r.start LeafSlot.unloaded pt hkl1
          (by omega) ha1 hAB hup2 (Or.inr hgetd1.symm) h
      · rw [listInsertAt_get?_lt _ _ _ _ (by omega) (by omega)]
        exact ha1
      · exact listInsertAt_get?_self _ _ _ (by omega)
      · rw [listInsertAt_get?_lt _ _ _ _ (by omega) (by omega)]
        exact hv1
    · have hkbeq : kb = r.stop := by omega
      refine ⟨K1, V1, ?_, hs1, hkl1, rfl, hlast1, fun pt h => h, ha1, ?_, hv1⟩
      · unfold addLeafPre2
        rw [if_neg (by rw [hb1]; simp [jsGtO]; omega)]
      · rw [hb1, hkbeq]
  have hv2lt : I2 < V2.length := (List.get?_eq_some.mp hv2).1
  have hstay : skipNoCnF K2 r.start (K2.length + 1) I2 = I2 := by
    apply skipNoCnF_stay
    rw [hb2]
    exact decide_eq_false (by omega)
  have hstep1eq : addLeafStep localOnly K2 V2 r.start I2 =
      Except.ok (K2, V2, I2) := by
    unfold addLeafStep
    rw [hstay, if_neg (by rw [ha2]; simp [jsLtO])]
  obtain ⟨w, pnew, hfil, hwne⟩ :=
    addLeafFill_shape data r.chr K2 V2 I2 { p0 with dataIndex := 0 }
  have hklset : K2.length = (V2.set I2 w).length + 1 := by
    rw [List.length_set]
    exact hkl2
  obtain ⟨m1, m2, m3, m4, m5⟩ := mergeChildF_props K2 (V2.set I2 w) I2 false hklset
  have hQm : ∀ pt,
      coversNull (mergeChildF K2 (V2.set I2 w) I2 false).1
        (mergeChildF K2 (V2.set I2 w) I2 false).2.1 pt = true →
      coversNull keys vals pt = true ∧ ¬(r.start ≤ pt ∧ pt < r.stop) := by
    intro pt h
    have hset := m3 pt h
    constructor
    · exact hcov1 pt (hcov2 pt (coversNull_set K2 V2 I2 w pt hwne hset))
    · rintro ⟨hp1, hp2⟩
      obtain ⟨q, a, b, hqa, hqb, hqv, hle, hlt⟩ := (coversNull_iff _ _ pt).mp hset
      have hqi : q = I2 := cells_disjoint hs2 hqa hqb ha2 hb2 hle hlt hp1 hp2
      subst hqi
      rw [List.get?_set_eq, hv2] at hqv
      simp only [Option.map_some] at hqv
      cases hqv
      exact hwne rfl
  obtain ⟨keys3, vals3, rF, iF, pF, hloopeq, hs3, hkl3, hhd3, hlast3, hQ3⟩ :=
    addLeafLoopF_inv localOnly data r.stop r.chr
      (fun pt => coversNull keys vals pt = true ∧ ¬(r.start ≤ pt ∧ pt < r.stop))
      L (by omega) (data.length + V2.length + 3)
      (mergeChildF K2 (V2.set I2 w) I2 false).1
      (mergeChildF K2 (V2.set I2 w) I2 false).2.1
      (nextRStart data r.stop pnew)
      (if (mergeChildF K2 (V2.set I2 w) I2 false).2.2 then I2 - 1 else I2)
      pnew (m2 hs2) m1 (m5 L hlast2) hQm
  have hloopfull : addLeafLoopF localOnly data r.stop r.chr
      (data.length + V2.length + 4) K2 V2 r.start I2 { p0 with dataIndex := 0 } =
      Except.ok (keys3, vals3, rF, iF, pF) := by
    have hf4 : data.length + V2.length + 4 = (data.length + V2.length + 3) + 1 := rfl
    rw [hf4]
    unfold addLeafLoopF
    rw [if_pos (decide_eq_true hAB), hstep1eq]
    show addLeafLoopF localOnly data r.stop r.chr (data.length + V2.length + 3)
        (mergeChildF K2
          (addLeafFill data r.chr K2 V2 I2 { p0 with dataIndex := 0 }).1 I2
          false).1
        (mergeChildF K2
          (addLeafFill data r.chr K2 V2 I2 { p0 with dataIndex := 0 }).1 I2
          false).2.1
        (nextRStart data r.stop
          (addLeafFill data r.chr K2 V2 I2 { p0 with dataIndex := 0 }).2)
        (if (mergeChildF K2
            (addLeafFill data r.chr K2 V2 I2 { p0 with dataIndex := 0 }).1 I2
            false).2.2 then I2 - 1 else I2)
        (addLeafFill data r.chr K2 V2 I2 { p0 with dataIndex := 0 }).2 =
      Except.ok (keys3, vals3, rF, iF, pF)
    rw [hfil]
    exact hloopeq
  have hmain : addLeafRecordsF localOnly keys vals data r p0 =
      Except.ok (addLeafTail data r (keys3, vals3, rF, iF, pF)) := by
    unfold addLeafRecordsF
    simp only [hpre1eq, hpre2eq, hloopfull]
  obtain ⟨t1, t2, t3, t4, t5⟩ := mergeChildF_props keys3 vals3 iF true hkl3
  refine ⟨(mergeChildF keys3 vals3 iF true).1, (mergeChildF keys3 vals3 iF true).2.1,
    data.drop pF.dataIndex,
    { pF with
        continuedList := (pF.continuedList ++ data.take pF.dataIndex).filter
          (fun e => decide (e.stop > r.stop)),
        dataIndex := 0 }, rF, ?_, t2 hs3, t1, ?_, t5 L hlast3, ?_⟩
  · rw [hmain]
    rfl
  · rw [t4, hhd3, m4, hhd2, hhd1]
  · intro pt h
    exact hQ3 pt (t3 pt h)

theorem truncate_noop (nStart nStop : Int) (r : ChromRegion) (ts te dnt : Bool)
    (h1 : nStart ≤ r.start) (h2 : te = true → r.stop ≤ nStop) :
    GiveNonLeafNode.truncateChrRange nStart nStop r ts te dnt = Except.ok r := by
  have hc1 : decide (r.start < nStart) = false := decide_eq_false (by omega)
  unfold GiveNonLeafNode.truncateChrRange
  rw [hc1]
  simp only [Bool.and_false, Bool.false_eq_true, if_false]
  by_cases hte : te = true
  · have hc2 : decide (nStop < r.stop) = false := decide_eq_false (by
      have := h2 hte
      omega)
    rw [hte, hc2]
    simp
  · have hte2 : te = false := by
      cases te
      · rfl
      · exact absurd rfl hte
    rw [hte2]
    simp

theorem set_null_pres (vals : List LeafSlot) (i : Nat) (w : LeafSlot)
    (hw : w ≠ LeafSlot.unloaded) (q : Nat)
    (h : (vals.set i w).get? q = some LeafSlot.unloaded) :
    vals.get? q = some LeafSlot.unloaded := by
  by_cases hqi : q = i
  · subst hqi
    rw [List.get?_set_eq] at h
    rcases hx : vals.get? q with _ | x
    · rw [hx] at h
      exact absurd h (by simp)
    · rw [hx] at h
      simp only [Option.map_some] at h
      cases h
      exact absurd rfl hw
  · rw [List.get?_set_ne _ _ (fun hh => hqi hh.symm)] at h
    exact h

theorem postInsGoF_len (keys : List Int) (r : ChromRegion) :
    ∀ fuel idx vals ext,
      (postInsGoF keys r fuel idx vals ext).1.length = vals.length := by
  intro fuel
  induction fuel with
  | zero => intro idx vals ext; rfl
  | succ fuel ih =>
    intro idx vals ext
    unfold postInsGoF
    by_cases hg : (jsLtO (keys.get? idx) r.stop && decide (idx < vals.length)) = true
    · rw [if_pos hg]
      rcases hv : vals.get? (travSkip keys vals.length r.start (vals.length + 1) idx)
        with _ | v
      · simp only [hv]
        exact ih _ vals ext
      · cases v with
        | empty =>
          simp only [hv]
          exact ih _ vals ext
        | unloaded =>
          simp only [hv]
          exact ih _ vals ext
        | bin d =>
          simp only [hv]
          rw [ih _ _ _, List.length_set]
    · rw [if_neg hg]

theorem postInsGoF_null_pres (keys : List Int) (r : ChromRegion) :
    ∀ fuel idx vals ext q,
      (postInsGoF keys r fuel idx vals ext).1.get? q = some LeafSlot.unloaded →
      vals.get? q = some LeafSlot.unloaded := by
  intro fuel
  induction fuel with
  | zero => intro idx vals ext q h; exact h
  | succ fuel ih =>
    intro idx vals ext q h
    unfold postInsGoF at h
    by_cases hg : (jsLtO (keys.get? idx) r.stop && decide (idx < vals.length)) = true
    · rw [if_pos hg] at h
      rcases hv : vals.get? (travSkip keys vals.length r.start (vals.length + 1) idx)
        with _ | v
      · simp only [hv] at h
        exact ih _ vals ext q h
      · cases v with
        | empty =>
          simp only [hv] at h
          exact ih _ vals ext q h
        | unloaded =>
          simp only [hv] at h
          exact ih _ vals ext q h
        | bin d =>
          simp only [hv] at h
          exact set_null_pres vals _ _ (by simp) q (ih _ _ _ q h)
    · rw [if_neg hg] at h
      exact h

theorem hasUF_false_aux (keys : List Int) (vals : List LeafSlot) (r : ChromRegion)
    (hs : List.Chain' (· < ·) keys)
    (hkl : keys.length = vals.length + 1)
    (hRlt : r.start < r.stop)
    (hnull : ∀ pt, r.start ≤ pt → pt < r.stop → coversNull keys vals pt = false) :
    ∀ fuel index,
      (∀ ki1, keys.get? (index + 1) = some ki1 → r.start < ki1) →
      hasUncachedRangeFlatF keys vals r fuel index = false := by
  intro fuel
  induction fuel with
  | zero => intro index _; rfl
  | succ fuel ih =>
    intro index hP
    unfold hasUncachedRangeFlatF
    by_cases hg : (decide (index < vals.length) && jsLtO (keys.get? index) r.stop)
        = true
    · rw [if_pos hg]
      rw [Bool.and_eq_true, decide_eq_true_eq] at hg
      obtain ⟨kidx, hkidx, hklt⟩ := (jsLtO_eq_true_iff _ _).mp hg.2
      obtain ⟨ki1, hki1⟩ : ∃ x, keys.get? (index + 1) = some x :=
        ⟨keys.get ⟨index + 1, by omega⟩, List.get?_eq_get (by omega)⟩
      have hki1gt : r.start < ki1 := hP ki1 hki1
      have hPnext : ∀ ki2, keys.get? (index + 1 + 1) = some ki2 → r.start < ki2 := by
        intro ki2 hki2
        exact lt_trans hki1gt (chainLt_get?_lt hs hki1 hki2 (by omega))
      rcases hv : vals.get? index with _ | v
      · exact ih (index + 1) hPnext
      · cases v with
        | empty => exact ih (index + 1) hPnext
        | bin d => exact ih (index + 1) hPnext
        | unloaded =>
          exfalso
          have hple : r.start ≤ max kidx r.start := le_max_right _ _
          have hplt : max kidx r.start < r.stop := max_lt hklt hRlt
          have hcell : max kidx r.start < ki1 :=
            max_lt (chainLt_get?_lt hs hkidx hki1 (by omega)) hki1gt
          have hcov : coversNull keys vals (max kidx r.start) = true :=
            (coversNull_iff _ _ _).mpr ⟨index, kidx, ki1, hkidx, hki1, hv,
              le_max_left _ _, hcell⟩
          rw [hnull _ hple hplt] at hcov
          exact absurd hcov (by simp)
    · rw [if_neg hg]

theorem hasUncachedRangeFlat_false (keys : List Int) (vals : List LeafSlot)
    (r : ChromRegion)
    (hs : List.Chain' (· < ·) keys)
    (hkl : keys.length = vals.length + 1)
    (hRlt : r.start < r.stop)
    (hnull : ∀ pt, r.start ≤ pt → pt < r.stop → coversNull keys vals pt = false) :
    hasUncachedRangeFlat keys vals r = false := by
  unfold hasUncachedRangeFlat
  apply hasUF_false_aux keys vals r hs hkl hRlt hnull
  intro ki1 hki1
  have hlt : travSkip keys vals.length r.start (vals.length + 1) 0 < vals.length := by
    have := (List.get?_eq_some.mp hki1).1
    omega
  have hstop := travSkip_stopped keys vals.length r.start (vals.length + 1) 0
    (by omega)
  by_cases hle : jsLeO
      (keys.get? (travSkip keys vals.length r.start (vals.length + 1) 0 + 1))
      r.start = true
  · exact absurd ⟨hlt, hle⟩ hstop
  · have hle2 : jsLeO (some ki1) r.start = false := by
      rw [← hki1]
      exact Bool.not_eq_true _ |>.mp hle
    have := (jsLeO_eq_false_iff _ _).mp hle2 ki1 rfl
    omega

theorem getUF_unchanged_aux (keys : List Int) (vals : List LeafSlot)
    (r : ChromRegion)
    (hs : List.Chain' (· < ·) keys)
    (hkl : keys.length = vals.length + 1)
    (hRlt : r.start < r.stop)
    (hnull : ∀ pt, r.start ≤ pt → pt < r.stop → coversNull keys vals pt = false) :
    ∀ fuel index result,
      (∀ ki1, keys.get? (index + 1) = some ki1 → r.start < ki1) →
      getUncachedRangeFlatF keys vals r fuel index result = result := by
  intro fuel
  induction fuel with
  | zero => intro index result _; rfl
  | succ fuel ih =>
    intro index result hP
    unfold getUncachedRangeFlatF
    by_cases hg : (decide (index < vals.length) && jsLtO (keys.get? index) r.stop)
        = true
    · rw [if_pos hg]
      rw [Bool.and_eq_true, decide_eq_true_eq] at hg
      obtain ⟨kidx, hkidx, hklt⟩ := (jsLtO_eq_true_iff _ _).mp hg.2
      obtain ⟨ki1, hki1⟩ : ∃ x, keys.get? (index + 1) = some x :=
        ⟨keys.get ⟨index + 1, by omega⟩, List.get?_eq_get (by omega)⟩
      have hki1gt : r.start < ki1 := hP ki1 hki1
      have hPnext : ∀ ki2, keys.get? (index + 1 + 1) = some ki2 → r.start < ki2 := by
        intro ki2 hki2
        exact lt_trans hki1gt (chainLt_get?_lt hs hki1 hki2 (by omega))
      rcases hv : vals.get? index with _ | v
      · exact ih (index + 1) result hPnext
      · cases v with
        | empty => exact ih (index + 1) result hPnext
        | bin d => exact ih (index + 1) result hPnext
        | unloaded =>
          exfalso
          have hple : r.start ≤ max kidx r.start := le_max_right _ _
          have hplt : max kidx r.start < r.stop := max_lt hklt hRlt
          have hcell : max kidx r.start < ki1 :=
            max_lt (chainLt_get?_lt hs hkidx hki1 (by omega)) hki1gt
          have hcov : coversNull keys vals (max kidx r.start) = true :=
            (coversNull_iff _ _ _).mpr ⟨index, kidx, ki1, hkidx, hki1, hv,
              le_max_left _ _, hcell⟩
          rw [hnull _ hple hplt] at hcov
          exact absurd hcov (by simp)
    · rw [if_neg hg]

theorem getUncachedRangeFlat_unchanged (keys : List Int) (vals : List LeafSlot)
    (r : ChromRegion) (result0 : List ChromRegion)
    (hs : List.Chain' (· < ·) keys)
    (hkl : keys.length = vals.length + 1)
    (hRlt : r.start < r.stop)
    (hnull : ∀ pt, r.start ≤ pt → pt < r.stop → coversNull keys vals pt = false) :
    getUncachedRangeFlat keys vals r result0 = result0 := by
  unfold getUncachedRangeFlat
  apply getUF_unchanged_aux keys vals r hs hkl hRlt hnull
  intro ki1 hki1
  have hlt : travSkip keys vals.length r.start (vals.length + 1) 0 < vals.length := by
    have := (List.get?_eq_some.mp hki1).1
    omega
  have hstop := travSkip_stopped keys vals.length r.start (vals.length + 1) 0
    (by omega)
  by_cases hle : jsLeO
      (keys.get? (travSkip keys vals.length r.start (vals.length + 1) 0 + 1))
      r.start = true
  · exact absurd ⟨hlt, hle⟩ hstop
  · have hle2 : jsLeO (some ki1) r.start = false := by
      rw [← hki1]
      exact Bool.not_eq_true _ |>.mp hle
    have := (jsLeO_eq_false_iff _ _).mp hle2 ki1 rfl
    omega

theorem advanceGen_fields (t : GiveTree) :
    (GiveTree._advanceGen t).root = t.root ∧
    (GiveTree._advanceGen t).chr = t.chr ∧
    (GiveTree._advanceGen t).localOnly = t.localOnly ∧
    (GiveTree._advanceGen t).branchingFactor = t.branchingFactor := by
  unfold GiveTree._advanceGen
  rcases hg : t.currGen with _ | g
  · exact ⟨rfl, rfl, rfl, rfl⟩
  · rcases hw : t.witherActive with _ | _ <;>
      exact ⟨rfl, rfl, rfl, rfl⟩

theorem wither_fields (t : GiveTree) :
    (GiveTree._wither t).root = t.root ∧
    (GiveTree._wither t).chr = t.chr ∧
    (GiveTree._wither t).localOnly = t.localOnly ∧
    (GiveTree._wither t).branchingFactor = t.branchingFactor := by
  unfold GiveTree._wither
  rcases hg : t.currGen with _ | g
  · exact ⟨rfl, rfl, rfl, rfl⟩
  · rcases hw : t.witherActive with _ | _ <;>
      exact ⟨rfl, rfl, rfl, rfl⟩

theorem preInsOpF_tree_cases (st : PipeState) (rr : ChromRegion) :
    (preInsOpF st rr).1.tree = st.tree ∨
    (preInsOpF st rr).1.tree = (GiveTree._advanceGen st.tree)._wither := by
  simp only [preInsOpF]
  split
  · left
    rfl
  · split
    · right
      rfl
    · split
      · right
        rfl
      · right
        rfl

theorem preInsOpF_tree (st : PipeState) (rr : ChromRegion) :
    (preInsOpF st rr).1.tree.root = st.tree.root ∧
    (preInsOpF st rr).1.tree.chr = st.tree.chr ∧
    (preInsOpF st rr).1.tree.localOnly = st.tree.localOnly ∧
    (preInsOpF st rr).1.tree.branchingFactor = st.tree.branchingFactor := by
  rcases preInsOpF_tree_cases st rr with h | h
  · rw [h]
    exact ⟨rfl, rfl, rfl, rfl⟩
  · rw [h]
    obtain ⟨a1, a2, a3, a4⟩ := advanceGen_fields st.tree
    obtain ⟨b1, b2, b3, b4⟩ := wither_fields (GiveTree._advanceGen st.tree)
    exact ⟨b1.trans a1, b2.trans a2, b3.trans a3, b4.trans a4⟩

theorem postInsApply_props (keys2 : List Int) (vals2 : List LeafSlot)
    (p2 : InsProps) (rZero : ChromRegion) :
    (postInsApply keys2 vals2 p2 rZero).1.length = vals2.length ∧
    ∀ q, (postInsApply keys2 vals2 p2 rZero).1.get? q = some LeafSlot.unloaded →
      vals2.get? q = some LeafSlot.unloaded := by
  unfold postInsApply
  split
  · split
    · exact ⟨postInsGoF_len _ _ _ _ _ _, fun q h => postInsGoF_null_pres _ _ _ _ _ _ q h⟩
    · exact ⟨rfl, fun q h => h⟩
  · exact ⟨rfl, fun q h => h⟩

theorem rootInsertF_props (localOnly : Bool) (B : Nat) (root : FlatNode)
    (data : List ChromRegion) (r : ChromRegion) (p0 : InsProps)
    (j : Nat) (ka kb L : Int)
    (hs : List.Chain' (· < ·) root.keys)
    (hkl : root.keys.length = root.vals.length + 1)
    (hja : root.keys.get? j = some ka)
    (hjb : root.keys.get? (j + 1) = some kb)
    (hjv : root.vals.get? j = some LeafSlot.unloaded)
    (hkaA : ka ≤ r.start)
    (hAB : r.start < r.stop)
    (hBkb : r.stop ≤ kb)
    (hlast : root.keys.get? (root.keys.length - 1) = some L) :
    ∃ rootF dataF pF err,
      rootInsertF localOnly B root data r p0 = ((rootF, dataF, pF), err) ∧
      List.Chain' (· < ·) rootF.keys ∧
      rootF.keys.length = rootF.vals.length + 1 ∧
      rootF.keys.get? 0 = root.keys.get? 0 ∧
      rootF.keys.get? (rootF.keys.length - 1) = some L ∧
      ∀ pt, coversNull rootF.keys rootF.vals pt = true →
        coversNull root.keys root.vals pt = true ∧
          ¬(r.start ≤ pt ∧ pt < r.stop) := by
  obtain ⟨k0, hk0⟩ : ∃ x, root.keys.get? 0 = some x :=
    ⟨root.keys.get ⟨0, by
      have := (List.get?_eq_some.mp hja).1
      omega⟩, List.get?_eq_get _⟩
  have hstart : root.keys.getD 0 0 ≤ r.start := by
    rw [List.getD_eq_getElem?_getD, ← List.get?_eq_getElem?, hk0]
    exact le_trans (chainLt_get?_le hs hk0 hja (Nat.zero_le _)) hkaA
  have hkbL : kb ≤ L := chainLt_get?_le hs hjb hlast (by
    have := (List.get?_eq_some.mp hjb).1
    omega)
  have hstopB : r.stop ≤ root.keys.getD (root.keys.length - 1) 0 := by
    rw [List.getD_eq_getElem?_getD, ← List.get?_eq_getElem?, hlast]
    exact le_trans hBkb hkbL
  have htrunc : GiveNonLeafNode.truncateChrRange (root.keys.getD 0 0)
      (root.keys.getD (root.keys.length - 1) 0) r true true true =
      Except.ok r :=
    truncate_noop _ _ r true true true hstart (fun _ => hstopB)
  obtain ⟨keysF, valsF, dataF, pF, rFin, haddleaf, hsF, hklF, hhdF, hlastF, hcovF⟩ :=
    addLeafRecordsF_props localOnly root.keys root.vals data r p0 j ka kb L hs hkl
      hja hjb hjv hkaA hAB hBkb hlast
  obtain ⟨hplen, hpnull⟩ := postInsApply_props keysF valsF pF
    { r with start := rFin }
  have hklP : keysF.length =
      (postInsApply keysF valsF pF { r with start := rFin }).1.length + 1 := by
    rw [hplen]
    exact hklF
  by_cases hgrow :
      (postInsApply keysF valsF pF { r with start := rFin }).1.length > B
  · refine ⟨⟨keysF, (postInsApply keysF valsF pF { r with start := rFin }).1⟩,
      dataF, (postInsApply keysF valsF pF { r with start := rFin }).2,
      some flatModelGrowthMsg, ?_, hsF, hklP, hhdF, hlastF, ?_⟩
    · simp only [rootInsertF, htrunc, haddleaf]
      rw [if_pos hgrow]
    · intro pt h
      refine hcovF pt (coversNull_mono keysF valsF _ pt hpnull h)
  · refine ⟨⟨keysF, (postInsApply keysF valsF pF { r with start := rFin }).1⟩,
      dataF, (postInsApply keysF valsF pF { r with start := rFin }).2,
      none, ?_, hsF, hklP, hhdF, hlastF, ?_⟩
    · simp only [rootInsertF, htrunc, haddleaf]
      rw [if_neg hgrow]
    · intro pt h
      refine hcovF pt (coversNull_mono keysF valsF _ pt hpnull h)

theorem insertSingleRangeF_props (st : PipeState) (r1 : ChromRegion)
    (j : Nat) (ka kb L : Int)
    (hchr : r1.chr = st.tree.chr)
    (hs : List.Chain' (· < ·) st.tree.root.keys)
    (hkl : st.tree.root.keys.length = st.tree.root.vals.length + 1)
    (hja : st.tree.root.keys.get? j = some ka)
    (hjb : st.tree.root.keys.get? (j + 1) = some kb)
    (hjv : st.tree.root.vals.get? j = some LeafSlot.unloaded)
    (hkaA : ka ≤ r1.start)
    (hAB : r1.start < r1.stop)
    (hBkb : r1.stop ≤ kb)
    (hlast : st.tree.root.keys.get? (st.tree.root.keys.length - 1) = some L) :
    ∃ stF err, insertSingleRangeF st r1 = (stF, err) ∧
      (err = none →
        stF.tree.chr = st.tree.chr ∧
        stF.tree.localOnly = st.tree.localOnly ∧
        List.Chain' (· < ·) stF.tree.root.keys ∧
        stF.tree.root.keys.length = stF.tree.root.vals.length + 1 ∧
        stF.tree.root.keys.get? 0 = st.tree.root.keys.get? 0 ∧
        stF.tree.root.keys.get? (stF.tree.root.keys.length - 1) = some L ∧
        ∀ pt, coversNull stF.tree.root.keys stF.tree.root.vals pt = true →
          coversNull st.tree.root.keys st.tree.root.vals pt = true ∧
            ¬(r1.start ≤ pt ∧ pt < r1.stop)) := by
  have hguard : (r1.chr == "" || r1.chr == st.tree.chr) = true := by
    rw [beq_iff_eq.mpr hchr, Bool.or_true]
  obtain ⟨k0, hk0⟩ : ∃ x, st.tree.root.keys.get? 0 = some x :=
    ⟨st.tree.root.keys.get ⟨0, by
      have := (List.get?_eq_some.mp hja).1
      omega⟩, List.get?_eq_get _⟩
  have hstart : st.tree.root.keys.getD 0 0 ≤ r1.start := by
    rw [List.getD_eq_getElem?_getD, ← List.get?_eq_getElem?, hk0]
    exact le_trans (chainLt_get?_le hs hk0 hja (Nat.zero_le _)) hkaA
  have htr : GiveNonLeafNode.truncateChrRange (st.tree.root.keys.getD 0 0)
      (st.tree.root.keys.getD (st.tree.root.keys.length - 1) 0) r1 true false
      false = Except.ok r1 :=
    truncate_noop _ _ r1 true false false hstart (fun h => absurd h (by simp))
  rcases hpre : preInsOpF st r1 with ⟨st2, err1⟩
  rcases err1 with _ | e
  · have hfields := preInsOpF_tree st r1
    rw [hpre] at hfields
    obtain ⟨hf1, hf2, hf3, hf4⟩ := hfields
    obtain ⟨rootF, dataF, pF2, err2, hroot, hsF, hklF, hhdF, hlastF, hcovF⟩ :=
      rootInsertF_props st2.tree.localOnly st2.tree.branchingFactor st2.tree.root
        st2.data r1 st2.props j ka kb L (by rw [hf1]; exact hs)
        (by rw [hf1]; exact hkl) (by rw [hf1]; exact hja) (by rw [hf1]; exact hjb)
        (by rw [hf1]; exact hjv) hkaA hAB hBkb (by rw [hf1]; exact hlast)
    refine ⟨{ tree := { st2.tree with root := rootF },
              data := dataF,
              props := pF2 }, err2, ?_, ?_⟩
    · unfold insertSingleRangeF
      rw [if_pos hguard]
      simp only [htr, hpre, hroot]
    · intro _
      rw [hf1] at hhdF hcovF
      exact ⟨hf2, hf3, hsF, hklF, hhdF, hlastF, hcovF⟩
  · refine ⟨st2, some e, ?_, fun h => absurd h (by simp)⟩
    unfold insertSingleRangeF
    rw [if_pos hguard]
    simp only [htr, hpre]

theorem insertF_single_core (t : GiveTree) (data : List ChromRegion)
    (props0 : InsProps) (R r1 : ChromRegion) (res : List ChromRegion)
    (j : Nat) (ka kb L : Int)
    (hlocal : t.localOnly = false)
    (hchr1 : r1.chr = t.chr)
    (hs : List.Chain' (· < ·) t.root.keys)
    (hkl : t.root.keys.length = t.root.vals.length + 1)
    (hja : t.root.keys.get? j = some ka)
    (hjb : t.root.keys.get? (j + 1) = some kb)
    (hjv : t.root.vals.get? j = some LeafSlot.unloaded)
    (hkaA : ka ≤ r1.start) (hAB : r1.start < r1.stop) (hBkb : r1.stop ≤ kb)
    (hlast : t.root.keys.get? (t.root.keys.length - 1) = some L)
    (huncached : uncachedRangesOf t [R] = Except.ok (res, [r1]))
    (honly : ∀ pt, R.start ≤ pt → pt < R.stop →
      coversNull t.root.keys t.root.vals pt = true →
      r1.start ≤ pt ∧ pt < r1.stop)
    (hsucc : (insertF t data (some [R]) props0).2 = Except.ok ()) :
    ∃ stF, insertF t data (some [R]) props0 = (stF, Except.ok ()) ∧
      stF.tree.chr = t.chr ∧
      stF.tree.localOnly = t.localOnly ∧
      List.Chain' (· < ·) stF.tree.root.keys ∧
      stF.tree.root.keys.length = stF.tree.root.vals.length + 1 ∧
      stF.tree.root.keys.get? 0 = t.root.keys.get? 0 ∧
      stF.tree.root.keys.get? (stF.tree.root.keys.length - 1) = some L ∧
      ∀ pt, R.start ≤ pt → pt < R.stop →
        coversNull stF.tree.root.keys stF.tree.root.vals pt = false := by
  obtain ⟨stF, err, hsingle, hmore⟩ := insertSingleRangeF_props
    { tree := t, data := sortCR data, props := props0 } r1 j ka kb L hchr1 hs hkl
    hja hjb hjv hkaA hAB hBkb hlast
  have hrs' : (([R].foldl (fun acc range =>
      match acc with
      | Except.error e => Except.error e
      | Except.ok (res, _) => getUncachedRangeFacade t (some range) res)
      (Except.ok ([], []))) :
      Except String (List ChromRegion × List ChromRegion)) =
      Except.ok (res, [r1]) := huncached
  have hmain : insertF t data (some [R]) props0 =
      (if (((specProcess { tree := t, data := sortCR data, props := props0 }
            [r1]).2).map (fun x => insertErrEntry x.1 x.2.1 x.2.2)).isEmpty then
        ((specProcess { tree := t, data := sortCR data, props := props0 } [r1]).1,
          Except.ok ())
      else
        ((specProcess { tree := t, data := sortCR data, props := props0 } [r1]).1,
          Except.error
            ((((specProcess { tree := t, data := sortCR data, props := props0 }
                [r1]).2).map (fun x => insertErrEntry x.1 x.2.1 x.2.2)).foldl
                (fun prev m => prev ++ "\n" ++ m)
                "Exception occured during insertion:"))) := by
    unfold insertF
    rw [hlocal]
    simp only [Bool.false_eq_true, if_false, Option.getD_some]
    rw [hrs']
    show (if ([r1].foldl _
        (({ tree := t, data := sortCR data, props := props0 } : PipeState),
          ([] : List String))).2.isEmpty
      then _ else _) = _
    rw [processFold_eq_spec [r1]
      { tree := t, data := sortCR data, props := props0 } []]
    simp
  rcases err with _ | e
  · have hspec : specProcess { tree := t, data := sortCR data, props := props0 }
        [r1] = (stF, []) := by
      unfold specProcess
      simp only [hsingle]
      rfl
    obtain ⟨hc1, hc2, hc3, hc4, hc5, hc6, hc7⟩ := hmore rfl
    refine ⟨stF, ?_, hc1, hc2, hc3, hc4, hc5, hc6, ?_⟩
    · rw [hmain, hspec]
      rfl
    · intro pt h1 h2
      rcases hcv : coversNull stF.tree.root.keys stF.tree.root.vals pt with _ | _
      · rfl
      · exfalso
        obtain ⟨hcov0, hnotwin⟩ := hc7 pt hcv
        exact hnotwin (honly pt h1 h2 hcov0)
  · exfalso
    have hspec2 : specProcess { tree := t, data := sortCR data, props := props0 }
        [r1] = (stF, [(e, r1, stF.data)]) := by
      unfold specProcess
      simp only [hsingle]
      rfl
    rw [hmain, hspec2] at hsucc
    simp at hsucc

/-- C3: for a non-`localOnly` tree with a sorted, well-formed flat root and a
range `R` on its chromosome lying inside the covering range, whose uncached
portion is a single sub-range `r1` contained in one unloaded slot
(`honly` states that every point of `R` covered by an unloaded slot lies in
`r1`, which `getUncachedRange` guarantees there), a successful
`insert(data, R)` leaves no unloaded slot overlapping `R`:
`hasUncachedRange(R)` returns `false` afterwards — every slot in the
inserted range has become a populated leaf bin or the `false` (Empty)
filler. -/
theorem c3_insert_clears_uncached (t : GiveTree) (data : List ChromRegion)
    (props0 : InsProps) (R r1 : ChromRegion) (res : List ChromRegion)
    (j : Nat) (ka kb L : Int)
    (hlocal : t.localOnly = false)
    (hchrR : R.chr = t.chr)
    (hchr1 : r1.chr = t.chr)
    (hs : List.Chain' (· < ·) t.root.keys)
    (hkl : t.root.keys.length = t.root.vals.length + 1)
    (hja : t.root.keys.get? j = some ka)
    (hjb : t.root.keys.get? (j + 1) = some kb)
    (hjv : t.root.vals.get? j = some LeafSlot.unloaded)
    (hkaA : ka ≤ r1.start) (hAB : r1.start < r1.stop) (hBkb : r1.stop ≤ kb)
    (hlast : t.root.keys.get? (t.root.keys.length - 1) = some L)
    (h0 : t.root.keys.getD 0 0 ≤ R.start)
    (hRlt : R.start < R.stop)
    (huncached : uncachedRangesOf t [R] = Except.ok (res, [r1]))
    (honly : ∀ pt, R.start ≤ pt → pt < R.stop →
      coversNull t.root.keys t.root.vals pt = true →
      r1.start ≤ pt ∧ pt < r1.stop)
    (hsucc : (insertF t data (some [R]) props0).2 = Except.ok ()) :
    hasUncachedRangeFacade (insertF t data (some [R]) props0).1.tree (some R) =
      Except.ok false := by
  obtain ⟨stF, hout, hc1, hc2, hc3, hc4, hc5, hc6, hc7⟩ :=
    insertF_single_core t data props0 R r1 res j ka kb L hlocal hchr1 hs hkl hja
      hjb hjv hkaA hAB hBkb hlast huncached honly hsucc
  have hcm : GiveTree.chrMatches stF.tree (some R) = true := by
    simp only [GiveTree.chrMatches]
    rw [hc1, beq_iff_eq.mpr hchrR, Bool.or_true]
  have hguard2 : (!stF.tree.localOnly && GiveTree.chrMatches stF.tree (some R))
      = true := by
    rw [hc2, hlocal, hcm]
    rfl
  obtain ⟨k0, hk0⟩ : ∃ x, t.root.keys.get? 0 = some x :=
    ⟨t.root.keys.get ⟨0, by
      have := (List.get?_eq_some.mp hja).1
      omega⟩, List.get?_eq_get _⟩
  have hk0R : k0 ≤ R.start := by
    rw [List.getD_eq_getElem?_getD, ← List.get?_eq_getElem?, hk0] at h0
    exact h0
  have hstF0 : stF.tree.root.keys.getD 0 0 = k0 := by
    rw [List.getD_eq_getElem?_getD, ← List.get?_eq_getElem?, hc5, hk0]
    rfl
  have htr2 : GiveNonLeafNode.truncateChrRange (stF.tree.root.keys.getD 0 0)
      (stF.tree.root.keys.getD (stF.tree.root.keys.length - 1) 0) R true false
      false = Except.ok R :=
    truncate_noop _ _ R true false false (by rw [hstF0]; exact hk0R)
      (fun h => absurd h (by simp))
  have htree : (insertF t data (some [R]) props0).1.tree = stF.tree := by
    rw [hout]
  rw [htree]
  unfold hasUncachedRangeFacade
  rw [if_pos hguard2]
  simp only [htr2]
  rw [hasUncachedRangeFlat_false _ _ _ hc3 hc4 hRlt hc7]

/-- C2: under the C3 hypotheses (single uncached sub-range `r1` of `R` inside
one unloaded slot), after a successful `insert(data, R)` a second
`insert(data2, R)` on the resulting tree is a no-op: the uncached sub-range
computation finds nothing Unloaded, so no sub-range is inserted, no callback
state is touched (the props object comes back unchanged, so no
`dataCallback` fires) and the tree is returned structurally equal. -/
theorem c2_insert_idempotent (t : GiveTree) (data : List ChromRegion)
    (props0 : InsProps) (R r1 : ChromRegion) (res : List ChromRegion)
    (j : Nat) (ka kb L : Int)
    (data2 : List ChromRegion) (props2 : InsProps)
    (hlocal : t.localOnly = false)
    (hchrR : R.chr = t.chr)
    (hchr1 : r1.chr = t.chr)
    (hs : List.Chain' (· < ·) t.root.keys)
    (hkl : t.root.keys.length = t.root.vals.length + 1)
    (hja : t.root.keys.get? j = some ka)
    (hjb : t.root.keys.get? (j + 1) = some kb)
    (hjv : t.root.vals.get? j = some LeafSlot.unloaded)
    (hkaA : ka ≤ r1.start) (hAB : r1.start < r1.stop) (hBkb : r1.stop ≤ kb)
    (hlast : t.root.keys.get? (t.root.keys.length - 1) = some L)
    (h0 : t.root.keys.getD 0 0 ≤ R.start)
    (hRlt : R.start < R.stop)
    (huncached : uncachedRangesOf t [R] = Except.ok (res, [r1]))
    (honly : ∀ pt, R.start ≤ pt → pt < R.stop →
      coversNull t.root.keys t.root.vals pt = true →
      r1.start ≤ pt ∧ pt < r1.stop)
    (hsucc : (insertF t data (some [R]) props0).2 = Except.ok ()) :
    insertF (insertF t data (some [R]) props0).1.tree data2 (some [R]) props2 =
      ({ tree := (insertF t data (some [R]) props0).1.tree,
         data := sortCR data2, props := props2 }, Except.ok ()) := by
  obtain ⟨stF, hout, hc1, hc2, hc3, hc4, hc5, hc6, hc7⟩ :=
    insertF_single_core t data props0 R r1 res j ka kb L hlocal hchr1 hs hkl hja
      hjb hjv hkaA hAB hBkb hlast huncached honly hsucc
  have hcm : GiveTree.chrMatches stF.tree (some R) = true := by
    simp only [GiveTree.chrMatches]
    rw [hc1, beq_iff_eq.mpr hchrR, Bool.or_true]
  have hguard2 : (!stF.tree.localOnly && GiveTree.chrMatches stF.tree (some R))
      = true := by
    rw [hc2, hlocal, hcm]
    rfl
  obtain ⟨k0, hk0⟩ : ∃ x, t.root.keys.get? 0 = some x :=
    ⟨t.root.keys.get ⟨0, by
      have := (List.get?_eq_some.mp hja).1
      omega⟩, List.get?_eq_get _⟩
  have hk0R : k0 ≤ R.start := by
    rw [List.getD_eq_getElem?_getD, ← List.get?_eq_getElem?, hk0] at h0
    exact h0
  have hstF0 : stF.tree.root.keys.getD 0 0 = k0 := by
    rw [List.getD_eq_getElem?_getD, ← List.get?_eq_getElem?, hc5, hk0]
    rfl
  have htr2 : GiveNonLeafNode.truncateChrRange (stF.tree.root.keys.getD 0 0)
      (stF.tree.root.keys.getD (stF.tree.root.keys.length - 1) 0) R true false
      false = Except.ok R :=
    truncate_noop _ _ R true false false (by rw [hstF0]; exact hk0R)
      (fun h => absurd h (by simp))
  have htree : (insertF t data (some [R]) props0).1.tree = stF.tree := by
    rw [hout]
  have hget : getUncachedRangeFacade stF.tree (some R) [] =
      Except.ok ([], []) := by
    unfold getUncachedRangeFacade
    rw [if_pos hguard2]
    simp only [htr2]
    rw [getUncachedRangeFlat_unchanged _ _ _ [] hc3 hc4 hRlt hc7]
  have hlocal2 : stF.tree.localOnly = false := hc2.trans hlocal
  have hrs2 : (([R].foldl (fun acc range =>
      match acc with
      | Except.error e => Except.error e
      | Except.ok (res, _) => getUncachedRangeFacade stF.tree (some range) res)
      (Except.ok ([], []))) :
      Except String (List ChromRegion × List ChromRegion)) =
      Except.ok ([], []) := by
    rw [List.foldl_cons, List.foldl_nil]
    exact hget
  rw [htree]
  unfold insertF
  rw [hlocal2]
  simp only [Bool.false_eq_true, if_false, Option.getD_some]
  rw [hrs2]
  rfl

/-- C2/C3 witness scenario: a flat non-`localOnly` tree whose covering range
`[0, 10)` is one unloaded slot. -/
def w23tree : GiveTree :=
  { chr := "chr1", localOnly := false, branchingFactor := 20, lifeSpan := 0,
    currGen := none, witherActive := false, pendingOps := 0,
    root := { keys := [0, 10], vals := [LeafSlot.unloaded] } }

/-- C2/C3 witness range (also the single uncached sub-range). -/
def w23R : ChromRegion := { chr := "chr1", start := 2, stop := 8 }

/-- C2/C3 witness data batch. -/
def w23data : List ChromRegion := [{ chr := "chr1", start := 3, stop := 5 }]

theorem c3_witness :
    uncachedRangesOf w23tree [w23R] = Except.ok ([w23R], [w23R]) ∧
    (insertF w23tree w23data (some [w23R]) {}).2 = Except.ok () ∧
    hasUncachedRangeFacade (insertF w23tree w23data (some [w23R]) {}).1.tree
      (some w23R) = Except.ok false :=
  ⟨rfl, rfl,
    c3_insert_clears_uncached w23tree w23data {} w23R w23R [w23R] 0 0 10 10
      (by decide) rfl rfl
      (by
        show List.Chain' (· < ·) [(0 : Int), 10]
        exact List.chain'_cons.mpr ⟨by norm_num, List.chain'_singleton _⟩)
      rfl rfl rfl rfl (by decide) (by decide) (by decide) rfl (by decide)
      (by decide) rfl
      (by
        intro pt h1 h2 hc
        simp [coversNull, w23tree] at hc
        simp [w23R] at h1 h2 ⊢
        omega)
      rfl⟩

theorem c2_witness :
    (insertF w23tree w23data (some [w23R]) {}).2 = Except.ok () ∧
    insertF (insertF w23tree w23data (some [w23R]) {}).1.tree []
        (some [w23R]) {} =
      ({ tree := (insertF w23tree w23data (some [w23R]) {}).1.tree,
         data := sortCR [], props := {} }, Except.ok ()) :=
  ⟨rfl,
    c2_insert_idempotent w23tree w23data {} w23R w23R [w23R] 0 0 10 10 [] {}
      (by decide) rfl rfl
      (by
        show List.Chain' (· < ·) [(0 : Int), 10]
        exact List.chain'_cons.mpr ⟨by norm_num, List.chain'_singleton _⟩)
      rfl rfl rfl rfl (by decide) (by decide) (by decide) rfl (by decide)
      (by decide) rfl
      (by
        intro pt h1 h2 hc
        simp [coversNull, w23tree] at hc
        simp [w23R] at h1 h2 ⊢
        omega)
      rfl⟩

/-- The chopping loop of `SampleNode._splitChild` at `reverseDepth > 0`
(src/lib/sampleNode.js lines 144-164) at child-count level: with `sibsLeft`
counting down, each step chops `floor(remaining / (sibsLeft + 1))` children
off the end into a new sibling spliced right after the node; the list is the
final child counts in parent order (remaining node first, last chop next). -/
def splitChop : Nat → Nat → List Nat
  | rem, 0 => [rem]
  | rem, sibsLeft + 1 =>
    splitChop (rem - rem / (sibsLeft + 1 + 1)) sibsLeft ++ [rem / (sibsLeft + 1 + 1)]

/-- `SampleNode._splitChild` on an over-capacity child (`childNum > B`) at
child-count level: `numOfSibs = floor(childNum * 2 / B)` pieces
(src/lib/sampleNode.js lines 139-143). The early return for
`values[index].length <= branchingFactor` cannot fire here: `length` is the
covered coordinate span `end - start`, and strictly increasing integer keys
give `childNum <= length`, so `childNum > B` forces `length > B`. -/
def splitCounts (B c : Nat) : List Nat := splitChop c (c * 2 / B - 1)

/-- `SampleNode._redistributeGrandChildren` (src/lib/sampleNode.js lines
168-201) at child-count level: the former sibling is brought to
`min(floor((a+b)/2), B)` children and the latter keeps the rest. When
`deltaNum = 0` the `else` branch's `slice(0)`/`splice(0)` move *all* of the
former sibling's children into the latter (this corner is unreachable from
the restructuring loop, but is modelled faithfully). -/
def redistCounts (B a b : Nat) : Nat × Nat :=
  let s := min ((a + b) / 2) B
  if s = a then (0, a + b) else (s, a + b - s)

/-- Apply `_redistributeGrandChildren(j)` to the parent's child-count list:
the pair `(j-1, j)` is rebalanced. -/
def redistApply (B : Nat) (cs : List Nat) (j : Nat) : List Nat :=
  ((cs.set (j - 1) (redistCounts B (cs.getD (j - 1) 0) (cs.getD j 0)).1).set j
    (redistCounts B (cs.getD (j - 1) 0) (cs.getD j 0)).2)

/-- `_mergeChild(j)` from the restructuring loop at child-count level: the
loop only merges when the pair's combined count is at most `B`, in which
case `SampleNode.mergeAfter` (src/lib/sampleNode.js lines 107-110) appends
the latter sibling's children to the former and the parent splices the
latter out. -/
def mergeApply (cs : List Nat) (j : Nat) : List Nat :=
  (cs.set (j - 1) (cs.getD (j - 1) 0 + cs.getD j 0)).eraseIdx j

/-- The child loop of `SampleNode._restructureImmediateChildren` on a root
(`intermediate` unset, so the non-root `CannotBalanceError` throw never
fires) at child-count level, one fuel unit per `for` iteration
(src/lib/sampleNode.js lines 284-328): an under-populated child
(`childNum < B / 2`, JavaScript real division, i.e. `2 * childNum < B`) is
redistributed with its sibling when the pair exceeds `B` and merged
otherwise (re-examining the same index, the loop's `i--`); an
over-populated child (`childNum > B`) is redistributed when the pair stays
under `2 * B` and split otherwise (jumping past the new siblings, the
loop's `i += numOfSibs - 1`); the single-child root case is skipped. -/
def restructStep (B : Nat) : Nat → Nat → List Nat → Option (List Nat)
  | 0, _, _ => none
  | fuel + 1, i, cs =>
    if i < cs.length then
      if 2 * cs.getD i 0 < B then
        if cs.length ≤ 1 then restructStep B fuel (i + 1) cs
        else if B < cs.getD (if i < cs.length - 1 then i else i - 1) 0 +
            cs.getD (if i < cs.length - 1 then i + 1 else i) 0 then
          restructStep B fuel (i + 1)
            (redistApply B cs (if i < cs.length - 1 then i + 1 else i))
        else restructStep B fuel i
          (mergeApply cs (if i < cs.length - 1 then i + 1 else i))
      else if B < cs.getD i 0 then
        if 1 < cs.length ∧ cs.getD (if i < cs.length - 1 then i else i - 1) 0 +
            cs.getD (if i < cs.length - 1 then i + 1 else i) 0 < 2 * B then
          restructStep B fuel (i + 1)
            (redistApply B cs (if i < cs.length - 1 then i + 1 else i))
        else
          restructStep B fuel (i + (splitCounts B (cs.getD i 0)).length)
            (cs.take i ++ splitCounts B (cs.getD i 0) ++ cs.drop (i + 1))
      else restructStep B fuel (i + 1) cs
    else some cs

/-- The root-growing `do`/`while` of `SampleNode._restructureRoot`
(src/lib/sampleNode.js lines 208-224) at child-count level: while the root
has more than `B` children, stack a fresh root with the old root as its
sole child and `_splitChild(0)` it, so the new root's child count is the
number of split pieces. Returns the number of layers added and the final
root child count. -/
def rootGrowCounts (B : Nat) : Nat → Nat → Option (Nat × Nat)
  | 0, c => if B < c then none else some (0, c)
  | fuel + 1, c =>
    if B < c then
      match rootGrowCounts B fuel (splitCounts B c).length with
      | some (l, c2) => some (l + 1, c2)
      | none => none
    else some (0, c)

/-- The root-reducing `do`/`while` of `SampleNode._restructureRoot`
(src/lib/sampleNode.js lines 225-234): step into `values[0]`
unconditionally, then keep descending while the candidate still has
`childNum <= 1` and `reverseDepth > 0`. The spine lists
`(childNum, reverseDepth)` of `values[0]`, `values[0].values[0]`, ... -/
def promoteLoopC : Nat → List (Nat × Nat) → Option (Nat × Nat)
  | _, [] => none
  | fuel, x :: rest =>
    if x.1 ≤ 1 ∧ 0 < x.2 then
      match fuel with
      | 0 => none
      | fuel + 1 => promoteLoopC fuel rest
    else some x

theorem splitChop_length : ∀ (m rem : Nat), (splitChop rem m).length = m + 1 := by
  intro m
  induction m with
  | zero => intro rem; rfl
  | succ m ih =>
    intro rem
    unfold splitChop
    rw [List.length_append, ih]
    rfl

theorem splitChop_bounds : ∀ (m rem L U : Nat),
    L * (m + 1) ≤ rem → rem ≤ U * (m + 1) →
    ∀ p ∈ splitChop rem m, L ≤ p ∧ p ≤ U := by
  intro m
  induction m with
  | zero =>
    intro rem L U h1 h2 p hp
    simp only [splitChop, List.mem_singleton] at hp
    subst hp
    omega
  | succ m ih =>
    intro rem L U h1 h2 p hp
    have hpos : 0 < m + 2 := by omega
    have hdm := Nat.div_add_mod rem (m + 2)
    have hkL : L ≤ rem / (m + 2) := by
      rw [Nat.le_div_iff_mul_le hpos]
      calc L * (m + 2) = L * (m + 1 + 1) := by ring
        _ ≤ rem := h1
    have hkU : rem / (m + 2) ≤ U := by
      calc rem / (m + 2) ≤ U * (m + 2) / (m + 2) := by
            apply Nat.div_le_div_right
            calc rem ≤ U * (m + 1 + 1) := h2
              _ = U * (m + 2) := by ring
        _ = U := Nat.mul_div_cancel _ hpos
    obtain ⟨r, hr, hrem⟩ : ∃ r, r < m + 2 ∧ rem = (rem / (m + 2)) * (m + 2) + r :=
      ⟨rem % (m + 2), Nat.mod_lt _ (by omega), by
        have h1 := Nat.div_add_mod rem (m + 2)
        have h2 : (m + 2) * (rem / (m + 2)) = (rem / (m + 2)) * (m + 2) :=
          Nat.mul_comm _ _
        omega⟩
    have hsub : rem - rem / (m + 2) = (rem / (m + 2)) * (m + 1) + r := by
      have he : (rem / (m + 2)) * (m + 2) =
          (rem / (m + 2)) * (m + 1) + rem / (m + 2) := by ring
      omega
    unfold splitChop at hp
    rw [List.mem_append, List.mem_singleton] at hp
    rcases hp with hp | hp
    · refine ih (rem - rem / (m + 2)) L U ?_ ?_ p hp
      · have hml : L * (m + 1) ≤ (rem / (m + 2)) * (m + 1) :=
          Nat.mul_le_mul_right _ hkL
        omega
      · rcases Nat.eq_or_lt_of_le hkU with hke | hkl2
        · have hUe : U * (m + 1 + 1) = (rem / (m + 2)) * (m + 2) := by
            rw [← hke]
            try ring
          have hr0 : r = 0 := by omega
          have hUe2 : U * (m + 1) = (rem / (m + 2)) * (m + 1) := by
            rw [← hke]
          omega
        · have hmu2 : (rem / (m + 2)) * (m + 1) + (m + 1) ≤ U * (m + 1) := by
            have h5 : (rem / (m + 2) + 1) * (m + 1) ≤ U * (m + 1) :=
              Nat.mul_le_mul_right _ hkl2
            calc (rem / (m + 2)) * (m + 1) + (m + 1)
                = (rem / (m + 2) + 1) * (m + 1) := by ring
              _ ≤ U * (m + 1) := h5
          omega
    · subst hp
      exact ⟨hkL, hkU⟩

theorem splitCounts_bounds (B c : Nat) (hB : 1 ≤ B) (hc : B < c) :
    (∀ p ∈ splitCounts B c, B / 2 ≤ p ∧ p ≤ B) ∧
    1 < (splitCounts B c).length := by
  have hn2 : 2 ≤ c * 2 / B := by
    rw [Nat.le_div_iff_mul_le (by omega)]
    omega
  have hlen : (splitCounts B c).length = c * 2 / B := by
    unfold splitCounts
    rw [splitChop_length]
    omega
  constructor
  · intro p hp
    refine splitChop_bounds (c * 2 / B - 1) c (B / 2) B ?_ ?_ p hp
    · have h1 : (B / 2) * (c * 2 / B) ≤ (B * (c * 2 / B)) / 2 := by
        rw [Nat.le_div_iff_mul_le (by omega)]
        have : (B / 2) * 2 ≤ B := by omega
        calc B / 2 * (c * 2 / B) * 2 = (B / 2 * 2) * (c * 2 / B) := by ring
          _ ≤ B * (c * 2 / B) := Nat.mul_le_mul_right _ this
      have h2 : B * (c * 2 / B) ≤ c * 2 := Nat.mul_div_le _ _
      have h3 : c * 2 / B - 1 + 1 = c * 2 / B := by omega
      rw [h3]
      omega
    · have h3 : c * 2 / B - 1 + 1 = c * 2 / B := by omega
      rw [h3]
      have hdm := Nat.div_add_mod (c * 2) B
      have hmod : c * 2 % B < B := Nat.mod_lt _ (by omega)
      have hexp : B * (c * 2 / B) = (c * 2 / B) * B := by ring
      -- c ≤ B * (c * 2 / B): from B * q = 2c - r with r < B ≤ c
      omega
  · omega

theorem getD_set_ne (l : List Nat) (i j a : Nat) (h : i ≠ j) :
    (l.set i a).getD j 0 = l.getD j 0 := by
  rw [List.getD_eq_getElem?_getD, List.getD_eq_getElem?_getD,
    ← List.get?_eq_getElem?, ← List.get?_eq_getElem?, List.get?_set_ne _ _ h]

theorem getD_set_self (l : List Nat) (i a : Nat) (h : i < l.length) :
    (l.set i a).getD i 0 = a := by
  rw [List.getD_eq_getElem?_getD, ← List.get?_eq_getElem?, List.get?_set_eq]
  obtain ⟨x, hx⟩ : ∃ x, l.get? i = some x := ⟨l.get ⟨i, h⟩, List.get?_eq_get h⟩
  rw [hx]
  rfl

theorem getD_erase_lt (l : List Nat) (i q : Nat) (h : q < i) :
    (l.eraseIdx i).getD q 0 = l.getD q 0 := by
  rw [List.getD_eq_getElem?_getD, List.getD_eq_getElem?_getD,
    ← List.get?_eq_getElem?, ← List.get?_eq_getElem?, erase_get?_lt _ _ _ h]

theorem getD_erase_ge (l : List Nat) (i q : Nat) (h : i ≤ q) :
    (l.eraseIdx i).getD q 0 = l.getD (q + 1) 0 := by
  rw [List.getD_eq_getElem?_getD, List.getD_eq_getElem?_getD,
    ← List.get?_eq_getElem?, ← List.get?_eq_getElem?, erase_get?_ge _ _ _ h]

theorem getD_splice_lt (cs mid : List Nat) (i q : Nat) (hq : q < i)
    (hi : i ≤ cs.length) :
    (cs.take i ++ mid ++ cs.drop (i + 1)).getD q 0 = cs.getD q 0 := by
  rw [List.getD_eq_getElem?_getD, List.getD_eq_getElem?_getD,
    ← List.get?_eq_getElem?, ← List.get?_eq_getElem?]
  rw [List.append_assoc, List.get?_append (by rw [List.length_take]; omega)]
  rw [List.get?_take hq]

theorem getD_splice_mid (cs mid : List Nat) (i q : Nat) (hq : i ≤ q)
    (hq2 : q - i < mid.length) (hi : i ≤ cs.length) :
    (cs.take i ++ mid ++ cs.drop (i + 1)).getD q 0 = mid.getD (q - i) 0 := by
  rw [List.getD_eq_getElem?_getD, List.getD_eq_getElem?_getD,
    ← List.get?_eq_getElem?, ← List.get?_eq_getElem?]
  rw [List.append_assoc, List.get?_append_right (by rw [List.length_take]; omega)]
  rw [List.get?_append (by rw [List.length_take]; omega)]
  congr 1
  rw [List.length_take, Nat.min_eq_left hi]

theorem length_splice (cs mid : List Nat) (i : Nat) (hi : i < cs.length) :
    (cs.take i ++ mid ++ cs.drop (i + 1)).length =
      i + mid.length + (cs.length - (i + 1)) := by
  simp only [List.length_append, List.length_take, List.length_drop]
  omega

theorem getD_mem (l : List Nat) (q : Nat) (h : q < l.length) :
    l.getD q 0 ∈ l := by
  rw [List.getD_eq_getElem?_getD, ← List.get?_eq_getElem?, List.get?_eq_get h]
  exact List.get_mem l q h

theorem mem_getD (l : List Nat) (c : Nat) (h : c ∈ l) :
    ∃ q, q < l.length ∧ l.getD q 0 = c := by
  obtain ⟨⟨q, hq⟩, rfl⟩ := List.mem_iff_get.mp h
  refine ⟨q, hq, ?_⟩
  rw [List.getD_eq_getElem?_getD, ← List.get?_eq_getElem?, List.get?_eq_get hq]
  rfl

theorem redistCounts_fst_under (B a b : Nat) (ha : 2 * a < B)
    (hsum : B < a + b) :
    B / 2 ≤ (redistCounts B a b).1 ∧ (redistCounts B a b).1 ≤ B := by
  unfold redistCounts
  rcases Nat.le_total ((a + b) / 2) B with hm | hm
  · rw [min_eq_left hm, if_neg (by omega)]
    constructor <;> omega
  · rw [min_eq_right hm, if_neg (by omega)]
    constructor <;> omega

theorem redistCounts_fst_over (B a b : Nat) (ha : B < a) :
    B / 2 ≤ (redistCounts B a b).1 ∧ (redistCounts B a b).1 ≤ B := by
  unfold redistCounts
  rcases Nat.le_total ((a + b) / 2) B with hm | hm
  · rw [min_eq_left hm, if_neg (by omega)]
    constructor <;> omega
  · rw [min_eq_right hm, if_neg (by omega)]
    constructor <;> omega

theorem redistCounts_both_underlast (B a b : Nat) (haC : B / 2 ≤ a)
    (haB : a ≤ B) (hb : 2 * b < B) (hsum : B < a + b) :
    (B / 2 ≤ (redistCounts B a b).1 ∧ (redistCounts B a b).1 ≤ B) ∧
    (B / 2 ≤ (redistCounts B a b).2 ∧ (redistCounts B a b).2 ≤ B) := by
  unfold redistCounts
  rcases Nat.le_total ((a + b) / 2) B with hm | hm
  · rw [min_eq_left hm, if_neg (by omega)]
    refine ⟨⟨by omega, by omega⟩, by omega, by omega⟩
  · rw [min_eq_right hm, if_neg (by omega)]
    refine ⟨⟨by omega, by omega⟩, by omega, by omega⟩

theorem redistCounts_both_overlast (B a b : Nat) (haC : B / 2 ≤ a)
    (haB : a ≤ B) (hb : B < b) (hsum2 : a + b < 2 * B) :
    (B / 2 ≤ (redistCounts B a b).1 ∧ (redistCounts B a b).1 ≤ B) ∧
    (B / 2 ≤ (redistCounts B a b).2 ∧ (redistCounts B a b).2 ≤ B) := by
  unfold redistCounts
  rcases Nat.le_total ((a + b) / 2) B with hm | hm
  · rw [min_eq_left hm, if_neg (by omega)]
    refine ⟨⟨by omega, by omega⟩, by omega, by omega⟩
  · rw [min_eq_right hm, if_neg (by omega)]
    refine ⟨⟨by omega, by omega⟩, by omega, by omega⟩

theorem restructStep_bounds (B : Nat) (hB : 1 ≤ B) :
    ∀ fuel i cs cs', restructStep B fuel i cs = some cs' →
      (1 < cs.length → ∀ j, j < i → j < cs.length →
        B / 2 ≤ cs.getD j 0 ∧ cs.getD j 0 ≤ B) →
      cs'.length ≤ 1 ∨ ∀ c ∈ cs', B / 2 ≤ c ∧ c ≤ B := by
  intro fuel
  induction fuel with
  | zero =>
    intro i cs cs' h hinv
    exact absurd h (by simp [restructStep])
  | succ fuel ih =>
    intro i cs cs' h hinv
    unfold restructStep at h
    by_cases hlen : i < cs.length
    · rw [if_pos hlen] at h
      by_cases hedge : i < cs.length - 1
      · rw [if_pos hedge, if_pos hedge] at h
        have hlen2 : 1 < cs.length := by omega
        by_cases hui : 2 * cs.getD i 0 < B
        · rw [if_pos hui, if_neg (by omega)] at h
          by_cases hsum : B < cs.getD i 0 + cs.getD (i + 1) 0
          · rw [if_pos hsum] at h
            refine ih (i + 1) _ cs' h ?_
            intro _ j hj hj2
            unfold redistApply at hj2 ⊢
            simp only [Nat.add_sub_cancel] at hj2 ⊢
            by_cases hji : j = i
            · subst hji
              rw [getD_set_ne _ _ _ _ (by omega), getD_set_self _ _ _ (by omega)]
              exact redistCounts_fst_under B _ _ hui hsum
            · rw [getD_set_ne _ _ _ _ (by omega), getD_set_ne _ _ _ _ (by omega)]
              exact hinv hlen2 j (by omega) (by omega)
          · rw [if_neg hsum] at h
            refine ih i _ cs' h ?_
            intro _ j hj hj2
            unfold mergeApply
            rw [getD_erase_lt _ _ _ (by omega), getD_set_ne _ _ _ _ (by omega)]
            exact hinv hlen2 j (by omega) (by omega)
        · rw [if_neg hui] at h
          by_cases hoi : B < cs.getD i 0
          · rw [if_pos hoi] at h
            by_cases hcond : 1 < cs.length ∧
                cs.getD i 0 + cs.getD (i + 1) 0 < 2 * B
            · rw [if_pos hcond] at h
              refine ih (i + 1) _ cs' h ?_
              intro _ j hj hj2
              unfold redistApply at hj2 ⊢
              simp only [Nat.add_sub_cancel] at hj2 ⊢
              by_cases hji : j = i
              · subst hji
                rw [getD_set_ne _ _ _ _ (by omega), getD_set_self _ _ _ (by omega)]
                exact redistCounts_fst_over B _ _ hoi
              · rw [getD_set_ne _ _ _ _ (by omega), getD_set_ne _ _ _ _ (by omega)]
                exact hinv hlen2 j (by omega) (by omega)
            · rw [if_neg hcond] at h
              obtain ⟨hpieces, hplen⟩ := splitCounts_bounds B (cs.getD i 0) hB hoi
              refine ih _ _ cs' h ?_
              intro _ j hj hj2
              rw [length_splice _ _ _ hlen] at hj2
              by_cases hji : j < i
              · rw [getD_splice_lt _ _ _ _ hji (by omega)]
                exact hinv hlen2 j (by omega) (by omega)
              · rw [getD_splice_mid _ _ _ _ (by omega) (by omega) (by omega)]
                exact hpieces _ (getD_mem _ _ (by omega))
          · rw [if_neg hoi] at h
            refine ih (i + 1) cs cs' h ?_
            intro _ j hj hj2
            by_cases hji : j = i
            · subst hji
              omega
            · exact hinv hlen2 j (by omega) hj2
      · rw [if_neg hedge, if_neg hedge] at h
        have hieq : i = cs.length - 1 := by omega
        by_cases hui : 2 * cs.getD i 0 < B
        · rw [if_pos hui] at h
          by_cases hone : cs.length ≤ 1
          · rw [if_pos hone] at h
            refine ih (i + 1) cs cs' h ?_
            intro hl
            omega
          · rw [if_neg hone] at h
            have hlen2 : 1 < cs.length := by omega
            have hipos : 1 ≤ i := by omega
            have hprev := hinv hlen2 (i - 1) (by omega) (by omega)
            by_cases hsum : B < cs.getD (i - 1) 0 + cs.getD i 0
            · rw [if_pos hsum] at h
              obtain ⟨hf, hs⟩ := redistCounts_both_underlast B _ _ hprev.1
                hprev.2 hui hsum
              refine ih (i + 1) _ cs' h ?_
              intro _ j hj hj2
              unfold redistApply at hj2 ⊢
              rw [List.length_set, List.length_set] at hj2
              by_cases hji : j = i
              · subst hji
                rw [getD_set_self _ _ _ (by rw [List.length_set]; omega)]
                exact hs
              · by_cases hji2 : j = i - 1
                · subst hji2
                  rw [getD_set_ne _ _ _ _ (by omega), getD_set_self _ _ _ (by
                    omega)]
                  exact hf
                · rw [getD_set_ne _ _ _ _ (by omega),
                    getD_set_ne _ _ _ _ (by omega)]
                  exact hinv hlen2 j (by omega) hj2
            · rw [if_neg hsum] at h
              refine ih i _ cs' h ?_
              intro _ j hj hj2
              unfold mergeApply at hj2 ⊢
              rw [List.length_eraseIdx_of_lt (by rw [List.length_set]; omega),
                List.length_set] at hj2
              by_cases hji : j = i - 1
              · subst hji
                rw [getD_erase_lt _ _ _ (by omega), getD_set_self _ _ _ (by
                  omega)]
                constructor
                · omega
                · omega
              · rw [getD_erase_lt _ _ _ (by omega),
                  getD_set_ne _ _ _ _ (by omega)]
                exact hinv hlen2 j (by omega) (by omega)
        · rw [if_neg hui] at h
          by_cases hoi : B < cs.getD i 0
          · rw [if_pos hoi] at h
            by_cases hcond : 1 < cs.length ∧
                cs.getD (i - 1) 0 + cs.getD i 0 < 2 * B
            · rw [if_pos hcond] at h
              have hipos : 1 ≤ i := by omega
              have hprev := hinv hcond.1 (i - 1) (by omega) (by omega)
              obtain ⟨hf, hs⟩ := redistCounts_both_overlast B _ _ hprev.1
                hprev.2 hoi hcond.2
              refine ih (i + 1) _ cs' h ?_
              intro _ j hj hj2
              unfold redistApply at hj2 ⊢
              rw [List.length_set, List.length_set] at hj2
              by_cases hji : j = i
              · subst hji
                rw [getD_set_self _ _ _ (by rw [List.length_set]; omega)]
                exact hs
              · by_cases hji2 : j = i - 1
                · subst hji2
                  rw [getD_set_ne _ _ _ _ (by omega), getD_set_self _ _ _ (by
                    omega)]
                  exact hf
                · rw [getD_set_ne _ _ _ _ (by omega),
                    getD_set_ne _ _ _ _ (by omega)]
                  exact hinv hcond.1 j (by omega) hj2
            · rw [if_neg hcond] at h
              obtain ⟨hpieces, hplen⟩ := splitCounts_bounds B (cs.getD i 0) hB hoi
              refine ih _ _ cs' h ?_
              intro _ j hj hj2
              rw [length_splice _ _ _ hlen] at hj2
              by_cases hji : j < i
              · rw [getD_splice_lt _ _ _ _ hji (by omega)]
                refine hinv (by omega) j (by omega) (by omega)
              · rw [getD_splice_mid _ _ _ _ (by omega) (by omega) (by omega)]
                exact hpieces _ (getD_mem _ _ (by omega))
          · rw [if_neg hoi] at h
            refine ih (i + 1) cs cs' h ?_
            intro hl j hj hj2
            by_cases hji : j = i
            · subst hji
              omega
            · exact hinv hl j (by omega) hj2
    · rw [if_neg hlen] at h
      cases h
      by_cases hl : 1 < cs.length
      · right
        intro c hc
        obtain ⟨q, hq, rfl⟩ := mem_getD cs c hc
        exact hinv hl q (by omega) hq
      · left
        omega

theorem rootGrowCounts_spec (B : Nat) :
    ∀ fuel c l c2, rootGrowCounts B fuel c = some (l, c2) →
      c2 ≤ B ∧ (B < c → 1 ≤ l) ∧ (c ≤ B → l = 0 ∧ c2 = c) := by
  intro fuel
  induction fuel with
  | zero =>
    intro c l c2 h
    unfold rootGrowCounts at h
    by_cases hc : B < c
    · rw [if_pos hc] at h
      exact absurd h (by simp)
    · rw [if_neg hc] at h
      simp only [Option.some.injEq, Prod.mk.injEq] at h
      obtain ⟨h1, h2⟩ := h
      subst h1
      subst h2
      exact ⟨by omega, by omega, fun _ => ⟨rfl, rfl⟩⟩
  | succ fuel ih =>
    intro c l c2 h
    unfold rootGrowCounts at h
    by_cases hc : B < c
    · rw [if_pos hc] at h
      rcases hrec : rootGrowCounts B fuel (splitCounts B c).length with _ | ⟨l2, c3⟩
      · rw [hrec] at h
        exact absurd h (by simp)
      · rw [hrec] at h
        simp only [Option.some.injEq, Prod.mk.injEq] at h
        obtain ⟨h1, h2⟩ := h
        subst h1
        subst h2
        have hih := ih _ _ _ hrec
        exact ⟨hih.1, fun _ => by omega, fun hle => absurd hle (by omega)⟩
    · rw [if_neg hc] at h
      simp only [Option.some.injEq, Prod.mk.injEq] at h
      obtain ⟨h1, h2⟩ := h
      subst h1
      subst h2
      exact ⟨by omega, by omega, fun _ => ⟨rfl, rfl⟩⟩

theorem promoteLoopC_spec :
    ∀ fuel spine x, promoteLoopC fuel spine = some x →
      ¬(x.1 ≤ 1 ∧ 0 < x.2) ∧ x ∈ spine := by
  intro fuel
  induction fuel with
  | zero =>
    intro spine x h
    rcases spine with _ | ⟨y, rest⟩
    · exact absurd h (by simp [promoteLoopC])
    · unfold promoteLoopC at h
      by_cases hy : y.1 ≤ 1 ∧ 0 < y.2
      · rw [if_pos hy] at h
        exact absurd h (by simp)
      · rw [if_neg hy] at h
        simp only [Option.some.injEq] at h
        subst h
        exact ⟨hy, List.mem_cons_self _ _⟩
  | succ fuel ih =>
    intro spine x h
    rcases spine with _ | ⟨y, rest⟩
    · exact absurd h (by simp [promoteLoopC])
    · unfold promoteLoopC at h
      by_cases hy : y.1 ≤ 1 ∧ 0 < y.2
      · rw [if_pos hy] at h
        obtain ⟨h1, h2⟩ := ih rest x h
        exact ⟨h1, List.mem_cons_of_mem _ h2⟩
      · rw [if_neg hy] at h
        simp only [Option.some.injEq] at h
        subst h
        exact ⟨hy, List.mem_cons_self _ _⟩

/-- C4: in the auto-balancing SampleNode tree with branching factor `B`,
restructuring enforces the node-occupancy invariant. At child-count level:
(a) whenever the child loop of `_restructureImmediateChildren`
(src/lib/sampleNode.js lines 280-335) on a root completes from index 0, every
remaining child has between `floor(B/2)` and `B` children, unless the root was
left with at most one child (the single-child skip); (b) the root-growing loop
of `_restructureRoot` (lines 208-224) leaves the root with at most `B`
children, adds at least one level exactly when the old root exceeded `B`
children, and does nothing otherwise; (c) the root-promotion loop (lines
225-234) replaces the root by the first descendant on the `values[0]` spine
that does not satisfy `childNum <= 1 && reverseDepth > 0`, i.e. the promotion
fires exactly while the candidate has at most one child and positive
reverseDepth. -/
theorem c4_restructure_bounds (B : Nat) (hB : 1 ≤ B) :
    (∀ fuel cs cs', restructStep B fuel 0 cs = some cs' →
      cs'.length ≤ 1 ∨ ∀ c ∈ cs', B / 2 ≤ c ∧ c ≤ B) ∧
    (∀ fuel c l c2, rootGrowCounts B fuel c = some (l, c2) →
      c2 ≤ B ∧ (B < c → 1 ≤ l) ∧ (c ≤ B → l = 0 ∧ c2 = c)) ∧
    (∀ fuel spine x, promoteLoopC fuel spine = some x →
      ¬(x.1 ≤ 1 ∧ 0 < x.2) ∧ x ∈ spine) := by
  refine ⟨?_, rootGrowCounts_spec B, promoteLoopC_spec⟩
  intro fuel cs cs' h
  exact restructStep_bounds B hB fuel 0 cs cs' h
    (fun _ j hj _ => absurd hj (by omega))

theorem c4_witness :
    1 ≤ 4 ∧
    (([3, 3] : List Nat).length ≤ 1 ∨ ∀ c ∈ ([3, 3] : List Nat), 4 / 2 ≤ c ∧ c ≤ 4) ∧
    (4 ≤ 4 ∧ (4 < 9 → 1 ≤ 1) ∧ (9 ≤ 4 → 1 = 0 ∧ 4 = 9)) ∧
    (¬(((3, 1) : Nat × Nat).1 ≤ 1 ∧ 0 < ((3, 1) : Nat × Nat).2) ∧
      ((3, 1) : Nat × Nat) ∈ [((1 : Nat), (2 : Nat)), (3, 1)]) :=
  ⟨by decide,
   (c4_restructure_bounds 4 (by decide)).1 10 [5, 1] [3, 3] (by decide),
   (c4_restructure_bounds 4 (by decide)).2.1 10 9 1 4 (by decide),
   (c4_restructure_bounds 4 (by decide)).2.2 10 [(1, 2), (3, 1)] (3, 1) (by decide)⟩
